import Mathlib

/-!
# Buffer cache (`kernel/bio.c`)

A shallow embedding of the hash-bucketed buffer cache: `hash`, `bget`, `bread`,
`bwrite`, `brelse`, `bpin`, `bunpin`.

* `uint` fields are natural numbers; `++` and `--` on them are taken modulo `2 ^ 32`.
* `bcache[NBUCKET]` with `buf[NB]` per bucket is a function from a bucket index and a
  slot index to a `Buf`.  Only indices `i < NBUCKET`, `j < NB` denote slots; the
  operations never read or write any other index, and an array access with a bucket
  index outside `0 .. NBUCKET - 1` is reported as `Status.fault`.
* `ticks` (a global that the timer changes) and the calling process are arguments.
* Every operation returns how it ended, the state it left, and the lock and disk
  events it issued, in order.
-/

namespace Bio

/-- Number of buckets, `#define NBUCKET 13`. -/
def NBUCKET : Nat := 13

/-- Number of slots per bucket, `#define NB 5`. -/
def NB : Nat := 5

/-- Modelled from the spec: `struct buf` is declared in `buf.h`, which is not among the
sources.  The spec lists its attributes: device id, block number, validity flag,
reference count, last-use timestamp, data payload, and a suspending exclusive lock.
`dev`, `blockno`, `refcnt` and `lastuse` are `uint` (they are compared with and assigned
from `uint` values in `bio.c`); `valid` is a flag; `lock` is the process that holds the
sleep lock, if any ("exactly one holder may hold a buffer's exclusive lock at a time"). -/
structure Buf where
  valid : Bool
  dev : Nat
  blockno : Nat
  lock : Option Nat
  refcnt : Nat
  lastuse : Nat
  data : List Nat
deriving DecidableEq

/-- A `struct buf *` into `bcache`: bucket index and slot index. -/
abbrev BufRef := Nat × Nat

/-- The array `bcache[NBUCKET]`, each bucket with its `buf[NB]`. -/
abbrev Cache := Nat → Nat → Buf

/-- Modelled from the spec: the disk, "a map from (dev, blockno) to block contents". -/
abbrev Disk := Nat → Nat → List Nat

/-- The cache together with the disk behind it. -/
structure State where
  bcache : Cache
  disk : Disk

/-- Lock and I/O calls, in the order they are made. -/
inductive Event where
  | acquire (bucket : Int)
  | release (bucket : Int)
  | acquiresleep (b : BufRef)
  | releasesleep (b : BufRef)
  | virtio_disk_rw (b : BufRef) (write : Bool)
deriving DecidableEq

/-- How a call ends: it returns a value, it halts in `panic`, it is suspended inside
`acquiresleep` waiting for the lock of a buffer, or it indexes `bcache` out of bounds. -/
inductive Status (α : Type) where
  | returned (v : α)
  | panicked (msg : String)
  | asleep (b : BufRef)
  | fault
deriving DecidableEq

/-- Outcome of a call. -/
structure Result (α : Type) where
  status : Status α
  state : State
  events : List Event

/-- The zero-initialised `bcache` (a C global). -/
def zeroBuf : Buf :=
  { valid := false, dev := 0, blockno := 0, lock := none, refcnt := 0, lastuse := 0, data := [] }

/-- The cache before any call: every slot zero. -/
def zeroCache : Cache := fun _ _ => zeroBuf

/-- Assignment through a `struct buf *`: replace one slot. -/
def Cache.set (c : Cache) (b : BufRef) (v : Buf) : Cache :=
  fun i j => if i = b.1 ∧ j = b.2 then v else c i j

/-- The slot a `struct buf *` points to. -/
def Cache.at (c : Cache) (b : BufRef) : Buf := c b.1 b.2

/-- Conversion of a `uint` argument to the `int` parameter of `hash` (two's complement). -/
def toInt (n : Nat) : Int :=
  if n % 2 ^ 32 < 2 ^ 31 then ((n % 2 ^ 32 : Nat) : Int) else ((n % 2 ^ 32 : Nat) : Int) - 2 ^ 32

/-- The function `int hash(int n)`, `return n % NBUCKET;`: the C remainder truncates toward
zero. -/
def hash (n : Int) : Int := Int.tmod n (NBUCKET : Int)

/-- Is `h` an index into `bcache[NBUCKET]`? -/
def inRange (h : Int) : Bool := decide (0 ≤ h) && decide (h < (NBUCKET : Int))

/-- Modelled from the spec: `holdingsleep` (`sleeplock.c` is not among the sources), true
when the calling process is the holder of the suspending lock. -/
def holdingsleep (lk : Option Nat) (pid : Nat) : Bool := decide (lk = some pid)

/-- First loop of `bget`: `for(int i = 0; i < NB; i++)`, returning at the first slot whose
`dev` and `blockno` match.  `n` is the number of slots still to visit, `i` the next one. -/
def findCached (bk : Nat → Buf) (dev blockno : Nat) : Nat → Nat → Option Nat
  | 0, _ => none
  | n + 1, i =>
    if (bk i).dev = dev ∧ (bk i).blockno = blockno then some i
    else findCached bk dev blockno n (i + 1)

/-- Body of the second loop of `bget` at slot `j`, on the pair `(min, index)`. -/
def lruStep (bk : Nat → Buf) (acc : Nat × Int) (j : Nat) : Nat × Int :=
  if (bk j).lastuse < acc.1 ∧ (bk j).refcnt = 0 then ((bk j).lastuse, (j : Int)) else acc

/-- Second loop of `bget`: `uint min = 0xffffffff; int index = -1; for(int j = 0; j<NB; j++)`. -/
def lruScan (bk : Nat → Buf) : Nat × Int :=
  (List.range NB).foldl (lruStep bk) (0xffffffff, -1)

/-- Modelled from the spec: `acquiresleep` (`sleeplock.c` is not among the sources).  The
caller takes the lock when nobody holds it and is suspended otherwise. -/
def acquiresleep (s : State) (pid : Nat) (b : BufRef) (ev : List Event) : Result BufRef :=
  match (s.bcache.at b).lock with
  | none =>
    { status := .returned b
      state := { s with bcache := s.bcache.set b { s.bcache.at b with lock := some pid } }
      events := ev ++ [.acquiresleep b] }
  | some _ => { status := .asleep b, state := s, events := ev ++ [.acquiresleep b] }

/-- The function `static struct buf* bget(uint dev, uint blockno)`. -/
def bget (s : State) (ticks pid dev blockno : Nat) : Result BufRef :=
  let hash_b := hash (toInt blockno)
  if inRange hash_b = false then { status := .fault, state := s, events := [] }
  else
    let h := hash_b.toNat
    match findCached (s.bcache h) dev blockno NB 0 with
    | some i =>
      let b := s.bcache h i
      let b1 : Buf := { b with refcnt := (b.refcnt + 1) % 2 ^ 32, lastuse := ticks }
      let s1 : State := { s with bcache := s.bcache.set (h, i) b1 }
      acquiresleep s1 pid (h, i) [.acquire hash_b, .release hash_b]
    | none =>
      let index := (lruScan (s.bcache h)).2
      if index < 0 then
        { status := .panicked "bget: no buffers", state := s, events := [.acquire hash_b] }
      else
        let k := index.toNat
        let b := s.bcache h k
        let b1 : Buf := { b with dev := dev, blockno := blockno, valid := false, refcnt := 1 }
        let s1 : State := { s with bcache := s.bcache.set (h, k) b1 }
        acquiresleep s1 pid (h, k) [.acquire hash_b, .release hash_b]

/-- Modelled from the spec: `virtio_disk_rw(b, 0)`, the external synchronous block read
into a locked buffer: the payload becomes the disk's contents of the buffer's block. -/
def diskRead (s : State) (b : BufRef) : State :=
  let v := s.bcache.at b
  { s with bcache := s.bcache.set b { v with data := s.disk v.dev v.blockno } }

/-- Modelled from the spec: `virtio_disk_rw(b, 1)`, the external synchronous block write:
the disk's contents of the buffer's block become the payload. -/
def diskWrite (s : State) (b : BufRef) : State :=
  let v := s.bcache.at b
  { s with disk := fun d n => if d = v.dev ∧ n = v.blockno then v.data else s.disk d n }

/-- The part of `bread` after `bget` has returned `b`. -/
def breadTail (s : State) (b : BufRef) (ev : List Event) : Result BufRef :=
  if (s.bcache.at b).valid = false then
    let s1 := diskRead s b
    { status := .returned b
      state := { s1 with bcache := s1.bcache.set b { s1.bcache.at b with valid := true } }
      events := ev ++ [.virtio_disk_rw b false] }
  else { status := .returned b, state := s, events := ev }

/-- The function `struct buf* bread(uint dev, uint blockno)`. -/
def bread (s : State) (ticks pid dev blockno : Nat) : Result BufRef :=
  let r := bget s ticks pid dev blockno
  match r.status with
  | .returned b => breadTail r.state b r.events
  | _ => r

/-- The function `void bwrite(struct buf *b)`. -/
def bwrite (s : State) (pid : Nat) (b : BufRef) : Result Unit :=
  if holdingsleep (s.bcache.at b).lock pid = false then
    { status := .panicked "bwrite", state := s, events := [] }
  else { status := .returned (), state := diskWrite s b, events := [.virtio_disk_rw b true] }

/-- The function `void brelse(struct buf *b)`. -/
def brelse (s : State) (ticks pid : Nat) (b : BufRef) : Result Unit :=
  let hash_b := hash (toInt (s.bcache.at b).blockno)
  if holdingsleep (s.bcache.at b).lock pid = false then
    { status := .panicked "brelse", state := s, events := [] }
  else
    let s1 : State := { s with bcache := s.bcache.set b { s.bcache.at b with lock := none } }
    if inRange hash_b = false then
      { status := .fault, state := s1, events := [.releasesleep b] }
    else
      let v := s1.bcache.at b
      let v1 : Buf := { v with refcnt := (v.refcnt + (2 ^ 32 - 1)) % 2 ^ 32, lastuse := ticks }
      { status := .returned ()
        state := { s1 with bcache := s1.bcache.set b v1 }
        events := [.releasesleep b, .acquire hash_b, .release hash_b] }

/-- The function `void bpin(struct buf *b)`. -/
def bpin (s : State) (b : BufRef) : Result Unit :=
  let hash_b := hash (toInt (s.bcache.at b).blockno)
  if inRange hash_b = false then { status := .fault, state := s, events := [] }
  else
    let v := s.bcache.at b
    { status := .returned ()
      state := { s with bcache := s.bcache.set b { v with refcnt := (v.refcnt + 1) % 2 ^ 32 } }
      events := [.acquire hash_b, .release hash_b] }

/-- The function `void bunpin(struct buf *b)`. -/
def bunpin (s : State) (b : BufRef) : Result Unit :=
  let hash_b := hash (toInt (s.bcache.at b).blockno)
  if inRange hash_b = false then { status := .fault, state := s, events := [] }
  else
    let v := s.bcache.at b
    let v1 : Buf := { v with refcnt := (v.refcnt + (2 ^ 32 - 1)) % 2 ^ 32 }
    { status := .returned ()
      state := { s with bcache := s.bcache.set b v1 }
      events := [.acquire hash_b, .release hash_b] }

/-! ## Predicates used in the proofs -/

/-- What the pair `(min, index)` satisfies after the second loop has visited slots
`0 .. n - 1`. -/
def LruInv (bk : Nat → Buf) (n : Nat) (acc : Nat × Int) : Prop :=
  (acc = (0xffffffff, -1) ∧ ∀ j, j < n → (bk j).refcnt = 0 → 0xffffffff ≤ (bk j).lastuse) ∨
  (∃ k, k < n ∧ acc = ((bk k).lastuse, (k : Int)) ∧ (bk k).refcnt = 0 ∧
      (bk k).lastuse < 0xffffffff ∧
      (∀ j, j < n → (bk j).refcnt = 0 → (bk k).lastuse ≤ (bk j).lastuse) ∧
      ∀ j, j < k → (bk j).refcnt = 0 → (bk k).lastuse < (bk j).lastuse)

/-! ## Concrete scenarios -/

/-- A disk on which every block is empty. -/
def emptyDisk : Disk := fun _ _ => []

/-- The system right after `binit`: the zero-initialised cache, every sleep lock free. -/
def bootState : State := { bcache := zeroCache, disk := emptyDisk }

/-- Process 7 reads blocks 13, 26, 39, 52 and 65 of device 1, which all hash to bucket 0
and so fill its five slots in this order. -/
def fullBucket : State :=
  let s1 := (bread bootState 1 7 1 13).state
  let s2 := (bread s1 2 7 1 26).state
  let s3 := (bread s2 3 7 1 39).state
  let s4 := (bread s3 4 7 1 52).state
  (bread s4 5 7 1 65).state

/-- The LRU scenario of the spec: from `fullBucket`, blocks 13, 26 and 39 (slots 0, 1, 2)
are released at ticks 10 < 20 < 30; slots 3 and 4 stay referenced. -/
def lruScenario : State :=
  let s1 := (brelse fullBucket 10 7 (0, 0)).state
  let s2 := (brelse s1 20 7 (0, 1)).state
  (brelse s2 30 7 (0, 2)).state

/-- From `fullBucket`, slot 0 alone is released, at the moment `ticks` is `0xffffffff`. -/
def lastTickScenario : State := (brelse fullBucket 0xffffffff 7 (0, 0)).state

/-- From `fullBucket`, slot 0 of bucket 0 (block 13, held by process 7) is pinned once,
so its `refcnt` is 2. -/
def pinnedScenario : State := (bpin fullBucket (0, 0)).state

/-- A cache in which slot 0 of bucket 0 is held by process 7 and carries the block
number `0xffffffff`, whose hash is `-1`. -/
def strayBlockState : State :=
  { bcache := zeroCache.set (0, 0) { zeroBuf with blockno := 0xffffffff, lock := some 7, refcnt := 1 }
    disk := emptyDisk }

/-- Block 13 of device 1 is read and released by process 7 and then unpinned once more
than it was pinned: its `refcnt` wraps around to `0xffffffff`. -/
def wrappedScenario : State :=
  let s1 := (bread bootState 1 7 1 13).state
  let s2 := (brelse s1 2 7 (0, 0)).state
  (bunpin s2 (0, 0)).state

/-! ## Runs of the cache -/

/-- The holder of the sleep lock of `b` overwrites the payload `b->data`, as callers of the
cache do between `bread` and `bwrite`. -/
def store (s : State) (b : BufRef) (x : List Nat) : State :=
  { s with bcache := s.bcache.set b { s.bcache.at b with data := x } }

/-- One step of the running system: a call of the cache interface that gets past its
checks, or the continuation of a call that was suspended in `acquiresleep`.  `brelse`,
`bpin`, `bunpin` and the continuations act on a slot of `bcache` that is still referenced
(`refcnt > 0`): a buffer obtained from `bget` and not yet fully released. -/
inductive Step : State → State → Prop where
  | bget (s : State) (ticks pid dev blockno : Nat) (b : BufRef)
      (h : (bget s ticks pid dev blockno).status = .returned b ∨
        (bget s ticks pid dev blockno).status = .asleep b) :
      Step s (bget s ticks pid dev blockno).state
  | bread (s : State) (ticks pid dev blockno : Nat) (b : BufRef)
      (h : (bread s ticks pid dev blockno).status = .returned b ∨
        (bread s ticks pid dev blockno).status = .asleep b) :
      Step s (bread s ticks pid dev blockno).state
  | wakeup (s : State) (pid : Nat) (b : BufRef) (hb1 : b.1 < NBUCKET) (hb2 : b.2 < NB)
      (href : 0 < (s.bcache.at b).refcnt)
      (h : (acquiresleep s pid b []).status = .returned b) :
      Step s (acquiresleep s pid b []).state
  | resume (s : State) (pid : Nat) (b : BufRef) (hb1 : b.1 < NBUCKET) (hb2 : b.2 < NB)
      (href : 0 < (s.bcache.at b).refcnt) (hheld : (s.bcache.at b).lock = some pid) :
      Step s (breadTail s b []).state
  | bwrite (s : State) (pid : Nat) (b : BufRef) (hb1 : b.1 < NBUCKET) (hb2 : b.2 < NB)
      (h : (bwrite s pid b).status = .returned ()) :
      Step s (bwrite s pid b).state
  | brelse (s : State) (ticks pid : Nat) (b : BufRef) (hb1 : b.1 < NBUCKET) (hb2 : b.2 < NB)
      (href : 0 < (s.bcache.at b).refcnt)
      (h : (brelse s ticks pid b).status = .returned ()) :
      Step s (brelse s ticks pid b).state
  | bpin (s : State) (b : BufRef) (hb1 : b.1 < NBUCKET) (hb2 : b.2 < NB)
      (href : 0 < (s.bcache.at b).refcnt)
      (h : (bpin s b).status = .returned ()) :
      Step s (bpin s b).state
  | bunpin (s : State) (b : BufRef) (hb1 : b.1 < NBUCKET) (hb2 : b.2 < NB)
      (href : 0 < (s.bcache.at b).refcnt)
      (h : (bunpin s b).status = .returned ()) :
      Step s (bunpin s b).state

/-- States the system can be in: it boots with the zero-initialised cache over any disk,
then takes steps, and holders of a sleep lock may overwrite the payload they hold. -/
inductive Reachable : State → Prop where
  | boot (d : Disk) : Reachable { bcache := zeroCache, disk := d }
  | step (s s' : State) (hr : Reachable s) (hs : Step s s') : Reachable s'
  | store (s : State) (pid : Nat) (b : BufRef) (x : List Nat) (hr : Reachable s)
      (hb1 : b.1 < NBUCKET) (hb2 : b.2 < NB) (href : 0 < (s.bcache.at b).refcnt)
      (hheld : (s.bcache.at b).lock = some pid) :
      Reachable (store s b x)

/-- A transition with no writer of block `(dev, blockno)`: a step that leaves the disk
contents of that block as they are, or the holder of a referenced buffer of some other
block overwriting that buffer's payload. -/
def QuietStep (dev blockno : Nat) (s s' : State) : Prop :=
  (Step s s' ∧ s'.disk dev blockno = s.disk dev blockno) ∨
    ∃ pid b x, b.1 < NBUCKET ∧ b.2 < NB ∧ 0 < (s.bcache.at b).refcnt ∧
      (s.bcache.at b).lock = some pid ∧
      ¬((s.bcache.at b).dev = dev ∧ (s.bcache.at b).blockno = blockno) ∧ s' = store s b x

/-- Within a bucket, of two slots with the same `(dev, blockno)` the higher-indexed one is
unreferenced and not valid. -/
def Coherent (c : Cache) : Prop :=
  ∀ i j1 j2, i < NBUCKET → j1 < j2 → j2 < NB →
    (c i j1).dev = (c i j2).dev → (c i j1).blockno = (c i j2).blockno →
    (c i j2).refcnt = 0 ∧ (c i j2).valid = false

/-- A referenced slot lies in the bucket its block number hashes to. -/
def InBucket (c : Cache) : Prop :=
  ∀ i j, i < NBUCKET → j < NB → 0 < (c i j).refcnt → hash (toInt (c i j).blockno) = (i : Int)

/-- The disk holds `x` in block `(dev, blockno)`, and so does every valid cached copy of
that block in the bucket the block hashes to. -/
def Fresh (dev blockno : Nat) (x : List Nat) (s : State) : Prop :=
  s.disk dev blockno = x ∧
    ∀ j, j < NB → (s.bcache (hash (toInt blockno)).toNat j).dev = dev →
      (s.bcache (hash (toInt blockno)).toNat j).blockno = blockno →
      (s.bcache (hash (toInt blockno)).toNat j).valid = true →
      (s.bcache (hash (toInt blockno)).toNat j).data = x

/-- State `s'` differs from `s` in slot `b` only, and `b` either keeps its tag and has no
lower-indexed slot with that tag, or gets a tag no slot of its bucket carried; if `b` is
referenced afterwards, its block number hashes to its bucket. -/
def TagStep (s s' : State) (b : BufRef) : Prop :=
  b.1 < NBUCKET ∧ b.2 < NB ∧
    (∀ i j, ¬(i = b.1 ∧ j = b.2) → s'.bcache i j = s.bcache i j) ∧
    (((s'.bcache.at b).dev = (s.bcache.at b).dev ∧
        (s'.bcache.at b).blockno = (s.bcache.at b).blockno ∧
        ∀ j, j < b.2 → ¬((s.bcache b.1 j).dev = (s.bcache.at b).dev ∧
          (s.bcache b.1 j).blockno = (s.bcache.at b).blockno)) ∨
      (∀ j, j < NB → ¬((s.bcache b.1 j).dev = (s'.bcache.at b).dev ∧
          (s.bcache b.1 j).blockno = (s'.bcache.at b).blockno))) ∧
    (0 < (s'.bcache.at b).refcnt → hash (toInt (s'.bcache.at b).blockno) = (b.1 : Int))

/-- The disk is unchanged, and if slot `b` is valid afterwards then it either was valid
with the same tag and payload, or its payload is the disk's block for its tag. -/
def DataStep (s s' : State) (b : BufRef) : Prop :=
  s'.disk = s.disk ∧
    ((s'.bcache.at b).valid = true →
      ((s'.bcache.at b).dev = (s.bcache.at b).dev ∧
        (s'.bcache.at b).blockno = (s.bcache.at b).blockno ∧
        (s.bcache.at b).valid = true ∧ (s'.bcache.at b).data = (s.bcache.at b).data) ∨
      (s'.bcache.at b).data = s.disk (s'.bcache.at b).dev (s'.bcache.at b).blockno)

/-- The state in which process 7 has read block 13 of device 1 into slot 0 of bucket 0
and has put the payload `[42]` into the buffer. -/
def roundTripStart : State := store (bread bootState 0 7 1 13).state (0, 0) [42]

/-- From `roundTripStart`, process 7 writes the buffer back and releases it at tick 0. -/
def roundTripReleased : State :=
  (brelse (bwrite roundTripStart 7 (0, 0)).state 0 7 (0, 0)).state

/-- From `roundTripReleased`, process 8 asks for block 26 of device 1, which misses and
re-tags slot 0 of bucket 0. -/
def roundTripEvicted : State := (bget roundTripReleased 1 8 1 26).state

/-! ## A `bread` that has to wait -/

/-- The rest of a `bread` whose `bget` was suspended in `acquiresleep(&b->lock)`: once the
sleep lock of `b` is free the caller takes it, `bget` returns `b`, and `bread` goes on with
`if(!b->valid)`.  The events are those made after the wake-up. -/
def breadResume (s : State) (pid : Nat) (b : BufRef) : Result BufRef :=
  match (s.bcache.at b).lock with
  | none => breadTail (acquiresleep s pid b []).state b []
  | some _ => { status := .asleep b, state := s, events := [] }

/-- A transition of the running system: a step, or the holder of a referenced buffer
overwriting the payload it holds. -/
def Move (s s' : State) : Prop :=
  Step s s' ∨ ∃ pid b x, b.1 < NBUCKET ∧ b.2 < NB ∧ 0 < (s.bcache.at b).refcnt ∧
    (s.bcache.at b).lock = some pid ∧ s' = store s b x

/-- Buffer `c` is referenced before and after a transition: the reference that a process
suspended on `c` took in `bget` is not dropped by anybody else. -/
def Kept (c : BufRef) (s s' : State) : Prop :=
  0 < (s.bcache.at c).refcnt ∧ 0 < (s'.bcache.at c).refcnt

/-- A transition made while a process waits for the sleep lock of `c`. -/
def WaitStep (c : BufRef) (s s' : State) : Prop := Move s s' ∧ Kept c s s'

/-- A transition with no writer of block `(dev, blockno)`, made while a process waits for
the sleep lock of `c`. -/
def QuietWaitStep (dev blockno : Nat) (c : BufRef) (s s' : State) : Prop :=
  QuietStep dev blockno s s' ∧ Kept c s s'

/-- Slot `c` carries the same `(dev, blockno)` in `s'` as in `s`, and is valid in `s'` if it
was valid in `s`. -/
def SlotKept (s s' : State) (c : BufRef) : Prop :=
  (s'.bcache.at c).dev = (s.bcache.at c).dev ∧
    (s'.bcache.at c).blockno = (s.bcache.at c).blockno ∧
    ((s.bcache.at c).valid = true → (s'.bcache.at c).valid = true)

/-- From `roundTripEvicted`, process 9 reads block 13 of device 1 again, at tick 2: a miss
that takes slot 1 of bucket 0 and loads the block from the disk. -/
def rereadState : State := (bread roundTripEvicted 2 9 1 13).state

/-- From `rereadState`, process 10 asks for block 13 too, at tick 3: a hit on slot 1, whose
sleep lock process 9 holds, so process 10 is suspended. -/
def contendedState : State := (bread rereadState 3 10 1 13).state

/-- From `contendedState`, process 9 releases the buffer at tick 4. -/
def handedState : State := (brelse contendedState 4 9 (0, 1)).state

/-- From `contendedState`, process 9 releases the buffer at tick 0 instead. -/
def strayReleased : State := (brelse contendedState 0 9 (0, 1)).state

/-- From `strayReleased`, the buffer is unpinned although nobody had pinned it: its
`refcnt` drops to 0 while process 10 is still suspended on it. -/
def strayUnpinned : State := (bunpin strayReleased (0, 1)).state

/-- From `strayUnpinned`, process 11 asks for block 39 of device 1 at tick 5: a miss that
re-tags slot 1 of bucket 0. -/
def strayRetagged : State := (bget strayUnpinned 5 11 1 39).state

/-- From `strayRetagged`, process 11 releases the buffer at tick 6. -/
def strayState : State := (brelse strayRetagged 6 11 (0, 1)).state

/-- From `bootState`, process 7 reads block 13 of device 1 at tick 1 and keeps the buffer
locked; process 8 asks for the same block at tick 2 and is suspended. -/
def busyState : State := (bread (bread bootState 1 7 1 13).state 2 8 1 13).state

/-- From `busyState`, process 7 releases the buffer at tick 3. -/
def yieldedState : State := (brelse busyState 3 7 (0, 0)).state

/-- Every slot holds a block number that hashes to a bucket index and a `refcnt` that fits
the 32 bits of its `uint` field. -/
def WellTyped (c : Cache) : Prop :=
  ∀ i j, inRange (hash (toInt (c i j).blockno)) = true ∧ (c i j).refcnt < 2 ^ 32

/-! ## Lock discipline on event traces -/

/-- Reading a trace from left to right with the list `held` of bucket spinlocks currently
held: is `held` empty at every call of `acquiresleep`, `releasesleep` and
`virtio_disk_rw`? -/
def spinFree : List Int → List Event → Bool
  | _, [] => true
  | held, .acquire h :: t => spinFree (h :: held) t
  | held, .release h :: t => spinFree (held.erase h) t
  | held, .acquiresleep _ :: t => held.isEmpty && spinFree held t
  | held, .releasesleep _ :: t => held.isEmpty && spinFree held t
  | held, .virtio_disk_rw _ _ :: t => held.isEmpty && spinFree held t

/-- Is the event an `acquire` or a `release` of a bucket spinlock? -/
def Event.isSpin : Event → Bool
  | .acquire _ => true
  | .release _ => true
  | _ => false

/-- The bucket spinlock events of a trace, in order. -/
def spinEvents (ev : List Event) : List Event := ev.filter Event.isSpin

/-- The lock discipline of one call: no bucket spinlock is held when `acquiresleep`,
`releasesleep` or `virtio_disk_rw` is called, and when the call returns or blocks its
spinlock events are one `acquire` of one bucket lock followed by the `release` of that
same lock. -/
def Disciplined {α : Type} (r : Result α) : Prop :=
  spinFree [] r.events = true ∧
    (((∃ v, r.status = .returned v) ∨ (∃ c, r.status = .asleep c)) →
      ∃ h : Int, spinEvents r.events = [.acquire h, .release h])

end Bio

/-!
# Physical page allocator (`kernel/kalloc.c`)

A shallow embedding of `kfree`, `kalloc`, `freerange` and `kinit`.

* Pointers and `uint64` values are natural numbers; `0` is the null pointer.
* `kmem[NCPU]` is the function `freelist` from a core index to the head pointer
  `kmem[i].freelist`; physical memory is a function from a page address to the page, whose
  first eight bytes are the `next` field of `struct run`.
* `cpuid()` is the argument `cpu_id`.  The spinlocks and `push_off`/`pop_off` do not change
  this state and are left out.
-/

namespace Kalloc

/-- Modelled from the spec: `PGSIZE` (`riscv.h` is not among the sources); the allocator
"allocates whole 4096-byte pages". -/
def PGSIZE : Nat := 4096

/-- Modelled from the spec: `NCPU` (`param.h` is not among the sources); `kinit` initialises
the locks of `kmem[0]` to `kmem[7]`. -/
def NCPU : Nat := 8

/-- Modelled from the spec: the two ends of the managed physical range, `end` (set by
`kernel.ld`, the first address after the kernel, hence not 0) and `PHYSTOP` (from
`memlayout.h`, at least two pages below `2 ^ 64`); neither file is among the sources. -/
structure Layout where
  kend : Nat
  PHYSTOP : Nat
  kend_pos : 0 < kend
  PHYSTOP_lt : PHYSTOP + 2 * PGSIZE ≤ 2 ^ 64

/-- A page of physical memory: `next` is the pointer that `struct run` overlays on its
first eight bytes, `rest` the other `PGSIZE - 8` bytes. -/
structure Page where
  next : Nat
  rest : List Nat
deriving DecidableEq

/-- The allocator state: `kmem[i].freelist` for each core, and physical memory. -/
structure Kmem where
  freelist : Nat → Nat
  mem : Nat → Page

/-- How a call ends, and the state it leaves. -/
structure Outcome (α : Type) where
  status : Bio.Status α
  state : Kmem

/-- Modelled from the spec: `memset(pa, c, PGSIZE)` (`string.c` is not among the sources):
every byte of the page becomes `c`, the eight bytes of `next` included. -/
def memset (m : Kmem) (pa c : Nat) : Kmem :=
  { m with mem := fun a =>
      if a = pa then { next := c * 0x0101010101010101, rest := List.replicate (PGSIZE - 8) c }
      else m.mem a }

/-- The assignment `r->next = v`. -/
def setNext (m : Kmem) (r v : Nat) : Kmem :=
  { m with mem := fun a => if a = r then { m.mem r with next := v } else m.mem a }

/-- The assignment `kmem[i].freelist = v`. -/
def setHead (m : Kmem) (i v : Nat) : Kmem :=
  { m with freelist := fun k => if k = i then v else m.freelist k }

/-- The function `void kfree(void *pa)`, run on core `cpu_id`. -/
def kfree (L : Layout) (m : Kmem) (cpu_id pa : Nat) : Outcome Unit :=
  if pa % PGSIZE ≠ 0 ∨ pa < L.kend ∨ pa ≥ L.PHYSTOP then
    { status := .panicked "kfree", state := m }
  else
    let m1 := memset m pa 1
    let m2 := setNext m1 pa (m1.freelist cpu_id)
    { status := .returned (), state := setHead m2 cpu_id pa }

/-- The stealing loop of `kalloc`: `for(int i = 0; i < NCPU; i++)`, skipping `cpu_id` and
leaving at the first core whose list is not empty.  `n` is the number of cores still to
visit, `i` the next one; the result is `r` and the state. -/
def steal (m : Kmem) (cpu_id : Nat) : Nat → Nat → Nat × Kmem
  | 0, _ => (0, m)
  | n + 1, i =>
    if i = cpu_id then steal m cpu_id n (i + 1)
    else if m.freelist i ≠ 0 then (m.freelist i, setHead m i (m.mem (m.freelist i)).next)
    else steal m cpu_id n (i + 1)

/-- The function `void *kalloc(void)`, run on core `cpu_id`: the pointer returned (0 when
no page is left) and the state. -/
def kalloc (m : Kmem) (cpu_id : Nat) : Nat × Kmem :=
  let r := m.freelist cpu_id
  let own : Nat × Kmem :=
    if r ≠ 0 then (r, setHead m cpu_id (m.mem r).next) else steal m cpu_id NCPU 0
  if own.1 ≠ 0 then (own.1, memset own.2 own.1 5) else own

/-- The macro `PGROUNDUP(sz)`, `(sz + PGSIZE - 1) & ~(PGSIZE - 1)` on `uint64`. -/
def PGROUNDUP (sz : Nat) : Nat := (sz + PGSIZE - 1) % 2 ^ 64 / PGSIZE * PGSIZE

/-- The loop of `freerange`, `for(; p + PGSIZE <= pa_end; p += PGSIZE) kfree(p)`, run for at
most `fuel` tests of its condition; `none` when that is not enough.  A panic of `kfree`
ends the run. -/
def freerangeLoop (L : Layout) (cpu_id pa_end : Nat) : Nat → Nat → Kmem → Option (Outcome Unit)
  | 0, _, _ => none
  | fuel + 1, p, m =>
    if (p + PGSIZE) % 2 ^ 64 ≤ pa_end then
      match (kfree L m cpu_id p).status with
      | .returned _ =>
        freerangeLoop L cpu_id pa_end fuel ((p + PGSIZE) % 2 ^ 64) (kfree L m cpu_id p).state
      | _ => some (kfree L m cpu_id p)
    else some { status := .returned (), state := m }

/-- The function `void freerange(void *pa_start, void *pa_end)`, run on core `cpu_id`. -/
def freerange (L : Layout) (m : Kmem) (cpu_id pa_start pa_end : Nat) : Option (Outcome Unit) :=
  freerangeLoop L cpu_id pa_end (pa_end / PGSIZE + 1) (PGROUNDUP pa_start) m

/-- The function `void kinit()`, run on core `cpu_id`: `freerange(end, (void*)PHYSTOP)`. -/
def kinit (L : Layout) (m : Kmem) (cpu_id : Nat) : Option (Outcome Unit) :=
  freerange L m cpu_id L.kend L.PHYSTOP

/-! ## Free lists as lists of pages -/

/-- The linked list that starts at pointer `h` consists of exactly the pages `pages`, in
this order, and ends with the null pointer. -/
def isChain (mem : Nat → Page) : Nat → List Nat → Prop
  | h, [] => h = 0
  | h, p :: ps => h = p ∧ p ≠ 0 ∧ isChain mem (mem p).next ps

/-- The free list of core `c` is the list `pages`. -/
def FreeList (m : Kmem) (c : Nat) (pages : List Nat) : Prop :=
  isChain m.mem (m.freelist c) pages

/-- The free lists of the `NCPU` cores are the lists `Ls 0`, .., `Ls (NCPU - 1)`. -/
def Pools (m : Kmem) (Ls : Nat → List Nat) : Prop :=
  ∀ c, c < NCPU → FreeList m c (Ls c)

/-- The lists are duplicate-free and pairwise disjoint. -/
def Separate (Ls : Nat → List Nat) : Prop :=
  (∀ c, c < NCPU → (Ls c).Nodup) ∧
    ∀ c d, c < NCPU → d < NCPU → c ≠ d → ∀ p, p ∈ Ls c → p ∉ Ls d

/-- Does `pa` pass the checks of `kfree`? -/
def ValidPage (L : Layout) (pa : Nat) : Prop :=
  pa % PGSIZE = 0 ∧ L.kend ≤ pa ∧ pa < L.PHYSTOP

/-- Whether a page passes the checks can be computed. -/
instance ValidPage.instDecidable (L : Layout) (pa : Nat) : Decidable (ValidPage L pa) :=
  inferInstanceAs (Decidable (pa % PGSIZE = 0 ∧ L.kend ≤ pa ∧ pa < L.PHYSTOP))

/-- The pages `p0 + (n - 1) * PGSIZE`, .., `p0 + PGSIZE`, `p0`, highest first. -/
def descPages (p0 : Nat) : Nat → List Nat
  | 0 => []
  | n + 1 => (p0 + n * PGSIZE) :: descPages p0 n

/-- Whether a pointer starts a given list can be computed. -/
instance isChain.instDecidable (mem : Nat → Page) :
    (h : Nat) → (pages : List Nat) → Decidable (isChain mem h pages)
  | h, [] => inferInstanceAs (Decidable (h = 0))
  | h, p :: ps =>
    have := isChain.instDecidable mem (mem p).next ps
    inferInstanceAs (Decidable (h = p ∧ p ≠ 0 ∧ isChain mem (mem p).next ps))

/-- Whether a core's free list is a given list can be computed. -/
instance FreeList.instDecidable (m : Kmem) (c : Nat) (pages : List Nat) :
    Decidable (FreeList m c pages) :=
  inferInstanceAs (Decidable (isChain m.mem (m.freelist c) pages))

/-! ## Concrete allocator states -/

/-- A small layout: the kernel ends at 8192 and memory at 65536. -/
def smallLayout : Layout :=
  { kend := 8192, PHYSTOP := 65536, kend_pos := by decide, PHYSTOP_lt := by decide }

/-- The zero-initialised `kmem` over a memory of zeros: every free list empty. -/
def emptyKmem : Kmem := { freelist := fun _ => 0, mem := fun _ => { next := 0, rest := [] } }

/-- Core 0 has freed page 8192: its free list is `[8192]`. -/
def onePage : Kmem := (kfree smallLayout emptyKmem 0 8192).state

/-- Core 1 has freed page 12288 and then page 8192: its free list is `[8192, 12288]`. -/
def twoPages : Kmem :=
  (kfree smallLayout (kfree smallLayout emptyKmem 1 12288).state 1 8192).state

/-- From `twoPages`, core 0 frees page 8192, which is still in the free list of core 1:
the lists of core 0 and of core 1 are both `[8192]` now. -/
def sharedPage : Kmem := (kfree smallLayout twoPages 0 8192).state

end Kalloc

namespace Bio

/-! ## Basic facts -/

theorem Cache.set_same (c : Cache) (b : BufRef) (v : Buf) : (c.set b v) b.1 b.2 = v := by
  simp [Cache.set]

theorem Cache.set_other (c : Cache) (b : BufRef) (v : Buf) (i j : Nat)
    (h : ¬(i = b.1 ∧ j = b.2)) : (c.set b v) i j = c i j := by
  simp [Cache.set, h]

theorem findCached_some (bk : Nat → Buf) (dev blockno : Nat) :
    ∀ n i k, findCached bk dev blockno n i = some k →
      i ≤ k ∧ k < i + n ∧ ((bk k).dev = dev ∧ (bk k).blockno = blockno) ∧
        ∀ j, i ≤ j → j < k → ¬((bk j).dev = dev ∧ (bk j).blockno = blockno) := by
  intro n
  induction n with
  | zero => intro i k h; simp [findCached] at h
  | succ n ih =>
    intro i k h
    unfold findCached at h
    split at h
    · rename_i hm
      have hk : i = k := by simpa using h
      subst hk
      exact ⟨le_refl _, by omega, hm, fun j h1 h2 => by omega⟩
    · rename_i hm
      obtain ⟨h1, h2, h3, h4⟩ := ih (i + 1) k h
      refine ⟨by omega, by omega, h3, ?_⟩
      intro j hj1 hj2
      by_cases hji : j = i
      · subst hji; exact hm
      · exact h4 j (by omega) hj2

theorem findCached_none (bk : Nat → Buf) (dev blockno : Nat) :
    ∀ n i, findCached bk dev blockno n i = none →
      ∀ j, i ≤ j → j < i + n → ¬((bk j).dev = dev ∧ (bk j).blockno = blockno) := by
  intro n
  induction n with
  | zero => intro i _ j h1 h2; omega
  | succ n ih =>
    intro i h j h1 h2
    unfold findCached at h
    split at h
    · simp at h
    · rename_i hm
      by_cases hji : j = i
      · subst hji; exact hm
      · exact ih (i + 1) h j (by omega) (by omega)

theorem lruInv_step (bk : Nat → Buf) (n : Nat) (acc : Nat × Int) (h : LruInv bk n acc) :
    LruInv bk (n + 1) (lruStep bk acc n) := by
  unfold lruStep
  rcases h with ⟨hacc, hall⟩ | ⟨k, hk, hacc, hr, hlt, hmin, hfirst⟩
  · subst hacc
    split
    · rename_i hc
      right
      refine ⟨n, by omega, rfl, hc.2, hc.1, ?_, ?_⟩
      · intro j hj hrj
        by_cases hjn : j = n
        · subst hjn; exact le_refl _
        · have := hall j (by omega) hrj
          have := hc.1
          simp only at this
          omega
      · intro j hj hrj
        have := hall j hj hrj
        have := hc.1
        simp only at this
        omega
    · rename_i hc
      left
      refine ⟨rfl, ?_⟩
      intro j hj hrj
      by_cases hjn : j = n
      · subst hjn
        by_contra hcon
        exact hc ⟨by simp only; omega, hrj⟩
      · exact hall j (by omega) hrj
  · subst hacc
    split
    · rename_i hc
      have hc1 : (bk n).lastuse < (bk k).lastuse := hc.1
      right
      refine ⟨n, by omega, rfl, hc.2, by omega, ?_, ?_⟩
      · intro j hj hrj
        by_cases hjn : j = n
        · subst hjn; exact le_refl _
        · have := hmin j (by omega) hrj
          omega
      · intro j hj hrj
        have := hmin j hj hrj
        omega
    · rename_i hc
      right
      refine ⟨k, by omega, rfl, hr, hlt, ?_, hfirst⟩
      intro j hj hrj
      by_cases hjn : j = n
      · subst hjn
        by_contra hcon
        exact hc ⟨by simp only; omega, hrj⟩
      · exact hmin j (by omega) hrj

theorem lruInv_range (bk : Nat → Buf) :
    ∀ n, LruInv bk n ((List.range n).foldl (lruStep bk) (0xffffffff, -1)) := by
  intro n
  induction n with
  | zero => left; exact ⟨rfl, fun j hj => by omega⟩
  | succ n ih =>
    rw [List.range_succ, List.foldl_append]
    exact lruInv_step bk n _ ih

theorem lruScan_inv (bk : Nat → Buf) : LruInv bk NB (lruScan bk) := lruInv_range bk NB

theorem hash_toNat (x : Int) (h : Nat) (hh : hash x = (h : Int)) :
    inRange (hash x) = true ∧ (hash x).toNat = h ∧ h < NBUCKET := by
  have hlt : hash x < (NBUCKET : Int) := by
    unfold hash
    exact Int.tmod_lt_of_pos x (by decide)
  refine ⟨?_, ?_, ?_⟩
  · simp only [inRange, Bool.and_eq_true, decide_eq_true_eq]
    exact ⟨by omega, hlt⟩
  · omega
  · omega

theorem acquiresleep_free (s : State) (pid : Nat) (b : BufRef) (ev : List Event)
    (h : (s.bcache.at b).lock = none) :
    acquiresleep s pid b ev =
      { status := .returned b
        state := { s with bcache := s.bcache.set b { s.bcache.at b with lock := some pid } }
        events := ev ++ [.acquiresleep b] } := by
  simp [acquiresleep, h]

theorem acquiresleep_held (s : State) (pid : Nat) (b : BufRef) (ev : List Event)
    (h : (s.bcache.at b).lock ≠ none) :
    acquiresleep s pid b ev =
      { status := .asleep b, state := s, events := ev ++ [.acquiresleep b] } := by
  unfold acquiresleep
  split
  · rename_i h2; exact absurd h2 h
  · rfl

theorem acquiresleep_status (s : State) (pid : Nat) (b c : BufRef) (ev : List Event)
    (h : (acquiresleep s pid b ev).status = .returned c ∨
      (acquiresleep s pid b ev).status = .asleep c) : c = b := by
  unfold acquiresleep at h
  split at h
  · rcases h with h | h
    · simp only [Status.returned.injEq] at h; exact h.symm
    · simp at h
  · rcases h with h | h
    · simp at h
    · simp only [Status.asleep.injEq] at h; exact h.symm

theorem acquiresleep_other (s : State) (pid : Nat) (b : BufRef) (ev : List Event) (i j : Nat)
    (h : ¬(i = b.1 ∧ j = b.2)) : (acquiresleep s pid b ev).state.bcache i j = s.bcache i j := by
  unfold acquiresleep
  split
  · simp [Cache.set, h]
  · rfl

theorem acquiresleep_disk (s : State) (pid : Nat) (b : BufRef) (ev : List Event) :
    (acquiresleep s pid b ev).state.disk = s.disk := by
  unfold acquiresleep
  split <;> rfl

/-- The slot `acquiresleep` is called on keeps every field but `lock`. -/
theorem acquiresleep_slot (s : State) (pid : Nat) (b : BufRef) (ev : List Event) :
    (acquiresleep s pid b ev).state.bcache b.1 b.2 =
      { s.bcache.at b with
        lock := if (s.bcache.at b).lock = none then some pid else (s.bcache.at b).lock } := by
  unfold acquiresleep
  split
  · rename_i h; simp [Cache.set, h]
  · rename_i x h
    simp only [Cache.at] at h ⊢
    generalize s.bcache b.1 b.2 = v at h ⊢
    cases v
    simp_all

theorem bget_fault (s : State) (ticks pid dev blockno : Nat)
    (h : inRange (hash (toInt blockno)) = false) :
    bget s ticks pid dev blockno = { status := .fault, state := s, events := [] } := by
  simp [bget, h]

theorem bget_hit (s : State) (ticks pid dev blockno h i : Nat)
    (hh : hash (toInt blockno) = (h : Int))
    (hf : findCached (s.bcache h) dev blockno NB 0 = some i) :
    bget s ticks pid dev blockno =
      acquiresleep
        { s with bcache := s.bcache.set (h, i)
                  { s.bcache h i with
                    refcnt := ((s.bcache h i).refcnt + 1) % 2 ^ 32, lastuse := ticks } }
        pid (h, i) [.acquire (h : Int), .release (h : Int)] := by
  obtain ⟨h1, _, _⟩ := hash_toNat _ h hh
  rw [hh] at h1
  simp [bget, hh, h1, hf]

theorem bget_miss_panic (s : State) (ticks pid dev blockno h : Nat)
    (hh : hash (toInt blockno) = (h : Int))
    (hf : findCached (s.bcache h) dev blockno NB 0 = none)
    (hi : (lruScan (s.bcache h)).2 < 0) :
    bget s ticks pid dev blockno =
      { status := .panicked "bget: no buffers", state := s, events := [.acquire (h : Int)] } := by
  obtain ⟨h1, _, _⟩ := hash_toNat _ h hh
  rw [hh] at h1
  simp [bget, hh, h1, hf, hi]

theorem bget_miss_retag (s : State) (ticks pid dev blockno h : Nat)
    (hh : hash (toInt blockno) = (h : Int))
    (hf : findCached (s.bcache h) dev blockno NB 0 = none)
    (hi : ¬(lruScan (s.bcache h)).2 < 0) :
    bget s ticks pid dev blockno =
      acquiresleep
        { s with bcache := s.bcache.set (h, (lruScan (s.bcache h)).2.toNat)
                  { s.bcache h (lruScan (s.bcache h)).2.toNat with
                    dev := dev, blockno := blockno, valid := false, refcnt := 1 } }
        pid (h, (lruScan (s.bcache h)).2.toNat) [.acquire (h : Int), .release (h : Int)] := by
  obtain ⟨h1, _, _⟩ := hash_toNat _ h hh
  rw [hh] at h1
  simp [bget, hh, h1, hf, hi]

/-- A miss: the first loop of `bget` finds nothing exactly when no slot of the bucket
carries `(dev, blockno)`. -/
theorem findCached_eq_none_iff (bk : Nat → Buf) (dev blockno : Nat) :
    findCached bk dev blockno NB 0 = none ↔
      ∀ j, j < NB → ¬((bk j).dev = dev ∧ (bk j).blockno = blockno) := by
  constructor
  · intro h j hj
    exact findCached_none bk dev blockno NB 0 h j (Nat.zero_le _) (by omega)
  · intro h
    cases hf : findCached bk dev blockno NB 0 with
    | none => rfl
    | some k =>
      obtain ⟨_, h2, h3, _⟩ := findCached_some bk dev blockno NB 0 k hf
      exact absurd h3 (h k (by omega))

/-! ## `bget` on a miss -/

/-- On a miss that does not panic, the slot chosen is the one the second loop computed. -/
theorem bget_miss_choice (s : State) (ticks pid dev blockno h : Nat) (b : BufRef)
    (hh : hash (toInt blockno) = (h : Int))
    (hmiss : ∀ j, j < NB → ¬((s.bcache h j).dev = dev ∧ (s.bcache h j).blockno = blockno))
    (hre : (bget s ticks pid dev blockno).status = .returned b ∨
      (bget s ticks pid dev blockno).status = .asleep b) :
    ¬(lruScan (s.bcache h)).2 < 0 ∧ b = (h, (lruScan (s.bcache h)).2.toNat) := by
  have hf := (findCached_eq_none_iff (s.bcache h) dev blockno).2 hmiss
  by_cases hi : (lruScan (s.bcache h)).2 < 0
  · rw [bget_miss_panic s ticks pid dev blockno h hh hf hi] at hre
    simp at hre
  · rw [bget_miss_retag s ticks pid dev blockno h hh hf hi] at hre
    exact ⟨hi, acquiresleep_status _ _ _ _ _ hre⟩

/-- What the second loop's result means when it is not the sentinel `-1`. -/
theorem lruScan_chosen (bk : Nat → Buf) (hi : ¬(lruScan bk).2 < 0) :
    (lruScan bk).2.toNat < NB ∧ (bk (lruScan bk).2.toNat).refcnt = 0 ∧
      (bk (lruScan bk).2.toNat).lastuse < 0xffffffff ∧
      (∀ j, j < NB → (bk j).refcnt = 0 →
        (bk (lruScan bk).2.toNat).lastuse ≤ (bk j).lastuse) ∧
      ∀ j, j < (lruScan bk).2.toNat → (bk j).refcnt = 0 →
        (bk (lruScan bk).2.toNat).lastuse < (bk j).lastuse := by
  rcases lruScan_inv bk with ⟨hacc, _⟩ | ⟨k, hk, hacc, hr, hlt, hmin, hfirst⟩
  · rw [hacc] at hi
    exact absurd (by decide) hi
  · rw [hacc]
    simp only [Int.toNat_ofNat]
    exact ⟨hk, hr, hlt, hmin, hfirst⟩

/-- The second loop ends with `index == -1` exactly when no slot has `refcnt == 0` and
`lastuse < 0xffffffff`. -/
theorem lruScan_neg_iff (bk : Nat → Buf) :
    (lruScan bk).2 < 0 ↔ ∀ j, j < NB → ¬((bk j).refcnt = 0 ∧ (bk j).lastuse < 0xffffffff) := by
  constructor
  · intro hi j hj hc
    rcases lruScan_inv bk with ⟨_, hall⟩ | ⟨k, _, hacc, _⟩
    · have := hall j hj hc.1
      omega
    · rw [hacc] at hi
      simp only at hi
      omega
  · intro hall
    by_contra hi
    obtain ⟨h1, h2, h3, _⟩ := lruScan_chosen bk hi
    exact hall _ h1 ⟨h2, h3⟩

/-! ## The state `bget` leaves -/

/-- Summary of `bget` when it gets as far as `acquiresleep` on slot `b` (it returns `b` or
waits for its lock): `b` is a slot of bucket `hash(blockno)`, no lower slot of the bucket
carried `(dev, blockno)`, only `b` changed, and `b` is either a hit (same tag, `refcnt`
incremented, `lastuse` stamped) or a re-tagged slot that had `refcnt == 0`. -/
theorem bget_state (s : State) (ticks pid dev blockno : Nat) (b : BufRef)
    (hre : (bget s ticks pid dev blockno).status = .returned b ∨
      (bget s ticks pid dev blockno).status = .asleep b) :
    hash (toInt blockno) = (b.1 : Int) ∧ b.1 < NBUCKET ∧ b.2 < NB ∧
      (∀ j, j < b.2 → ¬((s.bcache b.1 j).dev = dev ∧ (s.bcache b.1 j).blockno = blockno)) ∧
      (∀ i j, ¬(i = b.1 ∧ j = b.2) →
        (bget s ticks pid dev blockno).state.bcache i j = s.bcache i j) ∧
      (bget s ticks pid dev blockno).state.disk = s.disk ∧
      ((bget s ticks pid dev blockno).state.bcache.at b).dev = dev ∧
      ((bget s ticks pid dev blockno).state.bcache.at b).blockno = blockno ∧
      ((bget s ticks pid dev blockno).state.bcache.at b).data = (s.bcache.at b).data ∧
      ((bget s ticks pid dev blockno).state.bcache.at b).lock
        = (if (s.bcache.at b).lock = none then some pid else (s.bcache.at b).lock) ∧
      ((bget s ticks pid dev blockno).status = .returned b ↔ (s.bcache.at b).lock = none) ∧
      ((((s.bcache.at b).dev = dev ∧ (s.bcache.at b).blockno = blockno) ∧
          ((bget s ticks pid dev blockno).state.bcache.at b).valid = (s.bcache.at b).valid ∧
          ((bget s ticks pid dev blockno).state.bcache.at b).refcnt
            = ((s.bcache.at b).refcnt + 1) % 2 ^ 32 ∧
          ((bget s ticks pid dev blockno).state.bcache.at b).lastuse = ticks) ∨
        ((∀ j, j < NB → ¬((s.bcache b.1 j).dev = dev ∧ (s.bcache b.1 j).blockno = blockno)) ∧
          (s.bcache.at b).refcnt = 0 ∧
          ((bget s ticks pid dev blockno).state.bcache.at b).valid = false ∧
          ((bget s ticks pid dev blockno).state.bcache.at b).refcnt = 1 ∧
          ((bget s ticks pid dev blockno).state.bcache.at b).lastuse = (s.bcache.at b).lastuse)) := by
  by_cases hr : inRange (hash (toInt blockno)) = true
  swap
  · rw [bget_fault s ticks pid dev blockno (by simpa using hr)] at hre
    simp at hre
  have hnn : 0 ≤ hash (toInt blockno) := by
    simp only [inRange, Bool.and_eq_true, decide_eq_true_eq] at hr
    exact hr.1
  obtain ⟨h, hh⟩ : ∃ h : Nat, hash (toInt blockno) = (h : Int) :=
    ⟨(hash (toInt blockno)).toNat, (Int.toNat_of_nonneg hnn).symm⟩
  obtain ⟨_, _, hlt⟩ := hash_toNat _ h hh
  cases hf : findCached (s.bcache h) dev blockno NB 0 with
  | some i =>
    obtain ⟨_, h2, h3, h4⟩ := findCached_some (s.bcache h) dev blockno NB 0 i hf
    have hg := bget_hit s ticks pid dev blockno h i hh hf
    have hb : b = (h, i) := by
      rw [hg] at hre
      exact acquiresleep_status _ _ _ _ _ hre
    have hslot := acquiresleep_slot
      { s with bcache := s.bcache.set (h, i)
                { s.bcache h i with
                  refcnt := ((s.bcache h i).refcnt + 1) % 2 ^ 32, lastuse := ticks } }
      pid (h, i) [.acquire (h : Int), .release (h : Int)]
    rw [← hg] at hslot
    simp only [Cache.at, Cache.set, and_self, if_true] at hslot
    subst hb
    simp only [Cache.at]
    refine ⟨hh, hlt, by omega, fun j hj => h4 j (Nat.zero_le _) hj, ?_, ?_, ?_, ?_, ?_, ?_, ?_,
      Or.inl ⟨h3, ?_, ?_, ?_⟩⟩
    · intro i1 j1 hne
      rw [hg, acquiresleep_other _ _ _ _ _ _ hne]
      exact Cache.set_other _ _ _ _ _ hne
    · rw [hg, acquiresleep_disk]
    · rw [hslot]; exact h3.1
    · rw [hslot]; exact h3.2
    · rw [hslot]
    · rw [hslot]
    · rw [hg]
      unfold acquiresleep
      split
      · rename_i hl; simpa [Cache.at, Cache.set] using hl
      · rename_i x hl
        simp only [Cache.at, Cache.set, and_self, if_true] at hl
        simp [hl]
    · rw [hslot]
    · rw [hslot]
    · rw [hslot]
  | none =>
    have hmiss := (findCached_eq_none_iff (s.bcache h) dev blockno).1 hf
    by_cases hi : (lruScan (s.bcache h)).2 < 0
    · rw [bget_miss_panic s ticks pid dev blockno h hh hf hi] at hre
      simp at hre
    obtain ⟨h1, h2, _⟩ := lruScan_chosen (s.bcache h) hi
    have hg := bget_miss_retag s ticks pid dev blockno h hh hf hi
    have hb : b = (h, (lruScan (s.bcache h)).2.toNat) := by
      rw [hg] at hre
      exact acquiresleep_status _ _ _ _ _ hre
    have hslot := acquiresleep_slot
      { s with bcache := s.bcache.set (h, (lruScan (s.bcache h)).2.toNat)
                { s.bcache h (lruScan (s.bcache h)).2.toNat with
                  dev := dev, blockno := blockno, valid := false, refcnt := 1 } }
      pid (h, (lruScan (s.bcache h)).2.toNat) [.acquire (h : Int), .release (h : Int)]
    rw [← hg] at hslot
    simp only [Cache.at, Cache.set, and_self, if_true] at hslot
    subst hb
    simp only [Cache.at]
    refine ⟨hh, hlt, h1, fun j hj => hmiss j (by omega), ?_, ?_, ?_, ?_, ?_, ?_, ?_,
      Or.inr ⟨hmiss, h2, ?_, ?_, ?_⟩⟩
    · intro i1 j1 hne
      rw [hg, acquiresleep_other _ _ _ _ _ _ hne]
      exact Cache.set_other _ _ _ _ _ hne
    · rw [hg, acquiresleep_disk]
    · rw [hslot]
    · rw [hslot]
    · rw [hslot]
    · rw [hslot]
    · rw [hg]
      unfold acquiresleep
      split
      · rename_i hl; simpa [Cache.at, Cache.set] using hl
      · rename_i x hl
        simp only [Cache.at, Cache.set, and_self, if_true] at hl
        simp [hl]
    · rw [hslot]
    · rw [hslot]
    · rw [hslot]

/-- C1: when `bget(dev, blockno)` misses and re-tags a slot, that slot is in bucket
`hash(blockno)`, had `refcnt == 0` before the call, had a `lastuse` less than or equal to
that of every refcnt-0 slot of the bucket, and is the lowest-indexed refcnt-0 slot with
that `lastuse`; so no slot with `refcnt > 0` is re-tagged. -/
theorem bget_miss_retags_lru (s : State) (ticks pid dev blockno h : Nat) (b : BufRef)
    (hh : hash (toInt blockno) = (h : Int))
    (hmiss : ∀ j, j < NB → ¬((s.bcache h j).dev = dev ∧ (s.bcache h j).blockno = blockno))
    (hre : (bget s ticks pid dev blockno).status = .returned b ∨
      (bget s ticks pid dev blockno).status = .asleep b) :
    b.1 = h ∧ b.2 < NB ∧
      ((bget s ticks pid dev blockno).state.bcache.at b).dev = dev ∧
      ((bget s ticks pid dev blockno).state.bcache.at b).blockno = blockno ∧
      (s.bcache.at b).refcnt = 0 ∧ ¬(0 < (s.bcache.at b).refcnt) ∧
      (∀ j, j < NB → (s.bcache h j).refcnt = 0 →
        (s.bcache.at b).lastuse ≤ (s.bcache h j).lastuse) ∧
      (∀ j, j < NB → (s.bcache h j).refcnt = 0 →
        (s.bcache h j).lastuse = (s.bcache.at b).lastuse → b.2 ≤ j) := by
  obtain ⟨hi, hb⟩ := bget_miss_choice s ticks pid dev blockno h b hh hmiss hre
  obtain ⟨h1, h2, _, h4, h5⟩ := lruScan_chosen (s.bcache h) hi
  obtain ⟨_, _, _, _, _, _, hdev, hblk, _⟩ := bget_state s ticks pid dev blockno b hre
  refine ⟨by rw [hb], by rw [hb]; exact h1, hdev, hblk, ?_⟩
  subst hb
  simp only [Cache.at]
  refine ⟨h2, by omega, h4, ?_⟩
  intro j _ hr he
  by_contra hlt
  have := h5 j (by omega) hr
  omega

/-- C1, the LRU scenario: in bucket 0 the blocks 13, 26, 39 were released at ticks
10 < 20 < 30 and the other two slots are still referenced; a request for the unseen
block 78 misses and re-tags slot 0, the slot of block 13. -/
theorem bget_miss_retags_lru_witness :
    (lruScenario.bcache 0 0).blockno = 13 ∧
      (bget lruScenario 40 8 1 78).status = .returned (0, 0) ∧
      ((0, 0) : BufRef).1 = 0 ∧ ((0, 0) : BufRef).2 < NB ∧
      ((bget lruScenario 40 8 1 78).state.bcache.at (0, 0)).dev = 1 ∧
      ((bget lruScenario 40 8 1 78).state.bcache.at (0, 0)).blockno = 78 ∧
      (lruScenario.bcache.at (0, 0)).refcnt = 0 ∧ ¬(0 < (lruScenario.bcache.at (0, 0)).refcnt) ∧
      (∀ j, j < NB → (lruScenario.bcache 0 j).refcnt = 0 →
        (lruScenario.bcache.at (0, 0)).lastuse ≤ (lruScenario.bcache 0 j).lastuse) ∧
      (∀ j, j < NB → (lruScenario.bcache 0 j).refcnt = 0 →
        (lruScenario.bcache 0 j).lastuse = (lruScenario.bcache.at (0, 0)).lastuse →
          ((0, 0) : BufRef).2 ≤ j) :=
  ⟨by decide, by decide,
    bget_miss_retags_lru lruScenario 40 8 1 78 0 (0, 0) (by decide) (by decide)
      (Or.inl (by decide))⟩

/-- On a miss `bget` halts in `panic("bget: no buffers")` exactly when no slot of the bucket
has both `refcnt == 0` and `lastuse < 0xffffffff`. -/
theorem bget_miss_panics_iff (s : State) (ticks pid dev blockno h : Nat)
    (hh : hash (toInt blockno) = (h : Int))
    (hmiss : ∀ j, j < NB → ¬((s.bcache h j).dev = dev ∧ (s.bcache h j).blockno = blockno)) :
    (bget s ticks pid dev blockno).status = .panicked "bget: no buffers" ↔
      ∀ j, j < NB → ¬((s.bcache h j).refcnt = 0 ∧ (s.bcache h j).lastuse < 0xffffffff) := by
  have hf := (findCached_eq_none_iff (s.bcache h) dev blockno).2 hmiss
  rw [← lruScan_neg_iff]
  by_cases hi : (lruScan (s.bcache h)).2 < 0
  · rw [bget_miss_panic s ticks pid dev blockno h hh hf hi]
    simp [hi]
  · rw [bget_miss_retag s ticks pid dev blockno h hh hf hi]
    simp only [hi, iff_false]
    unfold acquiresleep
    split <;> simp

/-- C2, at the failing input: bucket 0 holds no slot for block 78 of device 1, its slot 0
has `refcnt == 0` (released when `ticks` was `0xffffffff`), and yet `bget(1, 78)` halts in
`panic("bget: no buffers")`. -/
theorem bget_panics_with_unreferenced_slot :
    hash (toInt 78) = 0 ∧
      (∀ j, j < NB → ¬((lastTickScenario.bcache 0 j).dev = 1 ∧
        (lastTickScenario.bcache 0 j).blockno = 78)) ∧
      (lastTickScenario.bcache 0 0).refcnt = 0 ∧
      (lastTickScenario.bcache 0 0).lastuse = 0xffffffff ∧
      (bget lastTickScenario 40 8 1 78).status = .panicked "bget: no buffers" := by
  decide

/-! ## `bget` on a hit -/

/-- C3, counterexample: in `wrappedScenario` slot 0 of bucket 0 carries block 13 of device 1
with `refcnt == 0xffffffff`; `bget(1, 13)` hits it and returns it with `refcnt == 0`, which
is not the old value increased by 1. -/
theorem bget_hit_wraps_refcnt :
    hash (toInt 13) = 0 ∧
      (wrappedScenario.bcache 0 0).dev = 1 ∧ (wrappedScenario.bcache 0 0).blockno = 13 ∧
      (wrappedScenario.bcache 0 0).refcnt = 0xffffffff ∧
      (bget wrappedScenario 5 8 1 13).status = .returned (0, 0) ∧
      ((bget wrappedScenario 5 8 1 13).state.bcache 0 0).refcnt = 0 ∧
      ¬(((bget wrappedScenario 5 8 1 13).state.bcache 0 0).refcnt
          = (wrappedScenario.bcache 0 0).refcnt + 1) := by
  decide

/-- C3, amended: when some slot of bucket `hash(blockno)` carries `(dev, blockno)`, `bget`
picks the lowest-indexed such slot `i`; its `refcnt` is increased by 1 modulo `2 ^ 32` (so
by exactly 1 unless it was `0xffffffff`), its `lastuse` becomes `ticks`, its `dev`,
`blockno`, `valid` and `data` stay, and every other slot of every bucket and the disk are
unchanged.  The call returns that slot, holding its sleep lock, when the lock is free, and
otherwise waits in `acquiresleep` on that slot. -/
theorem bget_hit_effect (s : State) (ticks pid dev blockno h : Nat)
    (hh : hash (toInt blockno) = (h : Int))
    (hhit : ∃ j, j < NB ∧ (s.bcache h j).dev = dev ∧ (s.bcache h j).blockno = blockno) :
    ∃ i, i < NB ∧ ((s.bcache h i).dev = dev ∧ (s.bcache h i).blockno = blockno) ∧
      (∀ j, j < i → ¬((s.bcache h j).dev = dev ∧ (s.bcache h j).blockno = blockno)) ∧
      ((s.bcache h i).lock = none →
        (bget s ticks pid dev blockno).status = .returned (h, i) ∧
        ((bget s ticks pid dev blockno).state.bcache h i).lock = some pid) ∧
      ((s.bcache h i).lock ≠ none →
        (bget s ticks pid dev blockno).status = .asleep (h, i) ∧
        ((bget s ticks pid dev blockno).state.bcache h i).lock = (s.bcache h i).lock) ∧
      ((bget s ticks pid dev blockno).state.bcache h i).refcnt
        = ((s.bcache h i).refcnt + 1) % 2 ^ 32 ∧
      ((s.bcache h i).refcnt + 1 < 2 ^ 32 →
        ((bget s ticks pid dev blockno).state.bcache h i).refcnt = (s.bcache h i).refcnt + 1) ∧
      ((bget s ticks pid dev blockno).state.bcache h i).lastuse = ticks ∧
      ((bget s ticks pid dev blockno).state.bcache h i).dev = (s.bcache h i).dev ∧
      ((bget s ticks pid dev blockno).state.bcache h i).blockno = (s.bcache h i).blockno ∧
      ((bget s ticks pid dev blockno).state.bcache h i).valid = (s.bcache h i).valid ∧
      ((bget s ticks pid dev blockno).state.bcache h i).data = (s.bcache h i).data ∧
      (∀ i1 j1, ¬(i1 = h ∧ j1 = i) →
        (bget s ticks pid dev blockno).state.bcache i1 j1 = s.bcache i1 j1) ∧
      (bget s ticks pid dev blockno).state.disk = s.disk := by
  have hsome : ∃ i, findCached (s.bcache h) dev blockno NB 0 = some i := by
    cases hf : findCached (s.bcache h) dev blockno NB 0 with
    | some i => exact ⟨i, rfl⟩
    | none =>
      obtain ⟨j, hj, hm⟩ := hhit
      exact absurd hm ((findCached_eq_none_iff (s.bcache h) dev blockno).1 hf j hj)
  obtain ⟨i, hf⟩ := hsome
  obtain ⟨_, h2, h3, h4⟩ := findCached_some (s.bcache h) dev blockno NB 0 i hf
  have hb := bget_hit s ticks pid dev blockno h i hh hf
  have hslot := acquiresleep_slot
    { s with bcache := s.bcache.set (h, i)
              { s.bcache h i with
                refcnt := ((s.bcache h i).refcnt + 1) % 2 ^ 32, lastuse := ticks } }
    pid (h, i) [.acquire (h : Int), .release (h : Int)]
  rw [← hb] at hslot
  simp only [Cache.at, Cache.set, and_self, if_true] at hslot
  refine ⟨i, by omega, h3, fun j hj => h4 j (Nat.zero_le _) hj, ?_, ?_, ?_, ?_, ?_, ?_, ?_, ?_,
    ?_, ?_, ?_⟩
  · intro hl
    refine ⟨?_, ?_⟩
    · rw [hb, acquiresleep_free _ _ _ _ (by simpa [Cache.at, Cache.set] using hl)]
    · rw [hslot]; simp [hl]
  · intro hl
    refine ⟨?_, ?_⟩
    · rw [hb, acquiresleep_held _ _ _ _ (by simpa [Cache.at, Cache.set] using hl)]
    · rw [hslot]; simp [hl]
  · rw [hslot]
  · intro hlt
    rw [hslot]
    exact Nat.mod_eq_of_lt hlt
  · rw [hslot]
  · rw [hslot]
  · rw [hslot]
  · rw [hslot]
  · rw [hslot]
  · intro i1 j1 hne
    rw [hb, acquiresleep_other _ _ _ _ _ _ hne]
    exact Cache.set_other _ _ _ _ _ hne
  · rw [hb, acquiresleep_disk]

/-- C3, amended, at a concrete input: in the LRU scenario block 26 of device 1 is cached in slot 1
of bucket 0, and `bget(1, 26)` at tick 40 by process 8 hits it. -/
theorem bget_hit_effect_witness :
    hash (toInt 26) = ((0 : Nat) : Int) ∧
      (∃ j, j < NB ∧ (lruScenario.bcache 0 j).dev = 1 ∧ (lruScenario.bcache 0 j).blockno = 26) ∧
      (bget lruScenario 40 8 1 26).status = .returned (0, 1) ∧
      ∃ i, i < NB ∧ ((lruScenario.bcache 0 i).dev = 1 ∧ (lruScenario.bcache 0 i).blockno = 26) ∧
      (∀ j, j < i → ¬((lruScenario.bcache 0 j).dev = 1 ∧ (lruScenario.bcache 0 j).blockno = 26)) ∧
      ((lruScenario.bcache 0 i).lock = none →
        (bget lruScenario 40 8 1 26).status = .returned (0, i) ∧
        ((bget lruScenario 40 8 1 26).state.bcache 0 i).lock = some 8) ∧
      ((lruScenario.bcache 0 i).lock ≠ none →
        (bget lruScenario 40 8 1 26).status = .asleep (0, i) ∧
        ((bget lruScenario 40 8 1 26).state.bcache 0 i).lock = (lruScenario.bcache 0 i).lock) ∧
      ((bget lruScenario 40 8 1 26).state.bcache 0 i).refcnt
        = ((lruScenario.bcache 0 i).refcnt + 1) % 2 ^ 32 ∧
      ((lruScenario.bcache 0 i).refcnt + 1 < 2 ^ 32 →
        ((bget lruScenario 40 8 1 26).state.bcache 0 i).refcnt = (lruScenario.bcache 0 i).refcnt + 1) ∧
      ((bget lruScenario 40 8 1 26).state.bcache 0 i).lastuse = 40 ∧
      ((bget lruScenario 40 8 1 26).state.bcache 0 i).dev = (lruScenario.bcache 0 i).dev ∧
      ((bget lruScenario 40 8 1 26).state.bcache 0 i).blockno = (lruScenario.bcache 0 i).blockno ∧
      ((bget lruScenario 40 8 1 26).state.bcache 0 i).valid = (lruScenario.bcache 0 i).valid ∧
      ((bget lruScenario 40 8 1 26).state.bcache 0 i).data = (lruScenario.bcache 0 i).data ∧
      (∀ i1 j1, ¬(i1 = 0 ∧ j1 = i) →
        (bget lruScenario 40 8 1 26).state.bcache i1 j1 = lruScenario.bcache i1 j1) ∧
      (bget lruScenario 40 8 1 26).state.disk = lruScenario.disk :=
  ⟨by decide, ⟨1, by decide⟩, by decide,
    bget_hit_effect lruScenario 40 8 1 26 0 (by decide) ⟨1, by decide⟩⟩

/-- What `brelse` does when the caller holds the sleep lock of `b` and the block number of
`b` hashes to a bucket index. -/
theorem brelse_held (s : State) (ticks pid : Nat) (b : BufRef)
    (hheld : (s.bcache.at b).lock = some pid)
    (hin : inRange (hash (toInt (s.bcache.at b).blockno)) = true) :
    (brelse s ticks pid b).status = .returned () ∧
      (brelse s ticks pid b).state.bcache.at b
        = { s.bcache.at b with
            lock := none
            refcnt := ((s.bcache.at b).refcnt + (2 ^ 32 - 1)) % 2 ^ 32
            lastuse := ticks } ∧
      (∀ i j, ¬(i = b.1 ∧ j = b.2) → (brelse s ticks pid b).state.bcache i j = s.bcache i j) ∧
      (brelse s ticks pid b).state.disk = s.disk ∧
      (brelse s ticks pid b).events
        = [.releasesleep b, .acquire (hash (toInt (s.bcache.at b).blockno)),
            .release (hash (toInt (s.bcache.at b).blockno))] := by
  simp only [Cache.at] at hheld hin
  simp only [brelse, holdingsleep, Cache.at, hheld, hin, decide_True, Bool.true_eq_false,
    if_false]
  refine ⟨trivial, by simp [Cache.set], ?_, trivial, trivial⟩
  intro i j hne
  simp [Cache.set, hne]

/-- C5, counterexample.  First: in `pinnedScenario` the holder releases a buffer whose
`refcnt` is 2; the new `refcnt` is 1, not 0, and still `lastuse` is overwritten with the
current tick 99.  Second: a held buffer whose block number hashes to `-1` makes `brelse`
index `bcache` out of bounds instead of decrementing. -/
theorem brelse_stamps_while_referenced :
    ((pinnedScenario.bcache.at (0, 0)).lock = some 7 ∧
      (pinnedScenario.bcache.at (0, 0)).refcnt = 2 ∧
      (pinnedScenario.bcache.at (0, 0)).lastuse = 0 ∧
      (brelse pinnedScenario 99 7 (0, 0)).status = .returned () ∧
      ((brelse pinnedScenario 99 7 (0, 0)).state.bcache.at (0, 0)).refcnt = 1 ∧
      ((brelse pinnedScenario 99 7 (0, 0)).state.bcache.at (0, 0)).lastuse = 99 ∧
      ¬(((brelse pinnedScenario 99 7 (0, 0)).state.bcache.at (0, 0)).lastuse = 99 ↔
          ((brelse pinnedScenario 99 7 (0, 0)).state.bcache.at (0, 0)).refcnt = 0)) ∧
    ((strayBlockState.bcache.at (0, 0)).lock = some 7 ∧
      hash (toInt (strayBlockState.bcache.at (0, 0)).blockno) = -1 ∧
      (brelse strayBlockState 99 7 (0, 0)).status = .fault) := by
  decide

/-- C5, amended: for every buffer `b` whose sleep lock the caller holds and whose block
number hashes to a bucket index, `brelse(b)` returns, releases that lock, decreases `refcnt`
by 1 in 32-bit unsigned arithmetic (by exactly 1 when it was between 1 and `0xffffffff`),
and sets `lastuse` to the current tick in every case, whatever the new `refcnt`; the other
fields of `b`, every other slot and the disk are unchanged. -/
theorem brelse_effect (s : State) (ticks pid : Nat) (b : BufRef)
    (hheld : (s.bcache.at b).lock = some pid)
    (hin : inRange (hash (toInt (s.bcache.at b).blockno)) = true) :
    (brelse s ticks pid b).status = .returned () ∧
      ((brelse s ticks pid b).state.bcache.at b).lock = none ∧
      ((brelse s ticks pid b).state.bcache.at b).refcnt
        = ((s.bcache.at b).refcnt + (2 ^ 32 - 1)) % 2 ^ 32 ∧
      (0 < (s.bcache.at b).refcnt → (s.bcache.at b).refcnt < 2 ^ 32 →
        ((brelse s ticks pid b).state.bcache.at b).refcnt + 1 = (s.bcache.at b).refcnt) ∧
      ((brelse s ticks pid b).state.bcache.at b).lastuse = ticks ∧
      ((brelse s ticks pid b).state.bcache.at b).dev = (s.bcache.at b).dev ∧
      ((brelse s ticks pid b).state.bcache.at b).blockno = (s.bcache.at b).blockno ∧
      ((brelse s ticks pid b).state.bcache.at b).valid = (s.bcache.at b).valid ∧
      ((brelse s ticks pid b).state.bcache.at b).data = (s.bcache.at b).data ∧
      (∀ i j, ¬(i = b.1 ∧ j = b.2) → (brelse s ticks pid b).state.bcache i j = s.bcache i j) ∧
      (brelse s ticks pid b).state.disk = s.disk := by
  obtain ⟨h1, h2, h3, h4, _⟩ := brelse_held s ticks pid b hheld hin
  rw [h2]
  refine ⟨h1, rfl, rfl, ?_, rfl, rfl, rfl, rfl, rfl, h3, h4⟩
  intro h0 hlt
  show ((s.bcache.at b).refcnt + (2 ^ 32 - 1)) % 2 ^ 32 + 1 = (s.bcache.at b).refcnt
  omega

/-- C5, amended, at a concrete input: the release of the pinned buffer at tick 99. -/
theorem brelse_effect_witness :
    (pinnedScenario.bcache.at (0, 0)).lock = some 7 ∧
      inRange (hash (toInt (pinnedScenario.bcache.at (0, 0)).blockno)) = true ∧
      (brelse pinnedScenario 99 7 (0, 0)).status = .returned () ∧
      ((brelse pinnedScenario 99 7 (0, 0)).state.bcache.at (0, 0)).lock = none ∧
      ((brelse pinnedScenario 99 7 (0, 0)).state.bcache.at (0, 0)).lastuse = 99 :=
  have h := brelse_effect pinnedScenario 99 7 (0, 0) (by decide) (by decide)
  ⟨by decide, by decide, h.1, h.2.1, h.2.2.2.2.1⟩

/-- C10: when the caller does not hold the sleep lock of `b`, `brelse(b)` halts in
`panic("brelse")` (it does not return), and at that point the whole state is as before
the call and no lock or disk call has been made. -/
theorem brelse_not_held_panics (s : State) (ticks pid : Nat) (b : BufRef)
    (hnot : (s.bcache.at b).lock ≠ some pid) :
    (brelse s ticks pid b).status = .panicked "brelse" ∧
      (brelse s ticks pid b).status ≠ .returned () ∧
      (brelse s ticks pid b).state = s ∧
      (∀ i j, (brelse s ticks pid b).state.bcache i j = s.bcache i j) ∧
      (brelse s ticks pid b).events = [] := by
  have hb : brelse s ticks pid b = { status := .panicked "brelse", state := s, events := [] } := by
    simp [brelse, holdingsleep, hnot]
  rw [hb]
  simp

/-- C10 at concrete inputs: process 8 releases a buffer that process 7 holds. -/
theorem brelse_not_held_panics_witness :
    (fullBucket.bcache.at (0, 0)).lock ≠ some 8 ∧
      (brelse fullBucket 9 8 (0, 0)).status = .panicked "brelse" ∧
      (brelse fullBucket 9 8 (0, 0)).state = fullBucket :=
  have h := brelse_not_held_panics fullBucket 9 8 (0, 0) (by decide)
  ⟨by decide, h.1, h.2.2.1⟩

/-! ## `hash` -/

/-- For a block number below `2 ^ 31` the hash is a bucket index. -/
theorem hash_inRange_of_lt (n : Nat) (hn : n < 2 ^ 31) :
    0 ≤ hash (toInt n) ∧ hash (toInt n) < (NBUCKET : Int) ∧ inRange (hash (toInt n)) = true := by
  have h1 : toInt n = (n : Int) := by
    unfold toInt
    have : n % 2 ^ 32 = n := Nat.mod_eq_of_lt (by omega)
    rw [this]
    have : n < 2 ^ 31 := hn
    simp only [this, if_true]
  have h2 : 0 ≤ hash (toInt n) := by
    rw [h1]; unfold hash
    exact Int.tmod_nonneg _ (Int.ofNat_nonneg n)
  have h3 : hash (toInt n) < (NBUCKET : Int) := by
    unfold hash
    exact Int.tmod_lt_of_pos _ (by decide)
  refine ⟨h2, h3, ?_⟩
  simp only [inRange, Bool.and_eq_true, decide_eq_true_eq]
  exact ⟨h2, h3⟩

/-- C6, at the failing input: for the 32-bit block number `0xffffffff` the hash is `-1`,
not a bucket index, and `bget` indexes `bcache` out of bounds; the same for `0x80000000`,
whose hash is `-11`. -/
theorem hash_negative_for_large_blockno :
    hash (toInt 0xffffffff) = -1 ∧ ¬(0 ≤ hash (toInt 0xffffffff)) ∧
      (bget bootState 0 7 1 0xffffffff).status = .fault ∧
      hash (toInt 0x80000000) = -11 := by
  decide

/-! ## `bread` -/

theorem breadTail_status (s : State) (b : BufRef) (ev : List Event) :
    (breadTail s b ev).status = .returned b := by
  unfold breadTail
  split <;> rfl

theorem breadTail_disk (s : State) (b : BufRef) (ev : List Event) :
    (breadTail s b ev).state.disk = s.disk := by
  unfold breadTail
  split <;> rfl

theorem breadTail_other (s : State) (b : BufRef) (ev : List Event) (i j : Nat)
    (h : ¬(i = b.1 ∧ j = b.2)) : (breadTail s b ev).state.bcache i j = s.bcache i j := by
  unfold breadTail
  split
  · simp [diskRead, Cache.set, h]
  · rfl

/-- After the tail of `bread` the slot is valid; its payload was loaded from the disk when
it was not valid before; its other fields are as before. -/
theorem breadTail_slot (s : State) (b : BufRef) (ev : List Event) :
    ((breadTail s b ev).state.bcache.at b).valid = true ∧
      ((breadTail s b ev).state.bcache.at b).data
        = (if (s.bcache.at b).valid = false
            then s.disk (s.bcache.at b).dev (s.bcache.at b).blockno else (s.bcache.at b).data) ∧
      ((breadTail s b ev).state.bcache.at b).dev = (s.bcache.at b).dev ∧
      ((breadTail s b ev).state.bcache.at b).blockno = (s.bcache.at b).blockno ∧
      ((breadTail s b ev).state.bcache.at b).refcnt = (s.bcache.at b).refcnt ∧
      ((breadTail s b ev).state.bcache.at b).lastuse = (s.bcache.at b).lastuse ∧
      ((breadTail s b ev).state.bcache.at b).lock = (s.bcache.at b).lock := by
  unfold breadTail
  split
  · rename_i hv
    simp [diskRead, Cache.set, Cache.at, hv]
  · rename_i hv
    simp only [Bool.not_eq_false] at hv
    simp [hv]

theorem breadTail_events (s : State) (b : BufRef) (ev : List Event) :
    (breadTail s b ev).events
      = (if (s.bcache.at b).valid = false then ev ++ [.virtio_disk_rw b false] else ev) := by
  unfold breadTail
  split <;> rfl

theorem bread_of_returned (s : State) (ticks pid dev blockno : Nat) (b : BufRef)
    (h : (bget s ticks pid dev blockno).status = .returned b) :
    bread s ticks pid dev blockno =
      breadTail (bget s ticks pid dev blockno).state b (bget s ticks pid dev blockno).events := by
  simp only [bread, h]

theorem bread_of_asleep (s : State) (ticks pid dev blockno : Nat) (b : BufRef)
    (h : (bget s ticks pid dev blockno).status = .asleep b) :
    bread s ticks pid dev blockno = bget s ticks pid dev blockno := by
  simp only [bread, h]

/-- No disk call is made by `bget` itself. -/
theorem bget_events_no_disk (s : State) (ticks pid dev blockno : Nat) (c : BufRef) (w : Bool) :
    Event.virtio_disk_rw c w ∉ (bget s ticks pid dev blockno).events := by
  unfold bget
  simp only
  split
  · simp
  · split
    · unfold acquiresleep
      split <;> simp
    · split
      · simp
      · unfold acquiresleep
        split <;> simp

/-- C9, counterexample: in `wrappedScenario` the cached slot of block 13 has
`refcnt == 0xffffffff`; `bget(1, 13)` succeeds with a hit, and `bread(1, 13)` returns that
slot with `refcnt == 0`, not `>= 1`. -/
theorem bread_returns_refcnt_zero :
    (wrappedScenario.bcache.at (0, 0)).refcnt = 0xffffffff ∧
      (bget wrappedScenario 5 8 1 13).status = .returned (0, 0) ∧
      (bread wrappedScenario 5 8 1 13).status = .returned (0, 0) ∧
      ((bread wrappedScenario 5 8 1 13).state.bcache.at (0, 0)).refcnt = 0 ∧
      ¬(1 ≤ ((bread wrappedScenario 5 8 1 13).state.bcache.at (0, 0)).refcnt) := by
  decide

/-! ## Invariants of the running system -/

theorem coherent_zero : Coherent zeroCache := by
  intro i j1 j2 _ _ _ _ _
  exact ⟨rfl, rfl⟩

theorem inBucket_zero : InBucket zeroCache := by
  intro i j _ _ h
  simp [zeroCache, zeroBuf] at h

/-- In a coherent cache a referenced slot has no lower-indexed slot with its tag. -/
theorem coherent_lowest (c : Cache) (hc : Coherent c) (b : BufRef) (hb1 : b.1 < NBUCKET)
    (hb2 : b.2 < NB) (href : 0 < (c.at b).refcnt) :
    ∀ j, j < b.2 → ¬((c b.1 j).dev = (c.at b).dev ∧ (c b.1 j).blockno = (c.at b).blockno) := by
  intro j hj hm
  have := (hc b.1 j b.2 hb1 hj hb2 hm.1 hm.2).1
  simp only [Cache.at] at href
  omega

theorem coherent_tagStep (s s' : State) (b : BufRef) (hc : Coherent s.bcache)
    (ht : TagStep s s' b) : Coherent s'.bcache := by
  obtain ⟨_, hb2, hu, htag, _⟩ := ht
  intro i j1 j2 hi h12 hj2 hd hn
  by_cases e2 : i = b.1 ∧ j2 = b.2
  · obtain ⟨ei, ej⟩ := e2
    subst ei ej
    have e1 : ¬(b.1 = b.1 ∧ j1 = b.2) := by omega
    rw [hu _ _ e1] at hd hn
    simp only [Cache.at] at htag
    rcases htag with ⟨t1, t2, t3⟩ | t
    · exact absurd ⟨by rw [hd, t1], by rw [hn, t2]⟩ (t3 j1 h12)
    · exact absurd ⟨hd, hn⟩ (t j1 (by omega))
  · rw [hu _ _ e2] at hd hn ⊢
    by_cases e1 : i = b.1 ∧ j1 = b.2
    · obtain ⟨ei, ej⟩ := e1
      subst ei ej
      simp only [Cache.at] at htag
      rcases htag with ⟨t1, t2, _⟩ | t
      · rw [t1] at hd
        rw [t2] at hn
        exact hc b.1 b.2 j2 hi h12 hj2 hd hn
      · exact absurd ⟨hd.symm, hn.symm⟩ (t j2 hj2)
    · rw [hu _ _ e1] at hd hn
      exact hc i j1 j2 hi h12 hj2 hd hn

theorem inBucket_tagStep (s s' : State) (b : BufRef) (hI : InBucket s.bcache)
    (ht : TagStep s s' b) : InBucket s'.bcache := by
  obtain ⟨_, _, hu, _, hbk⟩ := ht
  intro i j hi hj href
  by_cases e : i = b.1 ∧ j = b.2
  · obtain ⟨ei, ej⟩ := e
    subst ei ej
    exact hbk href
  · rw [hu _ _ e] at href ⊢
    exact hI i j hi hj href

theorem fresh_dataStep (dev blockno : Nat) (x : List Nat) (s s' : State) (b : BufRef)
    (hF : Fresh dev blockno x s)
    (hu : ∀ i j, ¬(i = b.1 ∧ j = b.2) → s'.bcache i j = s.bcache i j)
    (hb2 : b.2 < NB) (hd : DataStep s s' b) : Fresh dev blockno x s' := by
  obtain ⟨hdisk, hdata⟩ := hd
  obtain ⟨hx, hF⟩ := hF
  refine ⟨by rw [hdisk]; exact hx, ?_⟩
  intro j hj h1 h2 h3
  by_cases e : (hash (toInt blockno)).toNat = b.1 ∧ j = b.2
  · obtain ⟨ei, ej⟩ := e
    subst ej
    rw [ei] at h1 h2 h3 ⊢
    simp only [Cache.at] at hdata
    rcases hdata h3 with ⟨t1, t2, t3, t4⟩ | t
    · rw [t4]
      have := hF b.2 hb2
      rw [ei] at this
      exact this (by rw [← t1]; exact h1) (by rw [← t2]; exact h2) t3
    · rw [t, h1, h2]
      exact hx
  · rw [hu _ _ e] at h1 h2 h3 ⊢
    exact hF j hj h1 h2 h3

theorem brelse_returned (s : State) (ticks pid : Nat) (b : BufRef)
    (h : (brelse s ticks pid b).status = .returned ()) :
    (s.bcache.at b).lock = some pid ∧ inRange (hash (toInt (s.bcache.at b).blockno)) = true := by
  unfold brelse at h
  simp only at h
  split at h
  · simp at h
  · rename_i hl
    split at h
    · simp at h
    · rename_i hr
      simp only [holdingsleep, decide_eq_false_iff_not, not_not] at hl
      exact ⟨hl, by simpa using hr⟩

/-- Effect of `bpin` on a buffer whose block number hashes to a bucket index: only `refcnt` of `b`
changes, to `refcnt + 1` modulo `2 ^ 32`. -/
theorem bpin_state (s : State) (b : BufRef) (h : (bpin s b).status = .returned ()) :
    (bpin s b).state.bcache
        = s.bcache.set b { s.bcache.at b with refcnt := ((s.bcache.at b).refcnt + 1) % 2 ^ 32 } ∧
      (bpin s b).state.disk = s.disk := by
  unfold bpin at h ⊢
  simp only at h ⊢
  split
  · rename_i hr
    simp [hr] at h
  · exact ⟨rfl, rfl⟩

/-- Effect of `bunpin` on a buffer whose block number hashes to a bucket index: only `refcnt` of `b`
changes, to `refcnt - 1` modulo `2 ^ 32`. -/
theorem bunpin_state (s : State) (b : BufRef) (h : (bunpin s b).status = .returned ()) :
    (bunpin s b).state.bcache
        = s.bcache.set b
            { s.bcache.at b with refcnt := ((s.bcache.at b).refcnt + (2 ^ 32 - 1)) % 2 ^ 32 } ∧
      (bunpin s b).state.disk = s.disk := by
  unfold bunpin at h ⊢
  simp only at h ⊢
  split
  · rename_i hr
    simp [hr] at h
  · exact ⟨rfl, rfl⟩

theorem bwrite_state (s : State) (pid : Nat) (b : BufRef)
    (h : (bwrite s pid b).status = .returned ()) :
    (s.bcache.at b).lock = some pid ∧ (bwrite s pid b).state = diskWrite s b := by
  unfold bwrite at h ⊢
  split at h
  · simp at h
  · rename_i hl
    simp only [holdingsleep, decide_eq_false_iff_not, not_not] at hl
    simp [holdingsleep, hl]

/-- A step that changes `b` in its `refcnt`, `lastuse` and `lock` at most, on a referenced
slot of a coherent cache. -/
theorem tagStep_of_meta (s s' : State) (b : BufRef) (hc : Coherent s.bcache)
    (hI : InBucket s.bcache) (hb1 : b.1 < NBUCKET) (hb2 : b.2 < NB)
    (href : 0 < (s.bcache.at b).refcnt)
    (hu : ∀ i j, ¬(i = b.1 ∧ j = b.2) → s'.bcache i j = s.bcache i j)
    (hdev : (s'.bcache.at b).dev = (s.bcache.at b).dev)
    (hblk : (s'.bcache.at b).blockno = (s.bcache.at b).blockno) : TagStep s s' b := by
  refine ⟨hb1, hb2, hu, Or.inl ⟨hdev, hblk, coherent_lowest s.bcache hc b hb1 hb2 href⟩, ?_⟩
  intro _
  rw [hblk]
  exact hI b.1 b.2 hb1 hb2 href

theorem dataStep_of_meta (s s' : State) (b : BufRef) (hdisk : s'.disk = s.disk)
    (hdev : (s'.bcache.at b).dev = (s.bcache.at b).dev)
    (hblk : (s'.bcache.at b).blockno = (s.bcache.at b).blockno)
    (hval : (s'.bcache.at b).valid = (s.bcache.at b).valid)
    (hdat : (s'.bcache.at b).data = (s.bcache.at b).data) : DataStep s s' b := by
  refine ⟨hdisk, fun hv => Or.inl ⟨hdev, hblk, ?_, hdat⟩⟩
  rw [← hval]; exact hv

theorem bget_steps (s : State) (ticks pid dev blockno : Nat) (b : BufRef)
    (hre : (bget s ticks pid dev blockno).status = .returned b ∨
      (bget s ticks pid dev blockno).status = .asleep b) :
    TagStep s (bget s ticks pid dev blockno).state b ∧
      DataStep s (bget s ticks pid dev blockno).state b := by
  obtain ⟨hh, hb1, hb2, hlow, hu, hdisk, hdev, hblk, hdat, _, _, hcase⟩ :=
    bget_state s ticks pid dev blockno b hre
  refine ⟨⟨hb1, hb2, hu, ?_, ?_⟩, hdisk, ?_⟩
  · rcases hcase with ⟨htag, _⟩ | ⟨hmiss, _⟩
    · left
      refine ⟨by rw [hdev, htag.1], by rw [hblk, htag.2], ?_⟩
      rw [htag.1, htag.2]
      exact hlow
    · right
      rw [hdev, hblk]
      exact hmiss
  · intro _
    rw [hblk]
    exact hh
  · intro hv
    rcases hcase with ⟨htag, hval, _⟩ | ⟨_, _, hval, _⟩
    · left
      exact ⟨by rw [hdev, htag.1], by rw [hblk, htag.2], by rw [← hval]; exact hv, hdat⟩
    · rw [hval] at hv
      exact absurd hv (by simp)

/-- The tail of `bread` after a step that already satisfied `TagStep` and `DataStep`. -/
theorem breadTail_steps (s s1 : State) (b : BufRef) (ev : List Event)
    (ht : TagStep s s1 b) (hd : DataStep s s1 b) :
    TagStep s (breadTail s1 b ev).state b ∧ DataStep s (breadTail s1 b ev).state b := by
  obtain ⟨hb1, hb2, hu, htag, hbk⟩ := ht
  obtain ⟨hdisk, hdata⟩ := hd
  obtain ⟨t1, t2, t3, t4, t5, _, _⟩ := breadTail_slot s1 b ev
  refine ⟨⟨hb1, hb2, ?_, ?_, ?_⟩, ?_, ?_⟩
  · intro i j hne
    rw [breadTail_other s1 b ev i j hne]
    exact hu i j hne
  · rw [t3, t4]
    exact htag
  · rw [t4, t5]
    exact hbk
  · rw [breadTail_disk, hdisk]
  · intro _
    rw [t2, t3, t4]
    by_cases hv : (s1.bcache.at b).valid = false
    · right
      rw [if_pos hv, hdisk]
    · rw [if_neg hv]
      exact hdata (by simpa using hv)

/-- Every step either leaves the cache as it is (`bwrite`) or changes one slot in the way
`TagStep` and `DataStep` describe. -/
theorem step_cases (s s' : State) (hc : Coherent s.bcache) (hI : InBucket s.bcache)
    (h : Step s s') :
    (∃ b, TagStep s s' b ∧ DataStep s s' b) ∨ s'.bcache = s.bcache := by
  cases h with
  | bget ticks pid dev blockno b h =>
    exact Or.inl ⟨b, bget_steps s ticks pid dev blockno b h⟩
  | bread ticks pid dev blockno b h =>
    left
    cases hg : (bget s ticks pid dev blockno).status with
    | returned c =>
      obtain ⟨ht, hd⟩ := bget_steps s ticks pid dev blockno c (Or.inl hg)
      rw [bread_of_returned s ticks pid dev blockno c hg]
      exact ⟨c, breadTail_steps s _ c _ ht hd⟩
    | asleep c =>
      rw [bread_of_asleep s ticks pid dev blockno c hg]
      exact ⟨c, bget_steps s ticks pid dev blockno c (Or.inr hg)⟩
    | panicked msg =>
      simp only [bread, hg] at h
      simp at h
    | fault =>
      simp only [bread, hg] at h
      simp at h
  | wakeup pid b hb1 hb2 href h =>
    left
    have hs := acquiresleep_slot s pid b []
    have hs' : (acquiresleep s pid b []).state.bcache.at b
        = { s.bcache.at b with
            lock := if (s.bcache.at b).lock = none then some pid else (s.bcache.at b).lock } := hs
    refine ⟨b, tagStep_of_meta s _ b hc hI hb1 hb2 href
      (fun i j hne => acquiresleep_other s pid b [] i j hne) (by rw [hs']) (by rw [hs']),
      dataStep_of_meta s _ b (acquiresleep_disk s pid b []) (by rw [hs']) (by rw [hs'])
        (by rw [hs']) (by rw [hs'])⟩
  | resume pid b hb1 hb2 href hheld =>
    left
    have ht : TagStep s s b :=
      tagStep_of_meta s s b hc hI hb1 hb2 href (fun _ _ _ => rfl) rfl rfl
    have hd : DataStep s s b := dataStep_of_meta s s b rfl rfl rfl rfl rfl
    exact ⟨b, breadTail_steps s s b [] ht hd⟩
  | bwrite pid b hb1 hb2 h =>
    right
    rw [(bwrite_state s pid b h).2]
    rfl
  | brelse ticks pid b hb1 hb2 href h =>
    left
    obtain ⟨hheld, hin⟩ := brelse_returned s ticks pid b h
    obtain ⟨_, hs, hu, hdisk, _⟩ := brelse_held s ticks pid b hheld hin
    exact ⟨b, tagStep_of_meta s _ b hc hI hb1 hb2 href hu (by rw [hs]) (by rw [hs]),
      dataStep_of_meta s _ b hdisk (by rw [hs]) (by rw [hs]) (by rw [hs]) (by rw [hs])⟩
  | bpin b hb1 hb2 href h =>
    left
    obtain ⟨e, hdisk⟩ := bpin_state s b h
    have hu : ∀ i j, ¬(i = b.1 ∧ j = b.2) → (bpin s b).state.bcache i j = s.bcache i j := by
      intro i j hne
      rw [e]
      exact Cache.set_other _ _ _ _ _ hne
    have hs : (bpin s b).state.bcache.at b
        = { s.bcache.at b with refcnt := ((s.bcache.at b).refcnt + 1) % 2 ^ 32 } := by
      rw [e]
      exact Cache.set_same _ _ _
    exact ⟨b, tagStep_of_meta s _ b hc hI hb1 hb2 href hu (by rw [hs]) (by rw [hs]),
      dataStep_of_meta s _ b hdisk (by rw [hs]) (by rw [hs]) (by rw [hs]) (by rw [hs])⟩
  | bunpin b hb1 hb2 href h =>
    left
    obtain ⟨e, hdisk⟩ := bunpin_state s b h
    have hu : ∀ i j, ¬(i = b.1 ∧ j = b.2) → (bunpin s b).state.bcache i j = s.bcache i j := by
      intro i j hne
      rw [e]
      exact Cache.set_other _ _ _ _ _ hne
    have hs : (bunpin s b).state.bcache.at b
        = { s.bcache.at b with refcnt := ((s.bcache.at b).refcnt + (2 ^ 32 - 1)) % 2 ^ 32 } := by
      rw [e]
      exact Cache.set_same _ _ _
    exact ⟨b, tagStep_of_meta s _ b hc hI hb1 hb2 href hu (by rw [hs]) (by rw [hs]),
      dataStep_of_meta s _ b hdisk (by rw [hs]) (by rw [hs]) (by rw [hs]) (by rw [hs])⟩

theorem invariants_step (s s' : State) (hc : Coherent s.bcache) (hI : InBucket s.bcache)
    (h : Step s s') : Coherent s'.bcache ∧ InBucket s'.bcache := by
  rcases step_cases s s' hc hI h with ⟨b, ht, _⟩ | e
  · exact ⟨coherent_tagStep s s' b hc ht, inBucket_tagStep s s' b hI ht⟩
  · rw [e]
    exact ⟨hc, hI⟩

theorem invariants_store (s : State) (b : BufRef) (x : List Nat) (hc : Coherent s.bcache)
    (hI : InBucket s.bcache) (hb1 : b.1 < NBUCKET) (hb2 : b.2 < NB)
    (href : 0 < (s.bcache.at b).refcnt) :
    Coherent (store s b x).bcache ∧ InBucket (store s b x).bcache := by
  have hs : (store s b x).bcache.at b = { s.bcache.at b with data := x } :=
    Cache.set_same _ _ _
  have ht : TagStep s (store s b x) b :=
    tagStep_of_meta s _ b hc hI hb1 hb2 href
      (fun i j hne => Cache.set_other _ _ _ _ _ hne) (by rw [hs]) (by rw [hs])
  exact ⟨coherent_tagStep s _ b hc ht, inBucket_tagStep s _ b hI ht⟩

/-- Every reachable state is coherent and keeps referenced slots in their buckets. -/
theorem invariants_reachable (s : State) (hr : Reachable s) :
    Coherent s.bcache ∧ InBucket s.bcache := by
  induction hr with
  | boot d => exact ⟨coherent_zero, inBucket_zero⟩
  | step s s' _ hs ih => exact invariants_step s s' ih.1 ih.2 hs
  | store s pid b x _ hb1 hb2 href _ ih => exact invariants_store s b x ih.1 ih.2 hb1 hb2 href

/-- C7: in every state reachable from the zero-initialised cache by `bget`/`bread`,
`brelse`, `bpin`, `bunpin` (the latter three on buffers that are still referenced), no
bucket has two distinct slots that both have `refcnt > 0` and carry the same
`(dev, blockno)`. -/
theorem no_duplicate_live_slots (s : State) (hr : Reachable s) (i j1 j2 : Nat)
    (hi : i < NBUCKET) (hj1 : j1 < NB) (hj2 : j2 < NB) (hne : j1 ≠ j2)
    (h1 : 0 < (s.bcache i j1).refcnt) (h2 : 0 < (s.bcache i j2).refcnt) :
    ¬((s.bcache i j1).dev = (s.bcache i j2).dev ∧
      (s.bcache i j1).blockno = (s.bcache i j2).blockno) := by
  intro hm
  have hc := (invariants_reachable s hr).1
  rcases Nat.lt_or_gt_of_ne hne with hlt | hgt
  · have := (hc i j1 j2 hi hlt hj2 hm.1 hm.2).1
    omega
  · have := (hc i j2 j1 hi hgt hj1 hm.1.symm hm.2.symm).1
    omega

theorem reachable_bread (s : State) (hr : Reachable s) (ticks pid dev blockno : Nat)
    (b : BufRef) (h : (bread s ticks pid dev blockno).status = .returned b) :
    Reachable (bread s ticks pid dev blockno).state :=
  Reachable.step s _ hr (Step.bread s ticks pid dev blockno b (Or.inl h))

theorem reachable_fullBucket : Reachable fullBucket :=
  reachable_bread _
    (reachable_bread _
      (reachable_bread _
        (reachable_bread _
          (reachable_bread _ (Reachable.boot emptyDisk) 1 7 1 13 (0, 0) (by decide))
          2 7 1 26 (0, 1) (by decide))
        3 7 1 39 (0, 2) (by decide))
      4 7 1 52 (0, 3) (by decide))
    5 7 1 65 (0, 4) (by decide)

/-- C7 at a concrete state: with bucket 0 full, slots 0 and 1 are both referenced and carry
different blocks. -/
theorem no_duplicate_live_slots_witness :
    0 < (fullBucket.bcache 0 0).refcnt ∧ 0 < (fullBucket.bcache 0 1).refcnt ∧
      ¬((fullBucket.bcache 0 0).dev = (fullBucket.bcache 0 1).dev ∧
        (fullBucket.bcache 0 0).blockno = (fullBucket.bcache 0 1).blockno) :=
  ⟨by decide, by decide,
    no_duplicate_live_slots fullBucket reachable_fullBucket 0 0 1 (by decide) (by decide)
      (by decide) (by decide) (by decide) (by decide)⟩

/-! ## Reads that wait for the sleep lock -/

theorem slotKept_refl (s : State) (c : BufRef) : SlotKept s s c := ⟨rfl, rfl, id⟩

theorem slotKept_trans (s1 s2 s3 : State) (c : BufRef) (h1 : SlotKept s1 s2 c)
    (h2 : SlotKept s2 s3 c) : SlotKept s1 s3 c :=
  ⟨h2.1.trans h1.1, h2.2.1.trans h1.2.1, fun hv => h2.2.2 (h1.2.2 hv)⟩

/-- A transition that changes slot `b` only keeps every slot if it keeps `b`. -/
theorem slotKept_of_update (s s' : State) (b c : BufRef)
    (hu : ∀ i j, ¬(i = b.1 ∧ j = b.2) → s'.bcache i j = s.bcache i j)
    (hb : c = b → SlotKept s s' b) : SlotKept s s' c := by
  by_cases e : c.1 = b.1 ∧ c.2 = b.2
  · have hcb : c = b := Prod.ext e.1 e.2
    rw [hcb]
    exact hb hcb
  · have hc : s'.bcache.at c = s.bcache.at c := hu c.1 c.2 e
    unfold SlotKept
    rw [hc]
    exact ⟨rfl, rfl, id⟩

theorem acquiresleep_slotKept (s : State) (pid : Nat) (b : BufRef) (ev : List Event)
    (c : BufRef) : SlotKept s (acquiresleep s pid b ev).state c := by
  have hs : (acquiresleep s pid b ev).state.bcache.at b
      = { s.bcache.at b with
          lock := if (s.bcache.at b).lock = none then some pid else (s.bcache.at b).lock } :=
    acquiresleep_slot s pid b ev
  refine slotKept_of_update s _ b c (fun i j hne => acquiresleep_other s pid b ev i j hne) ?_
  intro _
  unfold SlotKept
  rw [hs]
  exact ⟨rfl, rfl, id⟩

theorem breadTail_slotKept (s : State) (b : BufRef) (ev : List Event) (c : BufRef) :
    SlotKept s (breadTail s b ev).state c := by
  obtain ⟨t1, _, t3, t4, _⟩ := breadTail_slot s b ev
  exact slotKept_of_update s _ b c (fun i j hne => breadTail_other s b ev i j hne)
    (fun _ => ⟨t3, t4, fun _ => t1⟩)

/-- A referenced slot keeps its tag and its validity across `bget`: a hit leaves both, and
a miss re-tags a slot whose `refcnt` was 0. -/
theorem bget_slotKept (s : State) (ticks pid dev blockno : Nat) (b c : BufRef)
    (hre : (bget s ticks pid dev blockno).status = .returned b ∨
      (bget s ticks pid dev blockno).status = .asleep b)
    (href : 0 < (s.bcache.at c).refcnt) :
    SlotKept s (bget s ticks pid dev blockno).state c := by
  obtain ⟨_, _, _, _, hu, _, hdev, hblk, _, _, _, hcase⟩ :=
    bget_state s ticks pid dev blockno b hre
  refine slotKept_of_update s _ b c hu ?_
  intro hcb
  rw [hcb] at href
  rcases hcase with ⟨htag, hval, _⟩ | ⟨_, h0, _⟩
  · exact ⟨by rw [hdev, htag.1], by rw [hblk, htag.2], fun hv => by rw [hval]; exact hv⟩
  · omega

/-- No step re-tags or invalidates a slot that is referenced. -/
theorem step_slotKept (s s' : State) (c : BufRef) (h : Step s s')
    (href : 0 < (s.bcache.at c).refcnt) : SlotKept s s' c := by
  cases h with
  | bget ticks pid dev blockno b h => exact bget_slotKept s ticks pid dev blockno b c h href
  | bread ticks pid dev blockno b h =>
    cases hg : (bget s ticks pid dev blockno).status with
    | returned d =>
      rw [bread_of_returned s ticks pid dev blockno d hg]
      exact slotKept_trans s _ _ c (bget_slotKept s ticks pid dev blockno d c (Or.inl hg) href)
        (breadTail_slotKept _ d _ c)
    | asleep d =>
      rw [bread_of_asleep s ticks pid dev blockno d hg]
      exact bget_slotKept s ticks pid dev blockno d c (Or.inr hg) href
    | panicked msg =>
      simp only [bread, hg] at h
      simp at h
    | fault =>
      simp only [bread, hg] at h
      simp at h
  | wakeup pid b hb1 hb2 _ h => exact acquiresleep_slotKept s pid b [] c
  | resume pid b hb1 hb2 _ hheld => exact breadTail_slotKept s b [] c
  | bwrite pid b hb1 hb2 h =>
    rw [(bwrite_state s pid b h).2]
    exact slotKept_refl s c
  | brelse ticks pid b hb1 hb2 _ h =>
    obtain ⟨hheld, hin⟩ := brelse_returned s ticks pid b h
    obtain ⟨_, hs, hu, _, _⟩ := brelse_held s ticks pid b hheld hin
    refine slotKept_of_update s _ b c hu (fun _ => ?_)
    unfold SlotKept
    rw [hs]
    exact ⟨rfl, rfl, id⟩
  | bpin b hb1 hb2 _ h =>
    obtain ⟨e, _⟩ := bpin_state s b h
    have hs : (bpin s b).state.bcache.at b
        = { s.bcache.at b with refcnt := ((s.bcache.at b).refcnt + 1) % 2 ^ 32 } := by
      rw [e]
      exact Cache.set_same _ _ _
    refine slotKept_of_update s _ b c
      (fun i j hne => by rw [e]; exact Cache.set_other _ _ _ _ _ hne) (fun _ => ?_)
    unfold SlotKept
    rw [hs]
    exact ⟨rfl, rfl, id⟩
  | bunpin b hb1 hb2 _ h =>
    obtain ⟨e, _⟩ := bunpin_state s b h
    have hs : (bunpin s b).state.bcache.at b
        = { s.bcache.at b with refcnt := ((s.bcache.at b).refcnt + (2 ^ 32 - 1)) % 2 ^ 32 } := by
      rw [e]
      exact Cache.set_same _ _ _
    refine slotKept_of_update s _ b c
      (fun i j hne => by rw [e]; exact Cache.set_other _ _ _ _ _ hne) (fun _ => ?_)
    unfold SlotKept
    rw [hs]
    exact ⟨rfl, rfl, id⟩

theorem move_slotKept (s s' : State) (c : BufRef) (h : Move s s')
    (href : 0 < (s.bcache.at c).refcnt) : SlotKept s s' c := by
  rcases h with hs | ⟨pid, b, x, _, _, _, _, e⟩
  · exact step_slotKept s s' c hs href
  · subst e
    have hs : (store s b x).bcache.at b = { s.bcache.at b with data := x } :=
      Cache.set_same _ _ _
    refine slotKept_of_update s _ b c (fun i j hne => Cache.set_other _ _ _ _ _ hne) (fun _ => ?_)
    unfold SlotKept
    rw [hs]
    exact ⟨rfl, rfl, id⟩

theorem quietStep_move (dev blockno : Nat) (s s' : State) (h : QuietStep dev blockno s s') :
    Move s s' := by
  rcases h with ⟨hs, _⟩ | ⟨pid, b, x, h1, h2, h3, h4, _, e⟩
  · exact Or.inl hs
  · exact Or.inr ⟨pid, b, x, h1, h2, h3, h4, e⟩

/-- While a process waits for the sleep lock of `c` and `c` stays referenced, `c` keeps its
tag and its validity; and after at least one transition `c` is referenced. -/
theorem waitSteps_slotKept (c : BufRef) (s s' : State)
    (h : Relation.ReflTransGen (WaitStep c) s s') :
    SlotKept s s' c ∧ (s' = s ∨ 0 < (s'.bcache.at c).refcnt) := by
  induction h with
  | refl => exact ⟨slotKept_refl s c, Or.inl rfl⟩
  | tail _ hq ih =>
    exact ⟨slotKept_trans _ _ _ c ih.1 (move_slotKept _ _ c hq.1 hq.2.1), Or.inr hq.2.2⟩

theorem breadResume_free (s : State) (pid : Nat) (b : BufRef)
    (hl : (s.bcache.at b).lock = none) :
    breadResume s pid b = breadTail (acquiresleep s pid b []).state b [] := by
  simp [breadResume, hl]

/-- What a suspended `bread` does once the sleep lock of `b` is free: it returns `b`, valid
and locked by the caller, after loading it from the disk if it was not valid. -/
theorem breadResume_slot (s : State) (pid : Nat) (b : BufRef)
    (hl : (s.bcache.at b).lock = none) :
    (breadResume s pid b).status = .returned b ∧
      ((breadResume s pid b).state.bcache.at b).valid = true ∧
      ((breadResume s pid b).state.bcache.at b).data
        = (if (s.bcache.at b).valid = false
            then s.disk (s.bcache.at b).dev (s.bcache.at b).blockno else (s.bcache.at b).data) ∧
      ((breadResume s pid b).state.bcache.at b).dev = (s.bcache.at b).dev ∧
      ((breadResume s pid b).state.bcache.at b).blockno = (s.bcache.at b).blockno ∧
      ((breadResume s pid b).state.bcache.at b).refcnt = (s.bcache.at b).refcnt ∧
      ((breadResume s pid b).state.bcache.at b).lock = some pid ∧
      (breadResume s pid b).events
        = (if (s.bcache.at b).valid = false then [.virtio_disk_rw b false] else []) := by
  have hs : (acquiresleep s pid b []).state.bcache.at b
      = { s.bcache.at b with
          lock := if (s.bcache.at b).lock = none then some pid else (s.bcache.at b).lock } :=
    acquiresleep_slot s pid b []
  obtain ⟨t1, t2, t3, t4, t5, _, t7⟩ := breadTail_slot (acquiresleep s pid b []).state b []
  have hev := breadTail_events (acquiresleep s pid b []).state b []
  rw [breadResume_free s pid b hl]
  rw [hs] at t2 t3 t4 t5 t7 hev
  rw [acquiresleep_disk] at t2
  refine ⟨breadTail_status _ _ _, t1, t2, t3, t4, t5, ?_, ?_⟩
  · rw [t7]
    simp [hl]
  · rw [hev]
    simp

/-- C9, amended.  When `bget(dev, blockno)` returns slot `b` at once, `bread(dev, blockno)`
returns the same `b`, tagged `(dev, blockno)`, with `valid == 1` and its sleep lock held by
the caller; its `refcnt` is `>= 1` provided the slot's `refcnt` before the call was below
`0xffffffff` (a hit increments modulo `2 ^ 32`); the events of `bread` are those of `bget`
(none of them a disk call) followed by exactly one `virtio_disk_rw(b, 0)` when the slot
`bget` returned had `valid == 0`, and by nothing when it had `valid == 1`; so the disk is
read always after a miss and never after a hit on a valid slot.  When `bget` has to wait for
the sleep lock of `b`, `bread` is suspended without a disk call; if `b` stays referenced
while the caller waits, then as soon as the lock is free `bread` returns `b`, tagged
`(dev, blockno)`, with `valid == 1`, `refcnt >= 1` and the lock held by the caller, and it
reads the disk exactly when `b` had `valid == 0` at that moment, and never when the wait
followed a hit on a slot that was already valid. -/
theorem bread_effect (s : State) (ticks pid dev blockno : Nat) (b : BufRef) :
    ((bget s ticks pid dev blockno).status = .returned b →
      (bread s ticks pid dev blockno).status = .returned b ∧
      ((bread s ticks pid dev blockno).state.bcache.at b).dev = dev ∧
      ((bread s ticks pid dev blockno).state.bcache.at b).blockno = blockno ∧
      ((bread s ticks pid dev blockno).state.bcache.at b).valid = true ∧
      ((bread s ticks pid dev blockno).state.bcache.at b).lock = some pid ∧
      ((s.bcache.at b).refcnt < 0xffffffff →
        1 ≤ ((bread s ticks pid dev blockno).state.bcache.at b).refcnt) ∧
      (((bget s ticks pid dev blockno).state.bcache.at b).valid = false →
        (bread s ticks pid dev blockno).events
          = (bget s ticks pid dev blockno).events ++ [.virtio_disk_rw b false]) ∧
      (((bget s ticks pid dev blockno).state.bcache.at b).valid = true →
        (bread s ticks pid dev blockno).events = (bget s ticks pid dev blockno).events) ∧
      (∀ c w, Event.virtio_disk_rw c w ∉ (bget s ticks pid dev blockno).events) ∧
      ((∀ j, j < NB → ¬((s.bcache b.1 j).dev = dev ∧ (s.bcache b.1 j).blockno = blockno)) →
        Event.virtio_disk_rw b false ∈ (bread s ticks pid dev blockno).events) ∧
      (((s.bcache.at b).dev = dev ∧ (s.bcache.at b).blockno = blockno) →
        (s.bcache.at b).valid = true →
        ∀ c w, Event.virtio_disk_rw c w ∉ (bread s ticks pid dev blockno).events)) ∧
    ((bget s ticks pid dev blockno).status = .asleep b →
      (bread s ticks pid dev blockno).status = .asleep b ∧
      (∀ c w, Event.virtio_disk_rw c w ∉ (bread s ticks pid dev blockno).events) ∧
      ∀ s5, Relation.ReflTransGen (WaitStep b) (bread s ticks pid dev blockno).state s5 →
        (s5.bcache.at b).lock = none →
        (breadResume s5 pid b).status = .returned b ∧
        ((breadResume s5 pid b).state.bcache.at b).dev = dev ∧
        ((breadResume s5 pid b).state.bcache.at b).blockno = blockno ∧
        ((breadResume s5 pid b).state.bcache.at b).valid = true ∧
        ((breadResume s5 pid b).state.bcache.at b).lock = some pid ∧
        1 ≤ ((breadResume s5 pid b).state.bcache.at b).refcnt ∧
        ((s5.bcache.at b).valid = false →
          (breadResume s5 pid b).events = [.virtio_disk_rw b false]) ∧
        ((s5.bcache.at b).valid = true → (breadResume s5 pid b).events = []) ∧
        (((s.bcache.at b).dev = dev ∧ (s.bcache.at b).blockno = blockno) →
          (s.bcache.at b).valid = true → (breadResume s5 pid b).events = [])) := by
  have hnd := bget_events_no_disk s ticks pid dev blockno
  refine ⟨?_, ?_⟩
  · intro hret
    obtain ⟨_, _, hb2, _, _, _, hdev, hblk, _, hlock, hfree, hcase⟩ :=
      bget_state s ticks pid dev blockno b (Or.inl hret)
    have hl : (s.bcache.at b).lock = none := hfree.1 hret
    rw [hl] at hlock
    simp only [if_true] at hlock
    obtain ⟨t1, _, t3, t4, t5, _, t7⟩ := breadTail_slot (bget s ticks pid dev blockno).state b
      (bget s ticks pid dev blockno).events
    have hev := breadTail_events (bget s ticks pid dev blockno).state b
      (bget s ticks pid dev blockno).events
    rw [← bread_of_returned s ticks pid dev blockno b hret] at t1 t3 t4 t5 t7 hev
    refine ⟨?_, by rw [t3, hdev], by rw [t4, hblk], t1, by rw [t7, hlock], ?_, ?_, ?_, hnd, ?_,
      ?_⟩
    · rw [bread_of_returned s ticks pid dev blockno b hret, breadTail_status]
    · intro hlt
      rw [t5]
      rcases hcase with ⟨_, _, hr, _⟩ | ⟨_, _, _, hr, _⟩
      · rw [hr]
        have : (s.bcache.at b).refcnt + 1 < 2 ^ 32 := by omega
        rw [Nat.mod_eq_of_lt this]
        omega
      · rw [hr]
    · intro hv
      rw [hev, if_pos hv]
    · intro hv
      rw [hev, if_neg (by simp [hv])]
    · intro hmiss
      rcases hcase with ⟨htag, _⟩ | ⟨_, _, hv, _⟩
      · exact absurd htag (hmiss b.2 hb2)
      · rw [hev, if_pos hv]
        simp
    · intro htag hv c w
      rcases hcase with ⟨_, hv2, _⟩ | ⟨hmiss, _⟩
      · rw [hev, if_neg (by rw [hv2, hv]; simp)]
        exact hnd c w
      · exact absurd htag (hmiss b.2 hb2)
  · intro hsl
    obtain ⟨_, _, hb2, _, _, _, hdev, hblk, _, hlock, hfree, hcase⟩ :=
      bget_state s ticks pid dev blockno b (Or.inr hsl)
    have hheld : (s.bcache.at b).lock ≠ none := by
      intro hl
      rw [hfree.2 hl] at hsl
      simp at hsl
    rw [if_neg hheld] at hlock
    rw [bread_of_asleep s ticks pid dev blockno b hsl]
    refine ⟨hsl, hnd, ?_⟩
    intro s5 hw hl
    obtain ⟨hk, hpos⟩ := waitSteps_slotKept b _ s5 hw
    have href : 0 < (s5.bcache.at b).refcnt := by
      rcases hpos with e | h
      · rw [e, hlock] at hl
        exact absurd hl hheld
      · exact h
    obtain ⟨r1, r2, _, r4, r5, r6, r7, r8⟩ := breadResume_slot s5 pid b hl
    refine ⟨r1, by rw [r4, hk.1, hdev], by rw [r5, hk.2.1, hblk], r2, r7, by rw [r6]; exact href,
      ?_, ?_, ?_⟩
    · intro hv
      rw [r8, if_pos hv]
    · intro hv
      rw [r8, if_neg (by simp [hv])]
    · intro htag hv
      rcases hcase with ⟨_, hv2, _⟩ | ⟨hmiss, _⟩
      · have hv5 : (s5.bcache.at b).valid = true := hk.2.2 (by rw [hv2]; exact hv)
        rw [r8, if_neg (by simp [hv5])]
      · exact absurd htag (hmiss b.2 hb2)

/-- C9, amended, at concrete inputs.  In the LRU scenario `bread(1, 78)` misses, re-tags
slot 0 of bucket 0 and reads the disk.  And when process 8 asks for block 13 while process 7
holds it, process 8 is suspended; after process 7 has released the buffer, the read of
process 8 returns it valid and locked, without a disk call. -/
theorem bread_effect_witness :
    ((bget lruScenario 40 8 1 78).status = .returned (0, 0) ∧
      (bread lruScenario 40 8 1 78).status = .returned (0, 0) ∧
      ((bread lruScenario 40 8 1 78).state.bcache.at (0, 0)).valid = true ∧
      ((bread lruScenario 40 8 1 78).state.bcache.at (0, 0)).lock = some 8 ∧
      1 ≤ ((bread lruScenario 40 8 1 78).state.bcache.at (0, 0)).refcnt ∧
      Event.virtio_disk_rw (0, 0) false ∈ (bread lruScenario 40 8 1 78).events) ∧
    ((bget (bread bootState 1 7 1 13).state 2 8 1 13).status = .asleep (0, 0) ∧
      Relation.ReflTransGen (WaitStep (0, 0)) busyState yieldedState ∧
      (yieldedState.bcache.at (0, 0)).lock = none ∧
      (breadResume yieldedState 8 (0, 0)).status = .returned (0, 0) ∧
      ((breadResume yieldedState 8 (0, 0)).state.bcache.at (0, 0)).blockno = 13 ∧
      ((breadResume yieldedState 8 (0, 0)).state.bcache.at (0, 0)).valid = true ∧
      ((breadResume yieldedState 8 (0, 0)).state.bcache.at (0, 0)).lock = some 8 ∧
      1 ≤ ((breadResume yieldedState 8 (0, 0)).state.bcache.at (0, 0)).refcnt ∧
      (breadResume yieldedState 8 (0, 0)).events = []) :=
  have h := (bread_effect lruScenario 40 8 1 78 (0, 0)).1 (by decide)
  have hw : Relation.ReflTransGen (WaitStep (0, 0)) busyState yieldedState :=
    Relation.ReflTransGen.single
      ⟨Or.inl (Step.brelse busyState 3 7 (0, 0) (by decide) (by decide) (by decide) (by decide)),
        by decide, by decide⟩
  have g := ((bread_effect (bread bootState 1 7 1 13).state 2 8 1 13 (0, 0)).2 (by decide)).2.2
    yieldedState hw (by decide)
  ⟨⟨by decide, h.1, h.2.2.2.1, h.2.2.2.2.1, h.2.2.2.2.2.1 (by decide),
      h.2.2.2.2.2.2.2.2.2.1 (by decide)⟩,
    ⟨by decide, hw, by decide, g.1, g.2.2.1, g.2.2.2.1, g.2.2.2.2.1, g.2.2.2.2.2.1,
      g.2.2.2.2.2.2.2.2 (by decide) (by decide)⟩⟩

/-! ## Write-back, eviction and re-read -/

theorem invariants_quietStep (dev blockno : Nat) (s s' : State)
    (hc : Coherent s.bcache) (hI : InBucket s.bcache) (hq : QuietStep dev blockno s s') :
    Coherent s'.bcache ∧ InBucket s'.bcache := by
  rcases hq with ⟨hs, _⟩ | ⟨pid, b, x, hb1, hb2, href, _, _, e⟩
  · exact invariants_step s s' hc hI hs
  · rw [e]
    exact invariants_store s b x hc hI hb1 hb2 href

theorem fresh_quietStep (dev blockno : Nat) (x : List Nat) (s s' : State)
    (hc : Coherent s.bcache) (hI : InBucket s.bcache) (hq : QuietStep dev blockno s s')
    (hF : Fresh dev blockno x s) : Fresh dev blockno x s' := by
  rcases hq with ⟨hs, hdisk⟩ | ⟨pid, b, y, _, _, _, _, htag, e⟩
  · rcases step_cases s s' hc hI hs with ⟨b, ht, hd⟩ | e
    · exact fresh_dataStep dev blockno x s s' b hF ht.2.2.1 ht.2.1 hd
    · refine ⟨by rw [hdisk]; exact hF.1, ?_⟩
      rw [e]
      exact hF.2
  · subst e
    refine ⟨hF.1, ?_⟩
    intro j hj h1 h2 h3
    by_cases e : (hash (toInt blockno)).toNat = b.1 ∧ j = b.2
    · obtain ⟨ei, ej⟩ := e
      subst ej
      rw [ei] at h1 h2
      have hs : (store s b y).bcache b.1 b.2 = { s.bcache.at b with data := y } :=
        Cache.set_same _ _ _
      rw [hs] at h1 h2
      exact absurd ⟨h1, h2⟩ htag
    · have hu : (store s b y).bcache (hash (toInt blockno)).toNat j
          = s.bcache (hash (toInt blockno)).toNat j := Cache.set_other _ _ _ _ _ e
      rw [hu] at h1 h2 h3 ⊢
      exact hF.2 j hj h1 h2 h3

theorem fresh_quietSteps (dev blockno : Nat) (x : List Nat) (s s' : State)
    (hp : Relation.ReflTransGen (QuietStep dev blockno) s s')
    (hinv : Coherent s.bcache ∧ InBucket s.bcache ∧ Fresh dev blockno x s) :
    Coherent s'.bcache ∧ InBucket s'.bcache ∧ Fresh dev blockno x s' := by
  induction hp with
  | refl => exact hinv
  | tail _ hq ih =>
    obtain ⟨hc, hI, hF⟩ := ih
    obtain ⟨hc', hI'⟩ := invariants_quietStep dev blockno _ _ hc hI hq
    exact ⟨hc', hI', fresh_quietStep dev blockno x _ _ hc hI hq hF⟩

/-- When the disk and every valid cached copy of block `(dev, blockno)` hold `x`, a
`bread(dev, blockno)` that returns gives a buffer whose payload is `x`. -/
theorem bread_fresh (dev blockno : Nat) (x : List Nat) (s : State) (ticks pid : Nat)
    (b : BufRef) (hF : Fresh dev blockno x s)
    (h : (bread s ticks pid dev blockno).status = .returned b) :
    ((bread s ticks pid dev blockno).state.bcache.at b).data = x := by
  cases hg : (bget s ticks pid dev blockno).status with
  | returned c =>
    have hb : b = c := by
      rw [bread_of_returned s ticks pid dev blockno c hg, breadTail_status] at h
      simp only [Status.returned.injEq] at h
      exact h.symm
    subst hb
    obtain ⟨hh, _, hb2, _, _, hdisk, hdev, hblk, hdat, _, _, hcase⟩ :=
      bget_state s ticks pid dev blockno b (Or.inl hg)
    obtain ⟨_, t2, _⟩ := breadTail_slot (bget s ticks pid dev blockno).state b
      (bget s ticks pid dev blockno).events
    rw [bread_of_returned s ticks pid dev blockno b hg, t2]
    by_cases hv : ((bget s ticks pid dev blockno).state.bcache.at b).valid = false
    · rw [if_pos hv, hdisk, hdev, hblk]
      exact hF.1
    · rw [if_neg hv, hdat]
      rcases hcase with ⟨htag, hval, _⟩ | ⟨_, _, hval, _⟩
      · have hbk : (hash (toInt blockno)).toNat = b.1 := by omega
        have := hF.2 b.2 hb2
        rw [hbk] at this
        have hv2 : (s.bcache.at b).valid = true := by rw [← hval]; simpa using hv
        exact this htag.1 htag.2 hv2
      · exact absurd hval hv
  | asleep c =>
    rw [bread_of_asleep s ticks pid dev blockno c hg, hg] at h
    simp at h
  | panicked msg =>
    simp only [bread, hg] at h
    simp at h
  | fault =>
    simp only [bread, hg] at h
    simp at h

/-- After the holder of a referenced buffer `b` has written it back and released it, the
disk and every valid cached copy of its block hold the payload that was written. -/
theorem fresh_after_bwrite_brelse (s0 : State) (hc : Coherent s0.bcache)
    (hI : InBucket s0.bcache) (p t1 : Nat) (b : BufRef) (hb1 : b.1 < NBUCKET) (hb2 : b.2 < NB)
    (href : 0 < (s0.bcache.at b).refcnt)
    (hw : (bwrite s0 p b).status = .returned ())
    (hrel : (brelse (bwrite s0 p b).state t1 p b).status = .returned ()) :
    Coherent (brelse (bwrite s0 p b).state t1 p b).state.bcache ∧
      InBucket (brelse (bwrite s0 p b).state t1 p b).state.bcache ∧
      Fresh (s0.bcache.at b).dev (s0.bcache.at b).blockno (s0.bcache.at b).data
        (brelse (bwrite s0 p b).state t1 p b).state := by
  obtain ⟨_, hws⟩ := bwrite_state s0 p b hw
  have hwc : (bwrite s0 p b).state.bcache = s0.bcache := by rw [hws]; rfl
  have hwd : (bwrite s0 p b).state.disk (s0.bcache.at b).dev (s0.bcache.at b).blockno
      = (s0.bcache.at b).data := by
    rw [hws]
    simp [diskWrite]
  have hc1 : Coherent (bwrite s0 p b).state.bcache := by rw [hwc]; exact hc
  have hI1 : InBucket (bwrite s0 p b).state.bcache := by rw [hwc]; exact hI
  have href1 : 0 < ((bwrite s0 p b).state.bcache.at b).refcnt := by rw [hwc]; exact href
  obtain ⟨hc2, hI2⟩ := invariants_step _ _ hc1 hI1
    (Step.brelse (bwrite s0 p b).state t1 p b hb1 hb2 href1 hrel)
  refine ⟨hc2, hI2, ?_⟩
  obtain ⟨hheld, hin⟩ := brelse_returned _ t1 p b hrel
  obtain ⟨_, hs, hu, hdisk, _⟩ := brelse_held _ t1 p b hheld hin
  have e4 : ((brelse (bwrite s0 p b).state t1 p b).state.bcache.at b).data
      = ((bwrite s0 p b).state.bcache.at b).data := by rw [hs]
  rw [hwc] at e4 hu
  have hbk : (hash (toInt (s0.bcache.at b).blockno)).toNat = b.1 := by
    have := hI b.1 b.2 hb1 hb2 href
    simp only [Cache.at]
    omega
  refine ⟨by rw [hdisk]; exact hwd, ?_⟩
  intro j hj h1 h2 h3
  rw [hbk] at h1 h2 h3 ⊢
  by_cases e : j = b.2
  · subst e
    exact e4
  · have hne : ¬(b.1 = b.1 ∧ j = b.2) := fun h => e h.2
    rw [hu _ _ hne] at h1 h2 h3 ⊢
    rcases Nat.lt_or_gt_of_ne e with hlt | hgt
    · have := (hc b.1 j b.2 hb1 hlt hb2 h1 h2).1
      simp only [Cache.at] at href
      omega
    · have := (hc b.1 b.2 j hb1 hgt hj h1.symm h2.symm).2
      rw [this] at h3
      exact absurd h3 (by simp)

theorem bread_asleep (s : State) (ticks pid dev blockno : Nat) (c : BufRef)
    (h : (bread s ticks pid dev blockno).status = .asleep c) :
    (bget s ticks pid dev blockno).status = .asleep c := by
  cases hg : (bget s ticks pid dev blockno).status with
  | returned d =>
    rw [bread_of_returned s ticks pid dev blockno d hg, breadTail_status] at h
    simp at h
  | asleep d =>
    rw [bread_of_asleep s ticks pid dev blockno d hg, hg] at h
    exact h
  | panicked msg =>
    simp only [bread, hg] at h
    simp at h
  | fault =>
    simp only [bread, hg] at h
    simp at h

/-- When the disk and every valid cached copy of block `(dev, blockno)` hold `x` and slot
`c` of the block's bucket carries that block, a suspended `bread` that resumes on `c`
returns a buffer whose payload is `x`. -/
theorem breadResume_fresh (dev blockno : Nat) (x : List Nat) (s : State) (pid : Nat)
    (c : BufRef) (hF : Fresh dev blockno x s) (hh : hash (toInt blockno) = (c.1 : Int))
    (hc2 : c.2 < NB) (hdev : (s.bcache.at c).dev = dev)
    (hblk : (s.bcache.at c).blockno = blockno) (hl : (s.bcache.at c).lock = none) :
    ((breadResume s pid c).state.bcache.at c).data = x := by
  obtain ⟨_, _, r3, _⟩ := breadResume_slot s pid c hl
  rw [r3]
  by_cases hv : (s.bcache.at c).valid = false
  · rw [if_pos hv, hdev, hblk]
    exact hF.1
  · rw [if_neg hv]
    have hbk : (hash (toInt blockno)).toNat = c.1 := by omega
    have := hF.2 c.2 hc2
    rw [hbk] at this
    exact this hdev hblk (by simpa using hv)

/-- C8, counterexample: process 7 holds block 13 of device 1 with payload `[42]`, writes it
back and releases it; the request of process 8 for block 26 re-tags that slot; process 9
reads block 13 again into slot 1 and keeps it locked, so the `bread(1, 13)` of process 10 is
suspended.  Process 9 releases the buffer, a `bunpin` that matches no `bpin` drops its
`refcnt` to 0, and the request of process 11 for block 39 re-tags slot 1; process 11 releases
it.  No step wrote block 13, whose disk contents are still `[42]`; but the `bread(1, 13)` of
process 10 now returns slot 1 carrying block 39 with payload `[]`. -/
theorem contended_bread_after_stray_bunpin :
    (roundTripStart.bcache.at (0, 0)).dev = 1 ∧
      (roundTripStart.bcache.at (0, 0)).blockno = 13 ∧
      (roundTripStart.bcache.at (0, 0)).data = [42] ∧
      (bwrite roundTripStart 7 (0, 0)).status = .returned () ∧
      (brelse (bwrite roundTripStart 7 (0, 0)).state 0 7 (0, 0)).status = .returned () ∧
      (bget roundTripReleased 1 8 1 26).status = .returned (0, 0) ∧
      Relation.ReflTransGen (QuietStep 1 13) roundTripEvicted rereadState ∧
      (bread rereadState 3 10 1 13).status = .asleep (0, 1) ∧
      Relation.ReflTransGen (QuietStep 1 13) contendedState strayState ∧
      strayState.disk 1 13 = [42] ∧
      (strayState.bcache.at (0, 1)).lock = none ∧
      (breadResume strayState 10 (0, 1)).status = .returned (0, 1) ∧
      ((breadResume strayState 10 (0, 1)).state.bcache.at (0, 1)).blockno = 39 ∧
      ((breadResume strayState 10 (0, 1)).state.bcache.at (0, 1)).data = [] ∧
      ((breadResume strayState 10 (0, 1)).state.bcache.at (0, 1)).data ≠ [42] :=
  have q0 : QuietStep 1 13 roundTripEvicted rereadState :=
    Or.inl ⟨Step.bread roundTripEvicted 2 9 1 13 (0, 1) (Or.inl (by decide)), by decide⟩
  have q1 : QuietStep 1 13 contendedState strayReleased :=
    Or.inl ⟨Step.brelse contendedState 0 9 (0, 1) (by decide) (by decide) (by decide)
      (by decide), by decide⟩
  have q2 : QuietStep 1 13 strayReleased strayUnpinned :=
    Or.inl ⟨Step.bunpin strayReleased (0, 1) (by decide) (by decide) (by decide) (by decide),
      by decide⟩
  have q3 : QuietStep 1 13 strayUnpinned strayRetagged :=
    Or.inl ⟨Step.bget strayUnpinned 5 11 1 39 (0, 1) (Or.inl (by decide)), by decide⟩
  have q4 : QuietStep 1 13 strayRetagged strayState :=
    Or.inl ⟨Step.brelse strayRetagged 6 11 (0, 1) (by decide) (by decide) (by decide)
      (by decide), by decide⟩
  ⟨by decide, by decide, by decide, by decide, by decide, by decide,
    Relation.ReflTransGen.single q0, by decide,
    (((Relation.ReflTransGen.single q1).tail q2).tail q3).tail q4,
    by decide, by decide, by decide, by decide, by decide, by decide⟩

/-- C8, amended: let `b` be a referenced buffer of a reachable state, carrying block
`(dev, blockno)`.  Its holder calls `bwrite(b)` and then `brelse(b)`.  Then any number of
steps of the cache follow, a `bget` for a different block misses and re-tags the slot of
`b`, and any number of steps follow again; none of these steps changes the disk contents
of block `(dev, blockno)`, and in between holders may overwrite the payload of buffers of
other blocks.  Then a `bread(dev, blockno)` that returns at once gives a buffer whose payload
is the payload `b` had at the `bwrite`; and a `bread(dev, blockno)` that has to wait for the
sleep lock of a buffer `c` returns `c`, carrying `(dev, blockno)` and that same payload, as
soon as the lock is free, provided `c` stays referenced and block `(dev, blockno)` is not
written while it waits. -/
theorem bwrite_evict_bread_roundtrip (s0 : State) (hr : Reachable s0) (p t1 : Nat)
    (b : BufRef) (hb1 : b.1 < NBUCKET) (hb2 : b.2 < NB)
    (href : 0 < (s0.bcache.at b).refcnt)
    (hw : (bwrite s0 p b).status = .returned ())
    (hrel : (brelse (bwrite s0 p b).state t1 p b).status = .returned ())
    (s2 : State)
    (h12 : Relation.ReflTransGen (QuietStep (s0.bcache.at b).dev (s0.bcache.at b).blockno)
      (brelse (bwrite s0 p b).state t1 p b).state s2)
    (t2 q dev2 blockno2 : Nat)
    (_hother : ¬(dev2 = (s0.bcache.at b).dev ∧ blockno2 = (s0.bcache.at b).blockno))
    (_hmiss : ∀ j, j < NB →
      ¬((s2.bcache b.1 j).dev = dev2 ∧ (s2.bcache b.1 j).blockno = blockno2))
    (hevict : (bget s2 t2 q dev2 blockno2).status = .returned b ∨
      (bget s2 t2 q dev2 blockno2).status = .asleep b)
    (s4 : State)
    (h34 : Relation.ReflTransGen (QuietStep (s0.bcache.at b).dev (s0.bcache.at b).blockno)
      (bget s2 t2 q dev2 blockno2).state s4)
    (t3 r : Nat) (c : BufRef) :
    ((bread s4 t3 r (s0.bcache.at b).dev (s0.bcache.at b).blockno).status = .returned c →
      ((bread s4 t3 r (s0.bcache.at b).dev (s0.bcache.at b).blockno).state.bcache.at c).data
        = (s0.bcache.at b).data) ∧
    ((bread s4 t3 r (s0.bcache.at b).dev (s0.bcache.at b).blockno).status = .asleep c →
      ∀ s5,
        Relation.ReflTransGen
          (QuietWaitStep (s0.bcache.at b).dev (s0.bcache.at b).blockno c)
          (bread s4 t3 r (s0.bcache.at b).dev (s0.bcache.at b).blockno).state s5 →
        (s5.bcache.at c).lock = none →
        (breadResume s5 r c).status = .returned c ∧
          ((breadResume s5 r c).state.bcache.at c).dev = (s0.bcache.at b).dev ∧
          ((breadResume s5 r c).state.bcache.at c).blockno = (s0.bcache.at b).blockno ∧
          ((breadResume s5 r c).state.bcache.at c).data = (s0.bcache.at b).data) := by
  obtain ⟨hc, hI⟩ := invariants_reachable s0 hr
  have h1 := fresh_after_bwrite_brelse s0 hc hI p t1 b hb1 hb2 href hw hrel
  obtain ⟨hc2, hI2, hF2⟩ := fresh_quietSteps _ _ _ _ _ h12 h1
  have hq : QuietStep (s0.bcache.at b).dev (s0.bcache.at b).blockno s2
      (bget s2 t2 q dev2 blockno2).state := by
    refine Or.inl ⟨Step.bget s2 t2 q dev2 blockno2 b hevict, ?_⟩
    rw [(bget_state s2 t2 q dev2 blockno2 b hevict).2.2.2.2.2.1]
  obtain ⟨hc3, hI3⟩ := invariants_quietStep _ _ _ _ hc2 hI2 hq
  have hF3 := fresh_quietStep _ _ _ _ _ hc2 hI2 hq hF2
  obtain ⟨hc4, hI4, hF4⟩ := fresh_quietSteps _ _ _ _ _ h34 ⟨hc3, hI3, hF3⟩
  refine ⟨fun hread => bread_fresh _ _ _ s4 t3 r c hF4 hread, ?_⟩
  intro hsl s5 hwait hl
  have hg := bread_asleep s4 t3 r _ _ c hsl
  obtain ⟨hh, _, hcb2, _, _, hdisk, hdev, hblk, _⟩ := bget_state s4 t3 r _ _ c (Or.inr hg)
  rw [bread_of_asleep s4 t3 r _ _ c hg] at hwait
  have hq5 : QuietStep (s0.bcache.at b).dev (s0.bcache.at b).blockno s4
      (bget s4 t3 r (s0.bcache.at b).dev (s0.bcache.at b).blockno).state :=
    Or.inl ⟨Step.bget s4 t3 r _ _ c (Or.inr hg), by rw [hdisk]⟩
  obtain ⟨hc5, hI5⟩ := invariants_quietStep _ _ _ _ hc4 hI4 hq5
  have hF5 := fresh_quietStep _ _ _ _ _ hc4 hI4 hq5 hF4
  obtain ⟨_, _, hF6⟩ := fresh_quietSteps _ _ _ _ _
    (Relation.ReflTransGen.mono (fun _ _ h => h.1) hwait) ⟨hc5, hI5, hF5⟩
  obtain ⟨hk, _⟩ := waitSteps_slotKept c _ s5
    (Relation.ReflTransGen.mono (fun _ _ h => ⟨quietStep_move _ _ _ _ h.1, h.2⟩) hwait)
  have hdev5 : (s5.bcache.at c).dev = (s0.bcache.at b).dev := by rw [hk.1, hdev]
  have hblk5 : (s5.bcache.at c).blockno = (s0.bcache.at b).blockno := by rw [hk.2.1, hblk]
  obtain ⟨r1, _, _, r4, r5, _⟩ := breadResume_slot s5 r c hl
  exact ⟨r1, by rw [r4, hdev5], by rw [r5, hblk5],
    breadResume_fresh _ _ _ s5 r c hF6 hh hcb2 hdev5 hblk5 hl⟩

theorem reachable_roundTripStart : Reachable roundTripStart :=
  Reachable.store _ 7 (0, 0) [42]
    (reachable_bread bootState (Reachable.boot emptyDisk) 0 7 1 13 (0, 0) (by decide))
    (by decide) (by decide) (by decide) (by decide)

/-- C8, amended, at two concrete runs.  Process 7 holds block 13 of device 1 with payload
`[42]`, writes it back and releases it at tick 0; the request of process 8 for block 26
re-tags that slot.  First run: process 9 reads block 13 again, into slot 1, and finds
`[42]`.  Second run: while process 9 keeps that buffer locked, process 10 asks for block 13
and is suspended; after process 9 has released the buffer, the read of process 10 returns it
with `[42]`. -/
theorem bwrite_evict_bread_roundtrip_witness :
    ((roundTripStart.bcache.at (0, 0)).dev = 1 ∧
      (roundTripStart.bcache.at (0, 0)).blockno = 13 ∧
      (roundTripStart.bcache.at (0, 0)).data = [42] ∧
      (bget roundTripReleased 1 8 1 26).status = .returned (0, 0) ∧
      (bread roundTripEvicted 2 9 1 13).status = .returned (0, 1) ∧
      ((bread roundTripEvicted 2 9 (roundTripStart.bcache.at (0, 0)).dev
          (roundTripStart.bcache.at (0, 0)).blockno).state.bcache.at (0, 1)).data
        = (roundTripStart.bcache.at (0, 0)).data) ∧
    ((bread rereadState 3 10 1 13).status = .asleep (0, 1) ∧
      Relation.ReflTransGen (QuietWaitStep 1 13 (0, 1)) contendedState handedState ∧
      (handedState.bcache.at (0, 1)).lock = none ∧
      (breadResume handedState 10 (0, 1)).status = .returned (0, 1) ∧
      ((breadResume handedState 10 (0, 1)).state.bcache.at (0, 1)).blockno = 13 ∧
      ((breadResume handedState 10 (0, 1)).state.bcache.at (0, 1)).data = [42]) :=
  have q0 : QuietStep 1 13 roundTripEvicted rereadState :=
    Or.inl ⟨Step.bread roundTripEvicted 2 9 1 13 (0, 1) (Or.inl (by decide)), by decide⟩
  have hwait : Relation.ReflTransGen (QuietWaitStep 1 13 (0, 1)) contendedState handedState :=
    Relation.ReflTransGen.single
      ⟨Or.inl ⟨Step.brelse contendedState 4 9 (0, 1) (by decide) (by decide) (by decide)
        (by decide), by decide⟩, by decide, by decide⟩
  have g := (bwrite_evict_bread_roundtrip roundTripStart reachable_roundTripStart 7 0 (0, 0)
      (by decide) (by decide) (by decide) (by decide) (by decide)
      roundTripReleased Relation.ReflTransGen.refl
      1 8 1 26 (by decide) (by decide) (Or.inl (by decide))
      rereadState (Relation.ReflTransGen.single q0)
      3 10 (0, 1)).2 (by decide) handedState hwait (by decide)
  ⟨⟨by decide, by decide, by decide, by decide, by decide,
      (bwrite_evict_bread_roundtrip roundTripStart reachable_roundTripStart 7 0 (0, 0)
        (by decide) (by decide) (by decide) (by decide) (by decide)
        roundTripReleased Relation.ReflTransGen.refl
        1 8 1 26 (by decide) (by decide) (Or.inl (by decide))
        roundTripEvicted Relation.ReflTransGen.refl
        2 9 (0, 1)).1 (by decide)⟩,
    ⟨by decide, hwait, by decide, g.1, g.2.2.1, g.2.2.2⟩⟩

/-! ## `bpin` and `bunpin` -/

theorem wellTyped_zero : WellTyped zeroCache := by
  intro i j
  show inRange (hash (toInt zeroBuf.blockno)) = true ∧ zeroBuf.refcnt < 2 ^ 32
  exact ⟨by decide, by decide⟩

theorem wellTyped_update (s s' : State) (b : BufRef) (hw : WellTyped s.bcache)
    (hu : ∀ i j, ¬(i = b.1 ∧ j = b.2) → s'.bcache i j = s.bcache i j)
    (hb : inRange (hash (toInt (s'.bcache.at b).blockno)) = true ∧
      (s'.bcache.at b).refcnt < 2 ^ 32) : WellTyped s'.bcache := by
  intro i j
  by_cases e : i = b.1 ∧ j = b.2
  · obtain ⟨ei, ej⟩ := e
    subst ei ej
    exact hb
  · rw [hu i j e]
    exact hw i j

theorem wellTyped_bget (s : State) (ticks pid dev blockno : Nat) (b : BufRef)
    (hw : WellTyped s.bcache)
    (hre : (bget s ticks pid dev blockno).status = .returned b ∨
      (bget s ticks pid dev blockno).status = .asleep b) :
    WellTyped (bget s ticks pid dev blockno).state.bcache := by
  obtain ⟨hh, _, _, _, hu, _, _, hblk, _, _, _, hcase⟩ := bget_state s ticks pid dev blockno b hre
  refine wellTyped_update s _ b hw hu ⟨?_, ?_⟩
  · rw [hblk]
    exact (hash_toNat _ b.1 hh).1
  · rcases hcase with ⟨_, _, hr, _⟩ | ⟨_, _, _, hr, _⟩
    · rw [hr]
      exact Nat.mod_lt _ (by decide)
    · rw [hr]
      decide

theorem wellTyped_breadTail (s : State) (b : BufRef) (ev : List Event)
    (hw : WellTyped s.bcache) : WellTyped (breadTail s b ev).state.bcache := by
  obtain ⟨_, _, _, t4, t5, _, _⟩ := breadTail_slot s b ev
  refine wellTyped_update s _ b hw (fun i j hne => breadTail_other s b ev i j hne) ⟨?_, ?_⟩
  · rw [t4]
    exact (hw b.1 b.2).1
  · rw [t5]
    exact (hw b.1 b.2).2

theorem wellTyped_step (s s' : State) (hw : WellTyped s.bcache) (h : Step s s') :
    WellTyped s'.bcache := by
  cases h with
  | bget ticks pid dev blockno b h => exact wellTyped_bget s ticks pid dev blockno b hw h
  | bread ticks pid dev blockno b h =>
    cases hg : (bget s ticks pid dev blockno).status with
    | returned c =>
      rw [bread_of_returned s ticks pid dev blockno c hg]
      exact wellTyped_breadTail _ c _ (wellTyped_bget s ticks pid dev blockno c hw (Or.inl hg))
    | asleep c =>
      rw [bread_of_asleep s ticks pid dev blockno c hg]
      exact wellTyped_bget s ticks pid dev blockno c hw (Or.inr hg)
    | panicked msg =>
      simp only [bread, hg] at h
      simp at h
    | fault =>
      simp only [bread, hg] at h
      simp at h
  | wakeup pid b hb1 hb2 href h =>
    have hs : (acquiresleep s pid b []).state.bcache.at b
        = { s.bcache.at b with
            lock := if (s.bcache.at b).lock = none then some pid else (s.bcache.at b).lock } :=
      acquiresleep_slot s pid b []
    refine wellTyped_update s _ b hw (fun i j hne => acquiresleep_other s pid b [] i j hne)
      ⟨?_, ?_⟩
    · rw [hs]; exact (hw b.1 b.2).1
    · rw [hs]; exact (hw b.1 b.2).2
  | resume pid b hb1 hb2 href hheld => exact wellTyped_breadTail s b [] hw
  | bwrite pid b hb1 hb2 h =>
    rw [(bwrite_state s pid b h).2]
    exact hw
  | brelse ticks pid b hb1 hb2 href h =>
    obtain ⟨hheld, hin⟩ := brelse_returned s ticks pid b h
    obtain ⟨_, hs, hu, _, _⟩ := brelse_held s ticks pid b hheld hin
    refine wellTyped_update s _ b hw hu ⟨?_, ?_⟩
    · rw [hs]; exact (hw b.1 b.2).1
    · rw [hs]; exact Nat.mod_lt _ (by decide)
  | bpin b hb1 hb2 href h =>
    obtain ⟨e, _⟩ := bpin_state s b h
    have hs : (bpin s b).state.bcache.at b
        = { s.bcache.at b with refcnt := ((s.bcache.at b).refcnt + 1) % 2 ^ 32 } := by
      rw [e]
      exact Cache.set_same _ _ _
    refine wellTyped_update s _ b hw
      (fun i j hne => by rw [e]; exact Cache.set_other _ _ _ _ _ hne) ⟨?_, ?_⟩
    · rw [hs]; exact (hw b.1 b.2).1
    · rw [hs]; exact Nat.mod_lt _ (by decide)
  | bunpin b hb1 hb2 href h =>
    obtain ⟨e, _⟩ := bunpin_state s b h
    have hs : (bunpin s b).state.bcache.at b
        = { s.bcache.at b with refcnt := ((s.bcache.at b).refcnt + (2 ^ 32 - 1)) % 2 ^ 32 } := by
      rw [e]
      exact Cache.set_same _ _ _
    refine wellTyped_update s _ b hw
      (fun i j hne => by rw [e]; exact Cache.set_other _ _ _ _ _ hne) ⟨?_, ?_⟩
    · rw [hs]; exact (hw b.1 b.2).1
    · rw [hs]; exact Nat.mod_lt _ (by decide)

/-- In every reachable state every slot carries a block number that hashes to a bucket
index, and a `refcnt` below `2 ^ 32`. -/
theorem wellTyped_reachable (s : State) (hr : Reachable s) : WellTyped s.bcache := by
  induction hr with
  | boot d => exact wellTyped_zero
  | step s s' _ hs ih => exact wellTyped_step s s' ih hs
  | store s pid b x _ hb1 hb2 href _ ih =>
    have hs : (store s b x).bcache.at b = { s.bcache.at b with data := x } :=
      Cache.set_same _ _ _
    refine wellTyped_update s _ b ih (fun i j hne => Cache.set_other _ _ _ _ _ hne) ⟨?_, ?_⟩
    · rw [hs]; exact (ih b.1 b.2).1
    · rw [hs]; exact (ih b.1 b.2).2

theorem bpin_returns (s : State) (b : BufRef)
    (hin : inRange (hash (toInt (s.bcache.at b).blockno)) = true) :
    (bpin s b).status = .returned () ∧
      (bpin s b).events = [.acquire (hash (toInt (s.bcache.at b).blockno)),
        .release (hash (toInt (s.bcache.at b).blockno))] := by
  simp [bpin, hin]

theorem bunpin_returns (s : State) (b : BufRef)
    (hin : inRange (hash (toInt (s.bcache.at b).blockno)) = true) :
    (bunpin s b).status = .returned () ∧
      (bunpin s b).events = [.acquire (hash (toInt (s.bcache.at b).blockno)),
        .release (hash (toInt (s.bcache.at b).blockno))] := by
  simp [bunpin, hin]

/-- The state after `bpin` and after `bunpin` on a slot whose block number hashes to a
bucket index and whose `refcnt` fits 32 bits; `bunpin` undoes `bpin`. -/
theorem bpin_bunpin_states (s : State) (b : BufRef)
    (hin : inRange (hash (toInt (s.bcache.at b).blockno)) = true)
    (hlt : (s.bcache.at b).refcnt < 2 ^ 32) :
    ((bpin s b).state.bcache.at b
        = { s.bcache.at b with refcnt := ((s.bcache.at b).refcnt + 1) % 2 ^ 32 } ∧
      (∀ i j, ¬(i = b.1 ∧ j = b.2) → (bpin s b).state.bcache i j = s.bcache i j) ∧
      (bpin s b).state.disk = s.disk) ∧
    ((bunpin s b).state.bcache.at b
        = { s.bcache.at b with refcnt := ((s.bcache.at b).refcnt + (2 ^ 32 - 1)) % 2 ^ 32 } ∧
      (∀ i j, ¬(i = b.1 ∧ j = b.2) → (bunpin s b).state.bcache i j = s.bcache i j) ∧
      (bunpin s b).state.disk = s.disk) ∧
    (bunpin (bpin s b).state b).status = .returned () ∧
    (bunpin (bpin s b).state b).state = s := by
  obtain ⟨e1, d1⟩ := bpin_state s b (bpin_returns s b hin).1
  obtain ⟨e2, d2⟩ := bunpin_state s b (bunpin_returns s b hin).1
  have hs1 : (bpin s b).state.bcache.at b
      = { s.bcache.at b with refcnt := ((s.bcache.at b).refcnt + 1) % 2 ^ 32 } := by
    rw [e1]
    exact Cache.set_same _ _ _
  have hin1 : inRange (hash (toInt ((bpin s b).state.bcache.at b).blockno)) = true := by
    rw [hs1]
    exact hin
  obtain ⟨e3, d3⟩ := bunpin_state (bpin s b).state b (bunpin_returns _ b hin1).1
  refine ⟨⟨hs1, ?_, d1⟩, ⟨?_, ?_, d2⟩, (bunpin_returns _ b hin1).1, ?_⟩
  · intro i j hne
    rw [e1]
    exact Cache.set_other _ _ _ _ _ hne
  · rw [e2]
    exact Cache.set_same _ _ _
  · intro i j hne
    rw [e2]
    exact Cache.set_other _ _ _ _ _ hne
  · have hc : (bunpin (bpin s b).state b).state.bcache = s.bcache := by
      funext i j
      rw [e3]
      by_cases e : i = b.1 ∧ j = b.2
      · obtain ⟨ei, ej⟩ := e
        subst ei ej
        rw [Cache.set_same, hs1]
        have harith : (((s.bcache.at b).refcnt + 1) % 2 ^ 32 + (2 ^ 32 - 1)) % 2 ^ 32
            = (s.bcache.at b).refcnt := by omega
        simp only [harith]
        rfl
      · rw [Cache.set_other _ _ _ _ _ e, e1, Cache.set_other _ _ _ _ _ e]
    have hd : (bunpin (bpin s b).state b).state.disk = s.disk := by rw [d3, d1]
    cases hst : (bunpin (bpin s b).state b).state with
    | mk c d =>
      rw [hst] at hc hd
      simp only at hc hd
      subst hc hd
      rfl

/-- C11, counterexample: right after boot slot 2 of bucket 3 has `refcnt == 0`, and
`bunpin` on it returns with `refcnt == 0xffffffff`, which is not a decrease by 1; and in
`wrappedScenario` slot 0 of bucket 0 has `refcnt == 0xffffffff`, and `bpin` on it returns
with `refcnt == 0`, which is not an increase by 1. -/
theorem bunpin_bpin_wrap_refcnt :
    (bootState.bcache.at (3, 2)).refcnt = 0 ∧
      (bunpin bootState (3, 2)).status = .returned () ∧
      ((bunpin bootState (3, 2)).state.bcache.at (3, 2)).refcnt = 0xffffffff ∧
      ¬(((bunpin bootState (3, 2)).state.bcache.at (3, 2)).refcnt + 1
          = (bootState.bcache.at (3, 2)).refcnt) ∧
      (wrappedScenario.bcache.at (0, 0)).refcnt = 0xffffffff ∧
      (bpin wrappedScenario (0, 0)).status = .returned () ∧
      ((bpin wrappedScenario (0, 0)).state.bcache.at (0, 0)).refcnt = 0 ∧
      ¬(((bpin wrappedScenario (0, 0)).state.bcache.at (0, 0)).refcnt
          = (wrappedScenario.bcache.at (0, 0)).refcnt + 1) := by
  decide

/-- C11, amended: for every state and every buffer `b` whose block number hashes to a bucket
index and whose `refcnt` is a 32-bit value (so for every buffer of every reachable state),
`bpin(b)` returns with `refcnt` of `b` increased by 1 modulo `2 ^ 32` (by exactly 1 unless it
was `0xffffffff`) and `bunpin(b)` returns with it decreased by 1 modulo `2 ^ 32` (by exactly
1 unless it was 0), each leaving `dev`, `blockno`, `valid`, `lastuse`, `data` and the sleep
lock of `b`, every other slot and the disk unchanged; so `bpin(b)` followed by `bunpin(b)`
gives back the exact state.  And in any state a slot with `refcnt > 0` is not the slot a
`bget` miss re-tags. -/
theorem bpin_bunpin_effect (s : State) (b : BufRef)
    (hin : inRange (hash (toInt (s.bcache.at b).blockno)) = true)
    (hlt : (s.bcache.at b).refcnt < 2 ^ 32) :
    ((bpin s b).status = .returned () ∧
      (bpin s b).state.bcache.at b
        = { s.bcache.at b with refcnt := ((s.bcache.at b).refcnt + 1) % 2 ^ 32 } ∧
      ((s.bcache.at b).refcnt + 1 < 2 ^ 32 →
        ((bpin s b).state.bcache.at b).refcnt = (s.bcache.at b).refcnt + 1) ∧
      (∀ i j, ¬(i = b.1 ∧ j = b.2) → (bpin s b).state.bcache i j = s.bcache i j) ∧
      (bpin s b).state.disk = s.disk) ∧
    ((bunpin s b).status = .returned () ∧
      (bunpin s b).state.bcache.at b
        = { s.bcache.at b with refcnt := ((s.bcache.at b).refcnt + (2 ^ 32 - 1)) % 2 ^ 32 } ∧
      (0 < (s.bcache.at b).refcnt →
        ((bunpin s b).state.bcache.at b).refcnt + 1 = (s.bcache.at b).refcnt) ∧
      (∀ i j, ¬(i = b.1 ∧ j = b.2) → (bunpin s b).state.bcache i j = s.bcache i j) ∧
      (bunpin s b).state.disk = s.disk) ∧
    ((bunpin (bpin s b).state b).status = .returned () ∧
      (bunpin (bpin s b).state b).state = s) ∧
    (∀ s1, Reachable s1 → ∀ b1 : BufRef,
      inRange (hash (toInt (s1.bcache.at b1).blockno)) = true ∧
        (s1.bcache.at b1).refcnt < 2 ^ 32) ∧
    (∀ (t : State) (ticks pid dev blockno : Nat) (c r : BufRef),
      0 < (t.bcache.at c).refcnt →
      (∀ j, j < NB → ¬((t.bcache r.1 j).dev = dev ∧ (t.bcache r.1 j).blockno = blockno)) →
      ((bget t ticks pid dev blockno).status = .returned r ∨
        (bget t ticks pid dev blockno).status = .asleep r) →
      r ≠ c) := by
  obtain ⟨⟨p1, p2, p3⟩, ⟨u1, u2, u3⟩, r1, r2⟩ := bpin_bunpin_states s b hin hlt
  refine ⟨⟨(bpin_returns s b hin).1, p1, ?_, p2, p3⟩,
    ⟨(bunpin_returns s b hin).1, u1, ?_, u2, u3⟩, ⟨r1, r2⟩, ?_, ?_⟩
  · intro h
    rw [p1]
    exact Nat.mod_eq_of_lt h
  · intro h
    rw [u1]
    show ((s.bcache.at b).refcnt + (2 ^ 32 - 1)) % 2 ^ 32 + 1 = (s.bcache.at b).refcnt
    have : (s.bcache.at b).refcnt < 2 ^ 32 := hlt
    omega
  · intro s1 hr1 b1
    exact wellTyped_reachable s1 hr1 b1.1 b1.2
  · intro t ticks pid dev blockno c r href hmiss hre hrc
    obtain ⟨_, _, hb2, _, _, _, _, _, _, _, _, hcase⟩ := bget_state t ticks pid dev blockno r hre
    rcases hcase with ⟨htag, _⟩ | ⟨_, h0, _⟩
    · exact hmiss r.2 hb2 htag
    · rw [hrc] at h0
      omega

/-- C11, amended, at a concrete state: pinning and unpinning block 13 in the full bucket. -/
theorem bpin_bunpin_effect_witness :
    inRange (hash (toInt (fullBucket.bcache.at (0, 0)).blockno)) = true ∧
      (fullBucket.bcache.at (0, 0)).refcnt = 1 ∧
      (bpin fullBucket (0, 0)).status = .returned () ∧
      ((bpin fullBucket (0, 0)).state.bcache.at (0, 0)).refcnt = 2 ∧
      ((bunpin fullBucket (0, 0)).state.bcache.at (0, 0)).refcnt + 1 = 1 ∧
      (bunpin (bpin fullBucket (0, 0)).state (0, 0)).state = fullBucket :=
  have h := bpin_bunpin_effect fullBucket (0, 0) (by decide) (by decide)
  ⟨by decide, by decide, h.1.1, h.1.2.2.1 (by decide), h.2.1.2.2.1 (by decide), h.2.2.1.2⟩

/-! ## Lock discipline -/

theorem disciplined_acquiresleep (s : State) (pid : Nat) (b : BufRef) (h : Int) :
    Disciplined (acquiresleep s pid b [.acquire h, .release h]) := by
  unfold acquiresleep
  split
  · exact ⟨by simp [spinFree], fun _ => ⟨h, by simp [spinEvents, Event.isSpin]⟩⟩
  · exact ⟨by simp [spinFree], fun _ => ⟨h, by simp [spinEvents, Event.isSpin]⟩⟩

theorem disciplined_bget (s : State) (ticks pid dev blockno : Nat) :
    Disciplined (bget s ticks pid dev blockno) := by
  unfold bget
  simp only
  split
  · exact ⟨by simp [spinFree], fun h => by simp at h⟩
  · split
    · exact disciplined_acquiresleep _ _ _ _
    · split
      · exact ⟨by simp [spinFree], fun h => by simp at h⟩
      · exact disciplined_acquiresleep _ _ _ _

theorem disciplined_breadTail (s : State) (b : BufRef) (h : Int) :
    Disciplined (breadTail s b [.acquire h, .release h, .acquiresleep b]) := by
  unfold breadTail
  split
  · exact ⟨by simp [spinFree], fun _ => ⟨h, by simp [spinEvents, Event.isSpin]⟩⟩
  · exact ⟨by simp [spinFree], fun _ => ⟨h, by simp [spinEvents, Event.isSpin]⟩⟩

/-- When `bget` returns `b`, its trace is the acquire and release of one bucket lock
followed by the `acquiresleep` on `b`. -/
theorem bget_events_returned (s : State) (ticks pid dev blockno : Nat) (b : BufRef)
    (hret : (bget s ticks pid dev blockno).status = .returned b) :
    (bget s ticks pid dev blockno).events
      = [.acquire (hash (toInt blockno)), .release (hash (toInt blockno)), .acquiresleep b] := by
  unfold bget at hret ⊢
  simp only at hret ⊢
  split
  · rename_i hr
    rw [if_pos hr] at hret
    simp at hret
  · rename_i hr
    rw [if_neg hr] at hret
    split
    · rename_i i hf
      rw [hf] at hret
      simp only at hret
      have hb := acquiresleep_status _ _ _ _ _ (Or.inl hret)
      unfold acquiresleep
      split <;> simp [hb]
    · rename_i hf
      rw [hf] at hret
      simp only at hret
      split
      · rename_i hi
        rw [if_pos hi] at hret
        simp at hret
      · rename_i hi
        rw [if_neg hi] at hret
        have hb := acquiresleep_status _ _ _ _ _ (Or.inl hret)
        unfold acquiresleep
        split <;> simp [hb]

theorem disciplined_bread (s : State) (ticks pid dev blockno : Nat) :
    Disciplined (bread s ticks pid dev blockno) := by
  cases hg : (bget s ticks pid dev blockno).status with
  | returned c =>
    rw [bread_of_returned s ticks pid dev blockno c hg,
      bget_events_returned s ticks pid dev blockno c hg]
    exact disciplined_breadTail _ c _
  | asleep c =>
    rw [bread_of_asleep s ticks pid dev blockno c hg]
    exact disciplined_bget s ticks pid dev blockno
  | panicked msg =>
    have : bread s ticks pid dev blockno = bget s ticks pid dev blockno := by
      simp only [bread, hg]
    rw [this]
    exact disciplined_bget s ticks pid dev blockno
  | fault =>
    have : bread s ticks pid dev blockno = bget s ticks pid dev blockno := by
      simp only [bread, hg]
    rw [this]
    exact disciplined_bget s ticks pid dev blockno

theorem disciplined_brelse (s : State) (ticks pid : Nat) (b : BufRef) :
    Disciplined (brelse s ticks pid b) := by
  unfold brelse
  simp only
  split
  · exact ⟨by simp [spinFree], fun h => by simp at h⟩
  · split
    · exact ⟨by simp [spinFree], fun h => by simp at h⟩
    · exact ⟨by simp [spinFree], fun _ => ⟨hash (toInt (s.bcache.at b).blockno), by simp [spinEvents, Event.isSpin]⟩⟩

theorem disciplined_bpin (s : State) (b : BufRef) : Disciplined (bpin s b) := by
  unfold bpin
  simp only
  split
  · exact ⟨by simp [spinFree], fun h => by simp at h⟩
  · exact ⟨by simp [spinFree], fun _ => ⟨hash (toInt (s.bcache.at b).blockno), by simp [spinEvents, Event.isSpin]⟩⟩

theorem disciplined_bunpin (s : State) (b : BufRef) : Disciplined (bunpin s b) := by
  unfold bunpin
  simp only
  split
  · exact ⟨by simp [spinFree], fun h => by simp at h⟩
  · exact ⟨by simp [spinFree], fun _ => ⟨hash (toInt (s.bcache.at b).blockno), by simp [spinEvents, Event.isSpin]⟩⟩

/-- C18: over the trace of lock and I/O events of one execution of `bget`, `bread`,
`brelse`, `bpin` or `bunpin`, for every state and every argument: no bucket spinlock is held
at a call of `acquiresleep`, `releasesleep` or `virtio_disk_rw`; and on every path that
returns or blocks, the spinlock events are exactly one `acquire` of one bucket lock
followed by one `release` of that same lock. -/
theorem lock_discipline (s : State) (ticks pid dev blockno : Nat) (b : BufRef) :
    Disciplined (bget s ticks pid dev blockno) ∧ Disciplined (bread s ticks pid dev blockno) ∧
      Disciplined (brelse s ticks pid b) ∧ Disciplined (bpin s b) ∧
      Disciplined (bunpin s b) :=
  ⟨disciplined_bget s ticks pid dev blockno, disciplined_bread s ticks pid dev blockno,
    disciplined_brelse s ticks pid b, disciplined_bpin s b, disciplined_bunpin s b⟩

/-! ## Referenced slots and their bucket lock -/

/-- A call of `bget` that does not index out of bounds first takes the spinlock of bucket
`hash(blockno)`, the bucket it scans. -/
theorem bget_events_head (s : State) (ticks pid dev blockno : Nat)
    (hin : inRange (hash (toInt blockno)) = true) :
    (bget s ticks pid dev blockno).status ≠ .fault ∧
      ∃ rest, (bget s ticks pid dev blockno).events = .acquire (hash (toInt blockno)) :: rest := by
  unfold bget
  simp only [hin, Bool.true_eq_false, if_false]
  split
  · unfold acquiresleep
    split <;> simp
  · split
    · simp
    · unfold acquiresleep
      split <;> simp

/-- C20: in every reachable state a slot `(i, j)` with `refcnt > 0` holds a block number
whose hash is `i`.  Hence `bpin`, `bunpin` and `brelse` on that slot take and release the
spinlock of bucket `i`, the bucket that contains the slot, which is the lock `bget` takes
first when it scans bucket `i`.  Block numbers below `2 ^ 31` never make `bget` index out
of bounds, so runs with such block numbers stay among the reachable states. -/
theorem referenced_slot_in_its_bucket (s : State) (hr : Reachable s) (i j : Nat)
    (hi : i < NBUCKET) (hj : j < NB) (href : 0 < (s.bcache i j).refcnt) :
    hash (toInt (s.bcache i j).blockno) = (i : Int) ∧
      ((bpin s (i, j)).status = .returned () ∧
        (bpin s (i, j)).events = [.acquire (i : Int), .release (i : Int)]) ∧
      ((bunpin s (i, j)).status = .returned () ∧
        (bunpin s (i, j)).events = [.acquire (i : Int), .release (i : Int)]) ∧
      (∀ ticks pid, (s.bcache i j).lock = some pid →
        (brelse s ticks pid (i, j)).status = .returned () ∧
        (brelse s ticks pid (i, j)).events
          = [.releasesleep (i, j), .acquire (i : Int), .release (i : Int)]) ∧
      (∀ (t : State) (ticks pid dev blockno : Nat), hash (toInt blockno) = (i : Int) →
        ∃ rest, (bget t ticks pid dev blockno).events = .acquire (i : Int) :: rest) ∧
      (∀ (t : State) (ticks pid dev blockno : Nat), blockno < 2 ^ 31 →
        (bget t ticks pid dev blockno).status ≠ .fault) := by
  have hI := (invariants_reachable s hr).2 i j hi hj href
  have hin : inRange (hash (toInt ((s.bcache.at (i, j)).blockno))) = true :=
    (hash_toNat _ i hI).1
  have hI' : hash (toInt (s.bcache.at (i, j)).blockno) = (i : Int) := hI
  refine ⟨hI, ?_, ?_, ?_, ?_, ?_⟩
  · have := bpin_returns s (i, j) hin
    rw [hI'] at this
    exact this
  · have := bunpin_returns s (i, j) hin
    rw [hI'] at this
    exact this
  · intro ticks pid hheld
    obtain ⟨h1, _, _, _, h5⟩ := brelse_held s ticks pid (i, j) hheld hin
    rw [hI'] at h5
    exact ⟨h1, h5⟩
  · intro t ticks pid dev blockno hh
    obtain ⟨_, rest, hrest⟩ := bget_events_head t ticks pid dev blockno (hash_toNat _ i hh).1
    rw [hh] at hrest
    exact ⟨rest, hrest⟩
  · intro t ticks pid dev blockno hlt
    exact (bget_events_head t ticks pid dev blockno (hash_inRange_of_lt blockno hlt).2.2).1

/-- C20 at a concrete state: slot 1 of bucket 0 in the full bucket holds block 26. -/
theorem referenced_slot_in_its_bucket_witness :
    0 < (fullBucket.bcache 0 1).refcnt ∧ (fullBucket.bcache 0 1).blockno = 26 ∧
      hash (toInt (fullBucket.bcache 0 1).blockno) = ((0 : Nat) : Int) ∧
      (bpin fullBucket (0, 1)).events = [.acquire ((0 : Nat) : Int), .release ((0 : Nat) : Int)] :=
  have h := referenced_slot_in_its_bucket fullBucket reachable_fullBucket 0 1
    (by decide) (by decide) (by decide)
  ⟨by decide, by decide, h.1, h.2.1.2⟩

end Bio

namespace Kalloc

/-! ## Linked lists in memory -/

theorem isChain_frame (mem mem' : Nat → Page) :
    ∀ (pages : List Nat) (h : Nat), isChain mem h pages →
      (∀ p, p ∈ pages → (mem' p).next = (mem p).next) → isChain mem' h pages := by
  intro pages
  induction pages with
  | nil => intro h hc _; exact hc
  | cons p ps ih =>
    intro h hc hf
    obtain ⟨h1, h2, h3⟩ := hc
    refine ⟨h1, h2, ?_⟩
    rw [hf p (List.mem_cons_self p ps)]
    exact ih _ h3 (fun q hq => hf q (List.mem_cons_of_mem p hq))

theorem isChain_unique (mem : Nat → Page) :
    ∀ (l1 l2 : List Nat) (h : Nat), isChain mem h l1 → isChain mem h l2 → l1 = l2 := by
  intro l1
  induction l1 with
  | nil =>
    intro l2 h h1 h2
    cases l2 with
    | nil => rfl
    | cons q qs =>
      obtain ⟨e, hq, _⟩ := h2
      have h0 : h = 0 := h1
      omega
  | cons p ps ih =>
    intro l2 h h1 h2
    obtain ⟨e1, hp, c1⟩ := h1
    cases l2 with
    | nil =>
      have h0 : h = 0 := h2
      omega
    | cons q qs =>
      obtain ⟨e2, _, c2⟩ := h2
      have hpq : p = q := by omega
      subst hpq
      rw [ih qs _ c1 c2]

theorem isChain_zero_not_mem (mem : Nat → Page) :
    ∀ (pages : List Nat) (h : Nat), isChain mem h pages → 0 ∉ pages := by
  intro pages
  induction pages with
  | nil => intro h _ hm; cases hm
  | cons p ps ih =>
    intro h hc hm
    obtain ⟨_, hp, c⟩ := hc
    rcases List.mem_cons.1 hm with e | e
    · exact hp e.symm
    · exact ih _ c e

theorem isChain_suffix (mem : Nat → Page) :
    ∀ (front : List Nat) (q : Nat) (back : List Nat) (h : Nat),
      isChain mem h (front ++ q :: back) → isChain mem q (q :: back) := by
  intro front
  induction front with
  | nil =>
    intro q back h hc
    obtain ⟨_, hq, c⟩ := hc
    exact ⟨rfl, hq, c⟩
  | cons p ps ih =>
    intro q back h hc
    obtain ⟨_, _, c⟩ := hc
    exact ih q back _ c

/-- A linked list that ends with the null pointer visits no page twice. -/
theorem isChain_nodup (mem : Nat → Page) :
    ∀ (pages : List Nat) (h : Nat), isChain mem h pages → pages.Nodup := by
  intro pages
  induction pages with
  | nil => intro _ _; exact List.nodup_nil
  | cons p ps ih =>
    intro h hc
    obtain ⟨_, _, c⟩ := hc
    refine List.nodup_cons.2 ⟨?_, ih _ c⟩
    intro hm
    obtain ⟨front, back, e⟩ := List.append_of_mem hm
    have c' : isChain mem (mem p).next (front ++ p :: back) := by rw [← e]; exact c
    obtain ⟨_, _, c2⟩ := isChain_suffix mem front p back _ c'
    have := isChain_unique mem _ _ _ c c2
    have hl := congrArg List.length this
    rw [e] at hl
    simp at hl
    omega

/-! ## `kfree` -/

theorem validPage_iff (L : Layout) (pa : Nat) :
    ValidPage L pa ↔ ¬(pa % PGSIZE ≠ 0 ∨ pa < L.kend ∨ pa ≥ L.PHYSTOP) := by
  unfold ValidPage
  constructor
  · intro h hc
    rcases hc with hc | hc | hc
    · exact hc h.1
    · omega
    · omega
  · intro h
    refine ⟨?_, ?_, ?_⟩
    · by_contra hc; exact h (Or.inl hc)
    · by_contra hc; exact h (Or.inr (Or.inl (by omega)))
    · by_contra hc; exact h (Or.inr (Or.inr (by omega)))

theorem validPage_ne_zero (L : Layout) (pa : Nat) (hv : ValidPage L pa) : pa ≠ 0 := by
  have := L.kend_pos
  have := hv.2.1
  omega

/-- What `kfree` leaves when the page passes its checks. -/
theorem kfree_valid (L : Layout) (m : Kmem) (c pa : Nat) (hv : ValidPage L pa) :
    (kfree L m c pa).status = .returned () ∧
      (∀ d, (kfree L m c pa).state.freelist d = if d = c then pa else m.freelist d) ∧
      ((kfree L m c pa).state.mem pa).next = m.freelist c ∧
      ((kfree L m c pa).state.mem pa).rest = List.replicate (PGSIZE - 8) 1 ∧
      ∀ a, a ≠ pa → (kfree L m c pa).state.mem a = m.mem a := by
  have h := (validPage_iff L pa).1 hv
  unfold kfree
  rw [if_neg h]
  refine ⟨rfl, fun d => rfl, ?_, ?_, ?_⟩
  · simp [setHead, setNext, memset]
  · simp [setHead, setNext, memset]
  · intro a ha
    simp [setHead, setNext, memset, ha]

theorem kfree_invalid (L : Layout) (m : Kmem) (c pa : Nat) (hv : ¬ValidPage L pa) :
    kfree L m c pa = { status := .panicked "kfree", state := m } := by
  have h : pa % PGSIZE ≠ 0 ∨ pa < L.kend ∨ pa ≥ L.PHYSTOP := by
    by_contra hc
    exact hv ((validPage_iff L pa).2 hc)
  unfold kfree
  rw [if_pos h]

/-- C15: `kfree(pa)` halts in `panic("kfree")` exactly when `pa` is not a multiple of
`PGSIZE` (4096), or is below the kernel end address, or is at or above `PHYSTOP`; and when
it panics the state (page contents and every free list) is the state before the call. -/
theorem kfree_panics_iff (L : Layout) (m : Kmem) (c pa : Nat) :
    ((kfree L m c pa).status = .panicked "kfree" ↔
        (pa % 4096 ≠ 0 ∨ pa < L.kend ∨ L.PHYSTOP ≤ pa)) ∧
      ((kfree L m c pa).status = .panicked "kfree" → (kfree L m c pa).state = m) ∧
      ((kfree L m c pa).status ≠ .panicked "kfree" → (kfree L m c pa).status = .returned ()) := by
  by_cases hv : ValidPage L pa
  · have h1 := (kfree_valid L m c pa hv).1
    have h2 := (validPage_iff L pa).1 hv
    refine ⟨?_, ?_, fun _ => h1⟩
    · rw [h1]
      constructor
      · intro h; simp at h
      · intro h; exact absurd h h2
    · intro h
      rw [h1] at h
      simp at h
  · have h1 := kfree_invalid L m c pa hv
    have h2 : pa % PGSIZE ≠ 0 ∨ pa < L.kend ∨ pa ≥ L.PHYSTOP := by
      by_contra hc
      exact hv ((validPage_iff L pa).2 hc)
    rw [h1]
    exact ⟨⟨fun _ => h2, fun _ => rfl⟩, fun _ => rfl, fun h => absurd rfl h⟩

/-! ## `kalloc` -/

theorem kalloc_own (m : Kmem) (c : Nat) (h : m.freelist c ≠ 0) :
    kalloc m c
      = (m.freelist c, memset (setHead m c (m.mem (m.freelist c)).next) (m.freelist c) 5) := by
  simp [kalloc, h]

theorem kalloc_steal (m : Kmem) (c : Nat) (h : m.freelist c = 0) :
    kalloc m c
      = (if (steal m c NCPU 0).1 ≠ 0
          then ((steal m c NCPU 0).1, memset (steal m c NCPU 0).2 (steal m c NCPU 0).1 5)
          else steal m c NCPU 0) := by
  simp [kalloc, h]

/-- The stealing loop finds nothing when every core it visits has an empty list. -/
theorem steal_none (m : Kmem) (c : Nat) :
    ∀ n i, (∀ k, i ≤ k → k < i + n → k ≠ c → m.freelist k = 0) → steal m c n i = (0, m) := by
  intro n
  induction n with
  | zero => intro i _; rfl
  | succ n ih =>
    intro i h
    unfold steal
    by_cases hic : i = c
    · rw [if_pos hic]
      exact ih (i + 1) (fun k h1 h2 h3 => h k (by omega) (by omega) h3)
    · rw [if_neg hic, if_neg (by rw [h i (le_refl _) (by omega) hic]; simp)]
      exact ih (i + 1) (fun k h1 h2 h3 => h k (by omega) (by omega) h3)

/-- The stealing loop pops the head of the first visited core whose list is not empty. -/
theorem steal_first (m : Kmem) (c : Nat) :
    ∀ n i t, i ≤ t → t < i + n → t ≠ c → m.freelist t ≠ 0 →
      (∀ k, i ≤ k → k < t → k ≠ c → m.freelist k = 0) →
      steal m c n i = (m.freelist t, setHead m t (m.mem (m.freelist t)).next) := by
  intro n
  induction n with
  | zero => intro i t h1 h2; omega
  | succ n ih =>
    intro i t h1 h2 htc hne hlow
    unfold steal
    by_cases hit : i = t
    · subst hit
      rw [if_neg htc, if_pos hne]
    · have hrec := ih (i + 1) t (by omega) (by omega) htc hne
        (fun k k1 k2 k3 => hlow k (by omega) k2 k3)
      by_cases hic : i = c
      · rw [if_pos hic]
        exact hrec
      · rw [if_neg hic, if_neg (by rw [hlow i (le_refl _) (by omega) hic]; simp)]
        exact hrec

/-- The two ways the stealing loop ends. -/
theorem steal_cases (m : Kmem) (c n i : Nat) :
    (steal m c n i = (0, m) ∧ ∀ k, i ≤ k → k < i + n → k ≠ c → m.freelist k = 0) ∨
    ∃ t, i ≤ t ∧ t < i + n ∧ t ≠ c ∧ m.freelist t ≠ 0 ∧
      (∀ k, i ≤ k → k < t → k ≠ c → m.freelist k = 0) ∧
      steal m c n i = (m.freelist t, setHead m t (m.mem (m.freelist t)).next) := by
  by_cases hex : ∃ t, i ≤ t ∧ t < i + n ∧ t ≠ c ∧ m.freelist t ≠ 0
  · right
    classical
    have hspec := Nat.find_spec hex
    have hmin := fun k => @Nat.find_min _ _ hex k
    refine ⟨Nat.find hex, hspec.1, hspec.2.1, hspec.2.2.1, hspec.2.2.2, ?_, ?_⟩
    · intro k k1 k2 k3
      by_contra hk
      exact hmin k k2 ⟨k1, by omega, k3, hk⟩
    · refine steal_first m c n i _ hspec.1 hspec.2.1 hspec.2.2.1 hspec.2.2.2 ?_
      intro k k1 k2 k3
      by_contra hk
      exact hmin k k2 ⟨k1, by omega, k3, hk⟩
  · left
    have hall : ∀ k, i ≤ k → k < i + n → k ≠ c → m.freelist k = 0 := by
      intro k k1 k2 k3
      by_contra hk
      exact hex ⟨k, k1, k2, k3, hk⟩
    exact ⟨steal_none m c n i hall, hall⟩

/-- The two ways `kalloc` ends on core `c`: every list is empty and nothing changes, or the
head of the list of some core `t` is popped and the page is filled with junk; `t` is `c`
itself, or the lowest-indexed other core with a page when the list of `c` is empty. -/
theorem kalloc_cases (m : Kmem) (c : Nat) (hc : c < NCPU) :
    (kalloc m c = (0, m) ∧ ∀ k, k < NCPU → m.freelist k = 0) ∨
    ∃ t, t < NCPU ∧ m.freelist t ≠ 0 ∧
      (t = c ∨ (m.freelist c = 0 ∧ t ≠ c ∧ ∀ k, k < t → k ≠ c → m.freelist k = 0)) ∧
      kalloc m c
        = (m.freelist t, memset (setHead m t (m.mem (m.freelist t)).next) (m.freelist t) 5) := by
  by_cases hown : m.freelist c = 0
  · rcases steal_cases m c NCPU 0 with ⟨hs, hall⟩ | ⟨t, _, t2, t3, t4, t5, hs⟩
    · left
      refine ⟨?_, ?_⟩
      · rw [kalloc_steal m c hown, hs]
        simp
      · intro k hk
        by_cases hkc : k = c
        · rw [hkc]; exact hown
        · exact hall k (Nat.zero_le _) (by omega) hkc
    · right
      refine ⟨t, by omega, t4, Or.inr ⟨hown, t3, fun k k1 k2 => t5 k (Nat.zero_le _) k1 k2⟩, ?_⟩
      rw [kalloc_steal m c hown, hs]
      simp [t4]
  · right
    exact ⟨c, hc, hown, Or.inl rfl, kalloc_own m c hown⟩

/-- Popping the head `r` of the list of core `t` and overwriting page `r`: the list of `t`
loses its head, and every list that does not contain `r` stays what it was. -/
theorem pop_lists (m : Kmem) (t : Nat) (tl : List Nat)
    (ht : FreeList m t (m.freelist t :: tl)) :
    FreeList (memset (setHead m t (m.mem (m.freelist t)).next) (m.freelist t) 5) t tl ∧
      ∀ d pages, d ≠ t → FreeList m d pages → m.freelist t ∉ pages →
        FreeList (memset (setHead m t (m.mem (m.freelist t)).next) (m.freelist t) 5) d pages := by
  have hnd := isChain_nodup m.mem _ _ ht
  obtain ⟨_, _, hc⟩ := ht
  have hframe : ∀ pages : List Nat, m.freelist t ∉ pages → ∀ p, p ∈ pages →
      ((memset (setHead m t (m.mem (m.freelist t)).next) (m.freelist t) 5).mem p).next
        = (m.mem p).next := by
    intro pages hn p hp
    have hne : p ≠ m.freelist t := fun e => hn (e ▸ hp)
    simp [memset, setHead, hne]
  refine ⟨?_, ?_⟩
  · have hh : (memset (setHead m t (m.mem (m.freelist t)).next) (m.freelist t) 5).freelist t
        = (m.mem (m.freelist t)).next := by
      simp [memset, setHead]
    unfold FreeList
    rw [hh]
    exact isChain_frame m.mem _ tl _ hc (hframe tl (List.nodup_cons.1 hnd).1)
  · intro d pages hd hfl hn
    have hh : (memset (setHead m t (m.mem (m.freelist t)).next) (m.freelist t) 5).freelist d
        = m.freelist d := by
      simp [memset, setHead, hd]
    unfold FreeList
    rw [hh]
    exact isChain_frame m.mem _ pages _ hfl (hframe pages hn)

/-- Pushing page `pa` on the list of core `c`: the list of `c` gets `pa` as its head when
it did not contain `pa`, and every list that does not contain `pa` stays what it was. -/
theorem push_lists (L : Layout) (m : Kmem) (c pa : Nat) (hv : ValidPage L pa) :
    (∀ pages, FreeList m c pages → pa ∉ pages →
        FreeList (kfree L m c pa).state c (pa :: pages)) ∧
      ∀ d pages, d ≠ c → FreeList m d pages → pa ∉ pages →
        FreeList (kfree L m c pa).state d pages := by
  obtain ⟨_, hhead, hnext, _, hmem⟩ := kfree_valid L m c pa hv
  have hframe : ∀ pages : List Nat, pa ∉ pages → ∀ p, p ∈ pages →
      ((kfree L m c pa).state.mem p).next = (m.mem p).next := by
    intro pages hn p hp
    have hne : p ≠ pa := fun e => hn (e ▸ hp)
    rw [hmem p hne]
  refine ⟨?_, ?_⟩
  · intro pages hfl hn
    unfold FreeList
    rw [hhead c, if_pos rfl]
    refine ⟨rfl, validPage_ne_zero L pa hv, ?_⟩
    rw [hnext]
    exact isChain_frame m.mem _ pages _ hfl (hframe pages hn)
  · intro d pages hd hfl hn
    unfold FreeList
    rw [hhead d, if_neg hd]
    exact isChain_frame m.mem _ pages _ hfl (hframe pages hn)

/-- C12, counterexample: the free list of core 0 is `[8192]`; `kfree(8192)` on core 0 passes
the checks, the `kalloc()` that follows on core 0 returns 8192, and afterwards the free
list of core 0 is not `[8192]` any more: its head is still 8192, whose `next` field now
holds the junk `0x0505050505050505`. -/
theorem kfree_kalloc_of_free_page :
    FreeList onePage 0 [8192] ∧
      (kfree smallLayout onePage 0 8192).status = .returned () ∧
      (kalloc (kfree smallLayout onePage 0 8192).state 0).1 = 8192 ∧
      ¬FreeList (kalloc (kfree smallLayout onePage 0 8192).state 0).2 0 [8192] ∧
      (kalloc (kfree smallLayout onePage 0 8192).state 0).2.freelist 0 = 8192 ∧
      ((kalloc (kfree smallLayout onePage 0 8192).state 0).2.mem 8192).next
        = 0x0505050505050505 := by
  decide

/-- C12, amended: for every core `c`, every state and every page `p` that passes the checks
of `kfree`, `kfree(p)` on `c` followed by `kalloc()` on `c` returns `p`; afterwards the head
pointer of every core's free list is what it was, memory differs in page `p` only, and every
core's free list that did not contain `p` is exactly the list it was. -/
theorem kfree_kalloc_roundtrip (L : Layout) (m : Kmem) (c p : Nat) (hv : ValidPage L p) :
    (kfree L m c p).status = .returned () ∧
      (kalloc (kfree L m c p).state c).1 = p ∧
      (∀ d, (kalloc (kfree L m c p).state c).2.freelist d = m.freelist d) ∧
      (∀ a, a ≠ p → (kalloc (kfree L m c p).state c).2.mem a = m.mem a) ∧
      ∀ d pages, FreeList m d pages → p ∉ pages →
        FreeList (kalloc (kfree L m c p).state c).2 d pages := by
  obtain ⟨hst, hhead, hnext, _, hmem⟩ := kfree_valid L m c p hv
  have hp0 := validPage_ne_zero L p hv
  have hc : (kfree L m c p).state.freelist c = p := by rw [hhead c, if_pos rfl]
  have hk := kalloc_own (kfree L m c p).state c (by rw [hc]; exact hp0)
  rw [hc, hnext] at hk
  have hfl : ∀ d, (kalloc (kfree L m c p).state c).2.freelist d = m.freelist d := by
    intro d
    rw [hk]
    by_cases hd : d = c
    · simp [memset, setHead, hd]
    · simp [memset, setHead, hd, hhead d]
  have hm : ∀ a, a ≠ p → (kalloc (kfree L m c p).state c).2.mem a = m.mem a := by
    intro a ha
    rw [hk]
    simp [memset, setHead, ha, hmem a ha]
  refine ⟨hst, by rw [hk], hfl, hm, ?_⟩
  intro d pages hf hn
  unfold FreeList
  rw [hfl d]
  refine isChain_frame m.mem _ pages _ hf ?_
  intro q hq
  have hne : q ≠ p := fun e => hn (e ▸ hq)
  rw [hm q hne]

/-- C12, amended, at a concrete input: core 1 frees page 12288 while core 0 holds
`[8192]`. -/
theorem kfree_kalloc_roundtrip_witness :
    ValidPage smallLayout 12288 ∧ FreeList onePage 0 [8192] ∧
      (kalloc (kfree smallLayout onePage 1 12288).state 1).1 = 12288 ∧
      FreeList (kalloc (kfree smallLayout onePage 1 12288).state 1).2 0 [8192] :=
  have h := kfree_kalloc_roundtrip smallLayout onePage 1 12288 (by decide)
  ⟨by decide, by decide, h.2.1, h.2.2.2.2 0 [8192] (by decide) (by decide)⟩

/-- With the free lists given by `Ls`, the head pointer of a core is null exactly when its
list is empty. -/
theorem pools_head (m : Kmem) (Ls : Nat → List Nat) (hp : Pools m Ls) (k : Nat)
    (hk : k < NCPU) :
    (Ls k = [] → m.freelist k = 0) ∧
      (m.freelist k ≠ 0 → ∃ tl, Ls k = m.freelist k :: tl) ∧
      (Ls k ≠ [] → m.freelist k ≠ 0) := by
  have h := hp k hk
  unfold FreeList at h
  cases hl : Ls k with
  | nil =>
    rw [hl] at h
    have h0 : m.freelist k = 0 := h
    exact ⟨fun _ => h0, fun hne => absurd h0 hne, fun hne => absurd rfl hne⟩
  | cons q qs =>
    rw [hl] at h
    obtain ⟨e, hq, _⟩ := h
    refine ⟨?_, ?_, ?_⟩
    · intro hc
      cases hc
    · intro _
      exact ⟨qs, by rw [e]⟩
    · intro _
      rw [e]
      exact hq

/-- C13, counterexample: in `sharedPage` the free list of core 2 is empty and the free lists
of core 0 and of core 1 are both `[8192]`.  `kalloc()` on core 2 takes the head of the list of
core 0, the lowest-indexed core with a page; the list of core 0 becomes empty, but the list
of core 1 does not stay `[8192]`: the `next` field of page 8192 now holds the junk
`0x0505050505050505`. -/
theorem kalloc_steal_of_shared_page :
    FreeList sharedPage 2 [] ∧ FreeList sharedPage 0 [8192] ∧ FreeList sharedPage 1 [8192] ∧
      (kalloc sharedPage 2).1 = 8192 ∧
      FreeList (kalloc sharedPage 2).2 0 [] ∧
      (kalloc sharedPage 2).2.freelist 1 = sharedPage.freelist 1 ∧
      ¬FreeList (kalloc sharedPage 2).2 1 [8192] ∧
      ((kalloc sharedPage 2).2.mem 8192).next = 0x0505050505050505 := by
  decide

/-- C13, amended: in every state in which the free list of core `X` is empty and `i` is the
lowest-indexed core other than `X` whose free list is not empty, `kalloc()` on `X` returns
a non-null page, the head of the list of core `i`; the head pointer of `i` moves to the page
that head was linked to, so the list of `i` becomes its tail; the head pointer of every other
core is unchanged, memory differs in the returned page only, and the list of every other
core that did not contain the returned page is unchanged. -/
theorem kalloc_steals_lowest (m : Kmem) (X i : Nat) (hXe : FreeList m X []) (hi : i < NCPU)
    (hiX : i ≠ X) (hne : ¬FreeList m i []) (hlow : ∀ k, k < i → k ≠ X → FreeList m k []) :
    (kalloc m X).1 = m.freelist i ∧ (kalloc m X).1 ≠ 0 ∧
      (kalloc m X).2.freelist i = (m.mem (m.freelist i)).next ∧
      (∀ tl, FreeList m i (m.freelist i :: tl) → FreeList (kalloc m X).2 i tl) ∧
      (∀ d, d ≠ i → (kalloc m X).2.freelist d = m.freelist d) ∧
      (∀ a, a ≠ m.freelist i → (kalloc m X).2.mem a = m.mem a) ∧
      ∀ d pages, d ≠ i → FreeList m d pages → m.freelist i ∉ pages →
        FreeList (kalloc m X).2 d pages := by
  have hown : m.freelist X = 0 := hXe
  have hhead : m.freelist i ≠ 0 := hne
  have hst := steal_first m X NCPU 0 i (Nat.zero_le _) (by omega) hiX hhead
    (fun k _ k2 k3 => hlow k k2 k3)
  have hk : kalloc m X
      = (m.freelist i, memset (setHead m i (m.mem (m.freelist i)).next) (m.freelist i) 5) := by
    rw [kalloc_steal m X hown, hst]
    simp [hhead]
  rw [hk]
  refine ⟨rfl, hhead, by simp [memset, setHead], ?_, ?_, ?_, ?_⟩
  · intro tl htl
    exact (pop_lists m i tl htl).1
  · intro d hdi
    simp [memset, setHead, hdi]
  · intro a ha
    simp [memset, setHead, ha]
  · intro d pages hdi hfl hn
    have hframe : ∀ p, p ∈ pages →
        ((memset (setHead m i (m.mem (m.freelist i)).next) (m.freelist i) 5).mem p).next
          = (m.mem p).next := by
      intro p hp
      have hpne : p ≠ m.freelist i := fun e => hn (e ▸ hp)
      simp [memset, setHead, hpne]
    have hh : (memset (setHead m i (m.mem (m.freelist i)).next) (m.freelist i) 5).freelist d
        = m.freelist d := by
      simp [memset, setHead, hdi]
    unfold FreeList
    rw [hh]
    exact isChain_frame m.mem _ pages _ hfl hframe

/-- C13, amended, at a concrete state: core 1 holds `[8192, 12288]`, all other lists are
empty, and core 0 allocates. -/
theorem kalloc_steals_lowest_witness :
    FreeList twoPages 0 [] ∧ ¬FreeList twoPages 1 [] ∧ FreeList twoPages 1 [8192, 12288] ∧
      (kalloc twoPages 0).1 = 8192 ∧ (kalloc twoPages 0).1 ≠ 0 ∧
      FreeList (kalloc twoPages 0).2 1 [12288] ∧ FreeList (kalloc twoPages 0).2 2 [] :=
  have h := kalloc_steals_lowest twoPages 0 1 (by decide) (by decide) (by decide) (by decide)
    (by intro k hk hk0; exfalso; omega)
  ⟨by decide, by decide, by decide, h.1, h.2.1, h.2.2.2.1 [12288] (by decide),
    h.2.2.2.2.2.2 2 [] (by decide) (by decide) (by decide)⟩

/-- C14: on every core and in every state, `kalloc()` returns 0 exactly when the free lists
of all `NCPU` cores are empty, and then it leaves the state as it was. -/
theorem kalloc_null_iff (m : Kmem) (X : Nat) (hX : X < NCPU) :
    ((kalloc m X).1 = 0 ↔ ∀ i, i < NCPU → FreeList m i []) ∧
      ((kalloc m X).1 = 0 → (kalloc m X).2 = m) := by
  rcases kalloc_cases m X hX with ⟨hk, hall⟩ | ⟨t, ht, hne, _, hk⟩
  · rw [hk]
    exact ⟨⟨fun _ i hi => hall i hi, fun _ => rfl⟩, fun _ => rfl⟩
  · rw [hk]
    refine ⟨⟨fun h => absurd h hne, fun h => absurd (h t ht) hne⟩, fun h => absurd h hne⟩

/-- C14 at a concrete state: with every list empty, `kalloc()` on core 3 returns 0. -/
theorem kalloc_null_iff_witness :
    (3 : Nat) < NCPU ∧ (kalloc emptyKmem 3).1 = 0 ∧ (kalloc emptyKmem 3).2 = emptyKmem :=
  have h := kalloc_null_iff emptyKmem 3 (by decide)
  ⟨by decide, by decide, h.2 (by decide)⟩

/-- C16, counterexample: the free list of core 1 is `[8192, 12288]` and page 8192 passes
the checks of `kfree`; after `kfree(8192)` on core 0 the free list of core 1 is no longer
`[8192, 12288]`: it is `[8192]`, because the `next` field of page 8192 was overwritten. -/
theorem kfree_of_peer_page :
    FreeList twoPages 1 [8192, 12288] ∧ ValidPage smallLayout 8192 ∧
      (kfree smallLayout twoPages 0 8192).status = .returned () ∧
      ¬FreeList (kfree smallLayout twoPages 0 8192).state 1 [8192, 12288] ∧
      FreeList (kfree smallLayout twoPages 0 8192).state 1 [8192] ∧
      FreeList (kfree smallLayout twoPages 0 8192).state 0 [8192] := by
  decide

/-- C16, amended: for every page `pa` that passes the checks and every core `c`,
`kfree(pa)` on `c` makes `pa` the head of the free list of `c` and links it to the previous
head, and leaves the head pointer of every other core unchanged.  When `pa` was not already
in the list of `c`, that list is now `pa` followed by the previous list; and the list of
every other core that did not contain `pa` is unchanged. -/
theorem kfree_pushes_on_own_list (L : Layout) (m : Kmem) (c pa : Nat)
    (hv : ValidPage L pa) :
    (kfree L m c pa).status = .returned () ∧
      (kfree L m c pa).state.freelist c = pa ∧
      ((kfree L m c pa).state.mem pa).next = m.freelist c ∧
      (∀ d, d ≠ c → (kfree L m c pa).state.freelist d = m.freelist d) ∧
      (∀ pages, FreeList m c pages → pa ∉ pages →
        FreeList (kfree L m c pa).state c (pa :: pages)) ∧
      ∀ d pages, d ≠ c → FreeList m d pages → pa ∉ pages →
        FreeList (kfree L m c pa).state d pages := by
  obtain ⟨hst, hhead, hnext, _, _⟩ := kfree_valid L m c pa hv
  obtain ⟨p1, p2⟩ := push_lists L m c pa hv
  refine ⟨hst, by rw [hhead c, if_pos rfl], hnext, ?_, p1, p2⟩
  intro d hd
  rw [hhead d, if_neg hd]

/-- C16, amended, at a concrete input: core 0 frees page 16384 while core 1 holds
`[8192, 12288]`. -/
theorem kfree_pushes_on_own_list_witness :
    ValidPage smallLayout 16384 ∧
      (kfree smallLayout twoPages 0 16384).state.freelist 0 = 16384 ∧
      FreeList (kfree smallLayout twoPages 0 16384).state 0 [16384] ∧
      FreeList (kfree smallLayout twoPages 0 16384).state 1 [8192, 12288] :=
  have h := kfree_pushes_on_own_list smallLayout twoPages 0 16384 (by decide)
  ⟨by decide, h.2.1, h.2.2.2.2.1 [] (by decide) (by decide),
    h.2.2.2.2.2 1 [8192, 12288] (by decide) (by decide) (by decide)⟩

/-! ## Disjointness of the free lists -/

theorem separate_update_tail (Ls : Nat → List Nat) (t r : Nat) (tl : List Nat)
    (hs : Separate Ls) (ht : t < NCPU) (htl : Ls t = r :: tl) :
    Separate (fun e => if e = t then tl else Ls e) ∧
      ∀ e, e < NCPU → r ∉ (fun e => if e = t then tl else Ls e) e := by
  have hnd := hs.1 t ht
  rw [htl] at hnd
  obtain ⟨hr, hndtl⟩ := List.nodup_cons.1 hnd
  have hrmem : r ∈ Ls t := by rw [htl]; exact List.mem_cons_self _ _
  refine ⟨⟨?_, ?_⟩, ?_⟩
  · intro c hc
    by_cases e : c = t
    · simp only [e, if_true]; exact hndtl
    · simp only [e, if_false]; exact hs.1 c hc
  · intro c d hc hd hcd q hq
    by_cases e1 : c = t
    · have e2 : d ≠ t := fun h => hcd (by rw [e1, h])
      simp only [e1, if_true] at hq
      simp only [e2, if_false]
      exact hs.2 t d ht hd (Ne.symm e2) q (by rw [htl]; exact List.mem_cons_of_mem _ hq)
    · simp only [e1, if_false] at hq
      by_cases e2 : d = t
      · simp only [e2, if_true]
        intro hq2
        exact hs.2 c t hc ht e1 q hq (by rw [htl]; exact List.mem_cons_of_mem _ hq2)
      · simp only [e2, if_false]
        exact hs.2 c d hc hd hcd q hq
  · intro e he
    by_cases e1 : e = t
    · simp only [e1, if_true]; exact hr
    · simp only [e1, if_false]
      exact hs.2 t e ht he (Ne.symm e1) r hrmem

theorem separate_update_cons (Ls : Nat → List Nat) (c p : Nat)
    (hs : Separate Ls) (hfree : ∀ d, d < NCPU → p ∉ Ls d) (hc : c < NCPU) :
    Separate (fun e => if e = c then p :: Ls c else Ls e) := by
  refine ⟨?_, ?_⟩
  · intro d hd
    by_cases e : d = c
    · simp only [e, if_true]
      exact List.nodup_cons.2 ⟨hfree c hc, hs.1 c hc⟩
    · simp only [e, if_false]; exact hs.1 d hd
  · intro a d ha hd had q hq
    by_cases e1 : a = c
    · have e2 : d ≠ c := fun h => had (by rw [e1, h])
      simp only [e1, if_true] at hq
      simp only [e2, if_false]
      rcases List.mem_cons.1 hq with hq | hq
      · rw [hq]; exact hfree d hd
      · exact hs.2 c d hc hd (Ne.symm e2) q hq
    · simp only [e1, if_false] at hq
      by_cases e2 : d = c
      · simp only [e2, if_true]
        intro hq2
        rcases List.mem_cons.1 hq2 with hq2 | hq2
        · rw [hq2] at hq; exact hfree a ha hq
        · exact hs.2 a c ha hc e1 q hq hq2
      · simp only [e2, if_false]
        exact hs.2 a d ha hd had q hq

/-- C19: let the free lists of the `NCPU` cores be the lists `Ls`, duplicate-free and
pairwise disjoint.  (i) After `kalloc()` on any core the free lists are again such lists
`Ls'`; when 0 is returned they are the same lists; when a page is returned it was the head
of exactly one list, that list lost it and the others are the same, and the page is in no
list afterwards.  (ii) After `kfree(p)` on core `c` of a page that passes the checks and is
in no list, the free lists are again duplicate-free and pairwise disjoint: the list of `c`
is `p` followed by what it was and the others are the same. -/
theorem free_lists_stay_separate (L : Layout) (m : Kmem) (Ls : Nat → List Nat) (c : Nat)
    (hc : c < NCPU) (hp : Pools m Ls) (hs : Separate Ls) :
    (∃ Ls', Pools (kalloc m c).2 Ls' ∧ Separate Ls' ∧
      ((kalloc m c).1 = 0 → ∀ d, d < NCPU → Ls' d = Ls d) ∧
      ((kalloc m c).1 ≠ 0 → ∃ t, t < NCPU ∧ Ls t = (kalloc m c).1 :: Ls' t ∧
        (∀ e, e < NCPU → e ≠ t → Ls' e = Ls e ∧ (kalloc m c).1 ∉ Ls e) ∧
        ∀ e, e < NCPU → (kalloc m c).1 ∉ Ls' e)) ∧
    (∀ p, ValidPage L p → (∀ d, d < NCPU → p ∉ Ls d) →
      ∃ Ls', Pools (kfree L m c p).state Ls' ∧ Separate Ls' ∧ Ls' c = p :: Ls c ∧
        ∀ d, d < NCPU → d ≠ c → Ls' d = Ls d) := by
  refine ⟨?_, ?_⟩
  · rcases kalloc_cases m c hc with ⟨hk, _⟩ | ⟨t, ht, hne, _, hk⟩
    · rw [hk]
      exact ⟨Ls, hp, hs, fun _ d _ => rfl, fun h => absurd rfl h⟩
    · obtain ⟨tl, htl⟩ := (pools_head m Ls hp t ht).2.1 hne
      have hft : FreeList m t (m.freelist t :: tl) := by rw [← htl]; exact hp t ht
      obtain ⟨p1, p2⟩ := pop_lists m t tl hft
      obtain ⟨s1, s2⟩ := separate_update_tail Ls t (m.freelist t) tl hs ht htl
      have hmem : m.freelist t ∈ Ls t := by rw [htl]; exact List.mem_cons_self _ _
      rw [hk]
      refine ⟨fun e => if e = t then tl else Ls e, ?_, s1, fun h => absurd h hne, fun _ => ?_⟩
      · intro d hd
        by_cases e : d = t
        · simp only [e, if_true]; exact p1
        · simp only [e, if_false]
          exact p2 d (Ls d) e (hp d hd) (hs.2 t d ht hd (Ne.symm e) _ hmem)
      · refine ⟨t, ht, by simp only [if_true]; exact htl, ?_, s2⟩
        intro e he het
        simp only [het, if_false]
        exact ⟨trivial, hs.2 t e ht he (Ne.symm het) _ hmem⟩
  · intro p hv hfree
    obtain ⟨q1, q2⟩ := push_lists L m c p hv
    refine ⟨fun e => if e = c then p :: Ls c else Ls e, ?_,
      separate_update_cons Ls c p hs hfree hc, by simp, ?_⟩
    · intro d hd
      by_cases e : d = c
      · simp only [e, if_true]
        exact q1 (Ls c) (hp c hc) (hfree c hc)
      · simp only [e, if_false]
        exact q2 d (Ls d) e (hp d hd) (hfree d hd)
    · intro d _ hdc
      simp [hdc]

theorem pools_twoPages : Pools twoPages (fun c => if c = 1 then [8192, 12288] else []) := by
  intro c hc
  have : c < 8 := hc
  interval_cases c <;> decide

theorem separate_twoPages : Separate (fun c => if c = 1 then [8192, 12288] else []) := by
  refine ⟨?_, ?_⟩
  · intro c _
    by_cases h1 : c = 1 <;> simp [h1]
  · intro c d _ _ hcd q hq
    by_cases h1 : c = 1 <;> by_cases h2 : d = 1 <;> simp_all

/-- C19 at a concrete state: core 1 holds `[8192, 12288]`; core 0 allocates, and core 0
frees page 16384. -/
theorem free_lists_stay_separate_witness :
    Pools twoPages (fun c => if c = 1 then [8192, 12288] else []) ∧
      Separate (fun c => if c = 1 then [8192, 12288] else []) ∧
      (∃ Ls', Pools (kalloc twoPages 0).2 Ls' ∧ Separate Ls') ∧
      (∃ Ls', Pools (kfree smallLayout twoPages 0 16384).state Ls' ∧ Separate Ls') :=
  have h := free_lists_stay_separate smallLayout twoPages
    (fun c => if c = 1 then [8192, 12288] else []) 0 (by decide) pools_twoPages
    separate_twoPages
  ⟨pools_twoPages, separate_twoPages, h.1.imp (fun _ hL => ⟨hL.1, hL.2.1⟩),
    (h.2 16384 (by decide)
      (by intro d _; by_cases h1 : d = 1 <;> simp [h1])).imp (fun _ hL => ⟨hL.1, hL.2.1⟩)⟩

/-! ## `freerange` -/

theorem descPages_succ (p : Nat) :
    ∀ n, descPages p (n + 1) = descPages (p + PGSIZE) n ++ [p] := by
  intro n
  induction n with
  | zero => simp [descPages]
  | succ n ih =>
    have h1 : descPages p (n + 1 + 1) = (p + (n + 1) * PGSIZE) :: descPages p (n + 1) := rfl
    have h2 : descPages (p + PGSIZE) (n + 1)
        = (p + PGSIZE + n * PGSIZE) :: descPages (p + PGSIZE) n := rfl
    rw [h1, h2, ih]
    have : p + (n + 1) * PGSIZE = p + PGSIZE + n * PGSIZE := by ring
    rw [this]
    rfl

theorem mem_descPages (p a : Nat) :
    ∀ n, a ∈ descPages p n ↔ ∃ k, k < n ∧ a = p + k * PGSIZE := by
  intro n
  induction n with
  | zero => simp [descPages]
  | succ n ih =>
    have h1 : descPages p (n + 1) = (p + n * PGSIZE) :: descPages p n := rfl
    rw [h1, List.mem_cons, ih]
    constructor
    · rintro (h | ⟨k, hk, e⟩)
      · exact ⟨n, by omega, h⟩
      · exact ⟨k, by omega, e⟩
    · rintro ⟨k, hk, e⟩
      by_cases hkn : k = n
      · left; rw [e, hkn]
      · right; exact ⟨k, by omega, e⟩

/-- The loop of `freerange` started at an aligned `p` with exactly `n` pages left below
`pa_end`: it ends normally within `n + 1` tests, after pushing those pages in ascending
order on the list of core `c`. -/
theorem freerangeLoop_spec (L : Layout) (c pa_end : Nat) (hend : pa_end ≤ L.PHYSTOP) :
    ∀ n fuel p m pages, n < fuel → p % PGSIZE = 0 → L.kend ≤ p → p + PGSIZE < 2 ^ 64 →
      (0 < n → p + n * PGSIZE ≤ pa_end) → pa_end < p + (n + 1) * PGSIZE →
      FreeList m c pages → (∀ k, k < n → p + k * PGSIZE ∉ pages) →
      ∃ r, freerangeLoop L c pa_end fuel p m = some r ∧ r.status = .returned () ∧
        FreeList r.state c (descPages p n ++ pages) ∧
        (∀ d, d ≠ c → r.state.freelist d = m.freelist d) ∧
        (∀ d l, d ≠ c → FreeList m d l → (∀ k, k < n → p + k * PGSIZE ∉ l) →
          FreeList r.state d l) ∧
        (n = 0 → r.state = m) := by
  have hL := L.PHYSTOP_lt
  intro n
  induction n with
  | zero =>
    intro fuel p m pages hf _ _ hpb _ hgt hfl _
    obtain ⟨f, rfl⟩ : ∃ f, fuel = f + 1 := ⟨fuel - 1, by omega⟩
    have hcond : ¬((p + PGSIZE) % 2 ^ 64 ≤ pa_end) := by
      rw [Nat.mod_eq_of_lt hpb]
      simp only [PGSIZE] at *
      omega
    refine ⟨{ status := .returned (), state := m }, ?_, rfl, ?_, fun _ _ => rfl,
      fun _ _ _ h _ => h, fun _ => rfl⟩
    · simp only [freerangeLoop, hcond, if_false]
    · exact hfl
  | succ n ih =>
    intro fuel p m pages hf hal hk hpb hle hgt hfl hnew
    obtain ⟨f, rfl⟩ : ∃ f, fuel = f + 1 := ⟨fuel - 1, by omega⟩
    have hle' := hle (by omega)
    have hmod : (p + PGSIZE) % 2 ^ 64 = p + PGSIZE := Nat.mod_eq_of_lt hpb
    have hcond : (p + PGSIZE) % 2 ^ 64 ≤ pa_end := by
      rw [hmod]
      simp only [PGSIZE] at *
      omega
    have hv : ValidPage L p := by
      refine ⟨hal, hk, ?_⟩
      simp only [PGSIZE] at *
      omega
    obtain ⟨hst, hhead, _, _, _⟩ := kfree_valid L m c p hv
    obtain ⟨q1, q2⟩ := push_lists L m c p hv
    have hp0 : p ∉ pages := by
      have := hnew 0 (by omega)
      simpa using this
    have hrec := ih f (p + PGSIZE) (kfree L m c p).state (p :: pages) (by omega)
      (by simp only [PGSIZE] at *; omega) (by omega)
      (by simp only [PGSIZE] at *; omega)
      (by intro _; simp only [PGSIZE] at *; omega)
      (by simp only [PGSIZE] at *; omega)
      (q1 pages hfl hp0)
      (by
        intro k hkn hmem
        rcases List.mem_cons.1 hmem with e | e
        · simp only [PGSIZE] at e
          omega
        · have := hnew (k + 1) (by omega)
          have e2 : p + (k + 1) * PGSIZE = p + PGSIZE + k * PGSIZE := by ring
          rw [e2] at this
          exact this e)
    obtain ⟨r, r1, r2, r3, r4, r5, _⟩ := hrec
    refine ⟨r, ?_, r2, ?_, ?_, ?_, fun h => by omega⟩
    · simp only [freerangeLoop, hcond, if_true, hst]
      rw [hmod]
      exact r1
    · rw [descPages_succ, List.append_assoc]
      exact r3
    · intro d hd
      rw [r4 d hd, hhead d, if_neg hd]
    · intro d l hd hl hn
      have hpl : p ∉ l := by
        have := hn 0 (by omega)
        simpa using this
      refine r5 d l hd (q2 d l hd hl hpl) ?_
      intro k hkn
      have := hn (k + 1) (by omega)
      have e2 : p + (k + 1) * PGSIZE = p + PGSIZE + k * PGSIZE := by ring
      rw [e2] at this
      exact this

theorem PGROUNDUP_spec (L : Layout) (a : Nat) (ha : a ≤ L.PHYSTOP) :
    PGROUNDUP a % PGSIZE = 0 ∧ a ≤ PGROUNDUP a ∧ PGROUNDUP a < a + PGSIZE := by
  have hL := L.PHYSTOP_lt
  have hlt : a + PGSIZE - 1 < 2 ^ 64 := by
    simp only [PGSIZE] at *
    omega
  unfold PGROUNDUP
  rw [Nat.mod_eq_of_lt hlt]
  simp only [PGSIZE]
  omega

/-- C17, counterexample: the free list of core 0 is `[8192]` and the range from 8192 to
12288 lies inside the managed region; `freerange` frees the one page 8192 of the range,
and afterwards the free list of core 0 is not that page followed by the old list,
`[8192, 8192]`: the head is 8192 and its `next` field points to 8192 itself. -/
theorem freerange_of_free_page :
    FreeList onePage 0 [8192] ∧ smallLayout.kend ≤ 8192 ∧ 12288 ≤ smallLayout.PHYSTOP ∧
      (freerange smallLayout onePage 0 8192 12288).map (fun r => r.status)
        = some (.returned ()) ∧
      (freerange smallLayout onePage 0 8192 12288).map
        (fun r => decide (FreeList r.state 0 [8192, 8192])) = some false ∧
      (freerange smallLayout onePage 0 8192 12288).map (fun r => r.state.freelist 0)
        = some 8192 ∧
      (freerange smallLayout onePage 0 8192 12288).map (fun r => (r.state.mem 8192).next)
        = some 8192 := by
  decide

/-- C17, amended: let the range lie inside the managed region (`end <= pa_start`,
`pa_start <= PHYSTOP`, `pa_end <= PHYSTOP`), let `p0` be `PGROUNDUP(pa_start)`, and let none
of the pages `p0 + k * 4096` with `p0 + (k + 1) * 4096 <= pa_end` be in the free list of
core `c` already.  Then `freerange` on core `c` terminates normally; there are `n` such
pages, `k < n`; the free list of `c` becomes these pages, highest first, followed by the
list it was; the head pointer of every other core is unchanged, and so is every other
core's list that contains none of these pages; when `pa_end < p0 + 4096` the state is
unchanged. -/
theorem freerange_pushes_range (L : Layout) (m : Kmem) (c pa_start pa_end : Nat)
    (pages : List Nat) (h1 : L.kend ≤ pa_start) (h2 : pa_start ≤ L.PHYSTOP)
    (h3 : pa_end ≤ L.PHYSTOP) (hfl : FreeList m c pages)
    (hnew : ∀ k, PGROUNDUP pa_start + (k + 1) * PGSIZE ≤ pa_end →
      PGROUNDUP pa_start + k * PGSIZE ∉ pages) :
    ∃ r, freerange L m c pa_start pa_end = some r ∧ r.status = .returned () ∧
      (∀ k, k < (pa_end - PGROUNDUP pa_start) / PGSIZE ↔
        PGROUNDUP pa_start + (k + 1) * PGSIZE ≤ pa_end) ∧
      FreeList r.state c
        (descPages (PGROUNDUP pa_start) ((pa_end - PGROUNDUP pa_start) / PGSIZE) ++ pages) ∧
      (∀ d, d ≠ c → r.state.freelist d = m.freelist d) ∧
      (∀ d l, d ≠ c → FreeList m d l →
        (∀ k, PGROUNDUP pa_start + (k + 1) * PGSIZE ≤ pa_end →
          PGROUNDUP pa_start + k * PGSIZE ∉ l) → FreeList r.state d l) ∧
      (pa_end < PGROUNDUP pa_start + PGSIZE → r.state = m) := by
  have hL := L.PHYSTOP_lt
  obtain ⟨g1, g2, g3⟩ := PGROUNDUP_spec L pa_start h2
  unfold freerange
  generalize PGROUNDUP pa_start = p0 at *
  have hP : PGSIZE = 4096 := rfl
  rw [hP] at g1 g3 hL
  have hiff : ∀ k, k < (pa_end - p0) / PGSIZE ↔ p0 + (k + 1) * PGSIZE ≤ pa_end := by
    intro k
    rw [hP]
    omega
  have hn1 : 0 < (pa_end - p0) / PGSIZE → p0 + (pa_end - p0) / PGSIZE * PGSIZE ≤ pa_end := by
    rw [hP]
    omega
  have hn2 : pa_end < p0 + ((pa_end - p0) / PGSIZE + 1) * PGSIZE := by
    rw [hP]
    omega
  have hn3 : (pa_end - p0) / PGSIZE < pa_end / PGSIZE + 1 := by
    rw [hP]
    omega
  have hn4 : p0 + PGSIZE < 2 ^ 64 := by
    rw [hP]
    omega
  have hspec := freerangeLoop_spec L c pa_end h3 ((pa_end - p0) / PGSIZE) (pa_end / PGSIZE + 1)
    p0 m pages hn3 (by rw [hP]; exact g1) (by omega) hn4 hn1 hn2 hfl
    (fun k hk => hnew k ((hiff k).1 hk))
  obtain ⟨r, r1, r2, r3, r4, r5, r6⟩ := hspec
  refine ⟨r, r1, r2, hiff, r3, r4, ?_, ?_⟩
  · intro d l hd hl hn
    exact r5 d l hd hl (fun k hk => hn k ((hiff k).1 hk))
  · intro hlt
    refine r6 ?_
    rw [hP] at hlt ⊢
    omega

/-- C17, amended, at a concrete input: with every list empty, core 0 frees the range from
8192 to 20480 and gets the list `[16384, 12288, 8192]`. -/
theorem freerange_pushes_range_witness :
    smallLayout.kend ≤ 8192 ∧ 8192 ≤ smallLayout.PHYSTOP ∧ 20480 ≤ smallLayout.PHYSTOP ∧
      FreeList emptyKmem 0 [] ∧
      ∃ r, freerange smallLayout emptyKmem 0 8192 20480 = some r ∧ r.status = .returned () ∧
        FreeList r.state 0 [16384, 12288, 8192] :=
  ⟨by decide, by decide, by decide, by decide,
    (freerange_pushes_range smallLayout emptyKmem 0 8192 20480 [] (by decide) (by decide)
      (by decide) (by decide) (by intro k _ h; cases h)).imp
      (fun _ h => ⟨h.1, h.2.1, h.2.2.2.1⟩)⟩

end Kalloc
